import Mathlib

/-!
# Verification of the perfect-validator core against its specification

This file gives a shallow embedding, in Lean 4, of the validation engine and
the model (de)serialization layer of the `perfect-validator` TypeScript
repository, and settles the frozen claims C1..C10 about it.

Modelling conventions, stated once:

* JavaScript values are embedded as the inductive `DVal` below.  JS `undefined`
  and `null` are distinct constructors.  JS numbers are embedded as `Int`
  (every number appearing in the claims and in the repository's own models is
  an integer; fractional doubles, `NaN` and `Infinity` are outside the
  embedding, and no theorem below depends on them).
* JS exceptions are embedded with `Except String`: a thrown error is
  `Except.error msg` where `msg` is the error's message string.
* JS objects are insertion-ordered association lists (`DFields`); `Object`
  identity is not modelled, so `===` on two objects is structural here where
  JS compares references.  No claim below depends on object identity.
* The regular-expression membership tests for the EMAIL/URL/DATE/PHONE/REGEX
  type tags (`PATTERNS` and `new RegExp(rule.pattern)` in the source) are
  abstracted by the constant-`false` function `patternTest`; no claim below
  exercises those type tags, and the round-trip claim C1 only needs the two
  sides of the round trip to call the same test on the same arguments.

Source files are cited by path and line as they appear in the repository
(`src/src/validators/index.ts`, `src/src/PV.ts`, and the serializer module
`src/unnamed/part_011`).
-/

mutual

/-- Dynamic JavaScript value universe.  `fn` carries a syntactic function (a
parameter list plus a body in the small predicate language `FStmt`/`FExpr`);
`arr`/`obj` use the mutual list types so that all structural recursions over
`DVal` are kernel-reducible. -/
inductive DVal : Type where
  | undef : DVal
  | dnull : DVal
  | bool (b : Bool) : DVal
  | num (n : Int) : DVal
  | str (s : String) : DVal
  | arr (xs : DList) : DVal
  | obj (fs : DFields) : DVal
  | fn (params : List String) (body : FStmt) (form : FForm) : DVal

inductive DList : Type where
  | nil : DList
  | cons (v : DVal) (tl : DList) : DList

inductive DFields : Type where
  | nil : DFields
  | cons (k : String) (v : DVal) (tl : DFields) : DFields

/-- Surface form a function's source text was written in; it only affects
`toString` (our `printFunc`), not the function's behaviour. `arrowExpr true`
is an arrow function whose single parameter is written without parentheses. -/
inductive FForm : Type where
  | arrowExpr (bare : Bool) : FForm
  | arrowBlock (bare : Bool) : FForm
  | classic : FForm

/-- Body of an embedded function: a single `return` statement or a single
`throw new Error('...')` statement.  The functions stored in validation
models are small predicates, and this is exactly the shape the repository's
own models use. -/
inductive FStmt : Type where
  | ret (e : FExpr) : FStmt
  | throwE (msg : String) : FStmt

/-- Expression language of embedded predicate functions: literals, parameter
references, property access, logical negation and binary operators. -/
inductive FExpr : Type where
  | lnull : FExpr
  | lundef : FExpr
  | lbool (b : Bool) : FExpr
  | lnum (n : Int) : FExpr
  | lstr (s : String) : FExpr
  | pvar (x : String) : FExpr
  | member (e : FExpr) (name : String) : FExpr
  | enot (e : FExpr) : FExpr
  | ebin (op : BOp) (a b : FExpr) : FExpr

/-- Binary operators available in embedded predicates: strict (in)equality,
comparisons, and the short-circuiting logical connectives. -/
inductive BOp : Type where
  | eq3 : BOp
  | ne3 : BOp
  | blt : BOp
  | bgt : BOp
  | ble : BOp
  | bge : BOp
  | band : BOp
  | bor : BOp

end

/-- Length of a `DList`. -/
def DList.length : DList → Nat
  | .nil => 0
  | .cons _ tl => 1 + tl.length

/-- Append two `DList`s. -/
def DList.append : DList → DList → DList
  | .nil, ys => ys
  | .cons x tl, ys => .cons x (tl.append ys)

/-- Convert a `DList` to a Lean list. -/
def DList.toList : DList → List DVal
  | .nil => []
  | .cons v tl => v :: tl.toList

/-- Build a `DList` from a Lean list. -/
def DList.ofList : List DVal → DList
  | [] => .nil
  | v :: tl => .cons v (DList.ofList tl)

/-- Index lookup in a `DList` (JS `xs[i]`); absent index gives `undefined`. -/
def DList.get : DList → Nat → DVal
  | .nil, _ => .undef
  | .cons v _, 0 => v
  | .cons _ tl, n + 1 => tl.get n

/-- Convert a `DFields` association list to a Lean list. -/
def DFields.toList : DFields → List (String × DVal)
  | .nil => []
  | .cons k v tl => (k, v) :: tl.toList

/-- Build a `DFields` from a Lean list. -/
def DFields.ofList : List (String × DVal) → DFields
  | [] => .nil
  | (k, v) :: tl => .cons k v (DFields.ofList tl)

/-- First-match association lookup (JS property read on a plain object);
a missing key reads as `undefined`. -/
def DFields.get : DFields → String → DVal
  | .nil, _ => .undef
  | .cons k v tl, key => if k = key then v else tl.get key

/-- Key-presence test, mirroring the JS `in` operator (present even when the
stored value is `undefined`). -/
def DFields.hasKey : DFields → String → Bool
  | .nil, _ => false
  | .cons k _ tl, key => if k = key then true else tl.hasKey key

/-- JS property write `o[k] = v`: replaces the first binding of `k` in place,
or appends a new binding at the end (JS insertion order). -/
def DFields.set : DFields → String → DVal → DFields
  | .nil, key, v => .cons key v .nil
  | .cons k w tl, key, v =>
      if k = key then .cons k v tl else .cons k w (tl.set key v)

/-- JS truthiness: `undefined`, `null`, `false`, `0` and `""` are falsy,
everything else (including `[]` and `\x7b\x7d`) is truthy.  (`NaN`, the one
other falsy JS value, has no representation in the `Int` number model.) -/
def truthy : DVal → Bool
  | .undef => false
  | .dnull => false
  | .bool b => b
  | .num n => n != 0
  | .str s => s ≠ ""
  | .arr _ => true
  | .obj _ => true
  | .fn _ _ _ => true

/-- The JS `typeof` operator on embedded values (`typeof null` is
`"object"`, arrays are `"object"`). -/
def jsTypeof : DVal → String
  | .undef => "undefined"
  | .dnull => "object"
  | .bool _ => "boolean"
  | .num _ => "number"
  | .str _ => "string"
  | .arr _ => "object"
  | .obj _ => "object"
  | .fn _ _ _ => "function"

/-- `Array.isArray`. -/
def isArray : DVal → Bool
  | .arr _ => true
  | _ => false

/-- Is every character of `s` a decimal digit, and `s` nonempty?  This is the
JS regex test `/^\d+$/.test s` used by `getNestedValue`. -/
def allDigits (s : String) : Bool :=
  s.data ≠ [] && s.data.all (fun c => c.isDigit)

/-- Decimal value of a digit string (the effect of `parseInt(part, 10)` on a
string already known to match `/^\d+$/`). -/
def digitsToNat (s : String) : Nat :=
  s.data.foldl (fun acc c => acc * 10 + (c.toNat - 48)) 0

/-- Property read `v[key]` for a string key, total (used where the source
either guards the base against `null`/`undefined` or uses optional
chaining): objects by association lookup, arrays by numeric index or
`length`, strings by `length` or per-character index; reads on primitives
yield `undefined` (JS wraps them in short-lived wrapper objects with no own
properties that we use). -/
def jsGet : DVal → String → DVal
  | .obj fs, key => fs.get key
  | .arr xs, key =>
      if key = "length" then .num (xs.length : Int)
      else if allDigits key then xs.get (digitsToNat key)
      else .undef
  | .str s, key =>
      if key = "length" then .num (s.length : Int)
      else if allDigits key then
        (if h : digitsToNat key < s.data.length
         then .str (String.mk [s.data.get ⟨digitsToNat key, h⟩])
         else .undef)
      else .undef
  | _, _ => (.undef)

/-- Property read `v.key` as an expression that can throw: reading a property
of `undefined` or `null` is a `TypeError` in JS. -/
def getProp (v : DVal) (key : String) : Except String DVal :=
  match v with
  | .undef => .error ("TypeError: Cannot read properties of undefined (reading " ++ key ++ ")")
  | .dnull => .error ("TypeError: Cannot read properties of null (reading " ++ key ++ ")")
  | v => .ok (jsGet v key)

/-- Decimal digit characters of `n`, most significant first, by fuel-bounded
division (kernel-reducible, unlike well-founded recursion). -/
def natDecAux : Nat → Nat → List Char
  | 0, _ => []
  | fuel + 1, n =>
      if n = 0 then [] else natDecAux fuel (n / 10) ++ [Char.ofNat (48 + n % 10)]

/-- Decimal rendering of a natural number. -/
def natDec (n : Nat) : List Char :=
  if n = 0 then ['0'] else natDecAux (n + 1) n

/-- Decimal rendering of an integer (JS `Number.prototype.toString` for the
integral numbers of this embedding). -/
def intDec (n : Int) : List Char :=
  if n < 0 then '-' :: natDec n.natAbs else natDec n.natAbs

/-- String form of an embedded number. -/
def numToString (n : Int) : String :=
  String.mk (intDec n)

/-- String form of a natural number (used for array keys). -/
def natToString (n : Nat) : String :=
  String.mk (natDec n)

/-- Index access `v[i]` with a numeric index (`current[parseInt(part, 10)]`
in `getNestedValue`): array index, string character, or — for plain objects —
the stringified numeric key, exactly as JS coerces `o[2]` to `o["2"]`. -/
def jsGetIdx (v : DVal) (i : Nat) : DVal :=
  match v with
  | .arr xs => xs.get i
  | .str s =>
      if h : i < s.data.length then .str (String.mk [s.data.get ⟨i, h⟩]) else .undef
  | .obj fs => fs.get (natToString i)
  | _ => (.undef)

/-- `Object.entries` on an embedded value: own enumerable entries in
insertion order for objects, index/value pairs for arrays, index/character
pairs for strings, and `[]` for every primitive. -/
def jsEntries (v : DVal) : List (String × DVal) :=
  match v with
  | .obj fs => fs.toList
  | .arr xs => (List.range xs.toList.length).map (fun i => (natToString i, xs.get i))
  | .str s => (List.range s.data.length).map
      (fun i => (natToString i, jsGetIdx (.str s) i))
  | _ => []

/-- The own enumerable entries captured by an object spread `\x7b ...v \x7d`
(same entries as `jsEntries`, which is what the spread copies for the values
the validator ever spreads). -/
def spreadEntries (v : DVal) : DFields :=
  DFields.ofList (jsEntries v)

mutual

/-- Structural equality test on embedded values, playing the role of the JS
strict-equality `===` (and of `Array.prototype.includes`' SameValueZero) on
the values the claims exercise.  On two functions or two objects JS compares
references; this embedding compares structure — no claim below compares
functions or relies on two structurally equal objects being distinguishable. -/
def DVal.beq : DVal → DVal → Bool
  | .undef, .undef => true
  | .dnull, .dnull => true
  | .bool a, .bool b => a == b
  | .num a, .num b => a == b
  | .str a, .str b => a == b
  | .arr a, .arr b => DList.beq a b
  | .obj a, .obj b => DFields.beq a b
  | .fn p b f, .fn p' b' f' => p == p' && FStmt.beq b b' && FForm.beq f f'
  | _, _ => false

def DList.beq : DList → DList → Bool
  | .nil, .nil => true
  | .cons a tl, .cons b tl' => DVal.beq a b && DList.beq tl tl'
  | _, _ => false

def DFields.beq : DFields → DFields → Bool
  | .nil, .nil => true
  | .cons k a tl, .cons k' b tl' => k == k' && DVal.beq a b && DFields.beq tl tl'
  | _, _ => false

def FForm.beq : FForm → FForm → Bool
  | .arrowExpr a, .arrowExpr b => a == b
  | .arrowBlock a, .arrowBlock b => a == b
  | .classic, .classic => true
  | _, _ => false

def FStmt.beq : FStmt → FStmt → Bool
  | .ret a, .ret b => FExpr.beq a b
  | .throwE a, .throwE b => a == b
  | _, _ => false

def FExpr.beq : FExpr → FExpr → Bool
  | .lnull, .lnull => true
  | .lundef, .lundef => true
  | .lbool a, .lbool b => a == b
  | .lnum a, .lnum b => a == b
  | .lstr a, .lstr b => a == b
  | .pvar a, .pvar b => a == b
  | .member e n, .member e' n' => FExpr.beq e e' && n == n'
  | .enot a, .enot b => FExpr.beq a b
  | .ebin o a b, .ebin o' a' b' => BOp.beq o o' && FExpr.beq a a' && FExpr.beq b b'
  | _, _ => false

def BOp.beq : BOp → BOp → Bool
  | .eq3, .eq3 => true
  | .ne3, .ne3 => true
  | .blt, .blt => true
  | .bgt, .bgt => true
  | .ble, .ble => true
  | .bge, .bge => true
  | .band, .band => true
  | .bor, .bor => true
  | _, _ => false

end

/-- The single-quote character used by JS string-literal source text. -/
def quoteC : Char := Char.ofNat 39

/-- A single-quoted JS string-literal rendering of `s`. -/
def quoteS (s : String) : String :=
  String.mk [quoteC] ++ s ++ String.mk [quoteC]

/-- Source text of a binary operator. -/
def opText : BOp → String
  | .eq3 => "==="
  | .ne3 => "!=="
  | .blt => "<"
  | .bgt => ">"
  | .ble => "<="
  | .bge => ">="
  | .band => "&&"
  | .bor => "||"

/-- Does a member-access base need parenthesising when printed
(`(a === b).x`, `(!a).x`, `(5).x`)? -/
def wrapBase : FExpr → Bool
  | .ebin _ _ _ => true
  | .enot _ => true
  | .lnum _ => true
  | _ => false

/-- Source text of an expression.  Binary expressions are printed fully
parenthesised with single spaces around the operator. -/
def printExpr : FExpr → String
  | .lnull => "null"
  | .lundef => "undefined"
  | .lbool true => "true"
  | .lbool false => "false"
  | .lnum n => numToString n
  | .lstr s => quoteS s
  | .pvar x => x
  | .member e n =>
      (if wrapBase e then "(" ++ printExpr e ++ ")" else printExpr e) ++ "." ++ n
  | .enot e => "!" ++ printExpr e
  | .ebin op a b =>
      "(" ++ printExpr a ++ " " ++ opText op ++ " " ++ printExpr b ++ ")"

/-- Source text of a statement. -/
def printStmt : FStmt → String
  | .ret e => "return " ++ printExpr e ++ ";"
  | .throwE m => "throw new Error(" ++ quoteS m ++ ");"

/-- Parenthesised parameter-list source text. -/
def printParams (params : List String) : String :=
  "(" ++ String.intercalate ", " params ++ ")"

/-- Parameter chunk of an arrow function: a bare single identifier when the
function was written that way, else the parenthesised list. -/
def paramChunk (bare : Bool) (params : List String) : String :=
  match bare, params with
  | true, [p] => p
  | _, _ => printParams params

/-- `Function.prototype.toString` on an embedded function: reproduces the
single-line source text in the surface form it was written in. -/
def printFunc (params : List String) (body : FStmt) : FForm → String
  | .arrowExpr bare =>
      match body with
      | .ret e => paramChunk bare params ++ " => " ++ printExpr e
      | .throwE m =>
          paramChunk bare params ++ " => \x7b " ++ printStmt (.throwE m) ++ " \x7d"
  | .arrowBlock bare =>
      paramChunk bare params ++ " => \x7b " ++ printStmt body ++ " \x7d"
  | .classic =>
      "function " ++ printParams params ++ " \x7b " ++ printStmt body ++ " \x7d"

mutual

/-- JS `String(v)` string coercion on the values this development touches. -/
def jsToString : DVal → String
  | .undef => "undefined"
  | .dnull => "null"
  | .bool true => "true"
  | .bool false => "false"
  | .num n => numToString n
  | .str s => s
  | .arr xs => jsToStringList xs
  | .obj _ => "[object Object]"
  | .fn p b f => printFunc p b f

/-- `Array.prototype.toString`/`join(",")`: elements stringified and joined
with commas, `null`/`undefined` elements rendered as empty strings. -/
def jsToStringList : DList → String
  | .nil => ""
  | .cons v .nil =>
      (match v with
       | .undef => ""
       | .dnull => ""
       | v => jsToString v)
  | .cons v tl =>
      (match v with
       | .undef => ""
       | .dnull => ""
       | v => jsToString v) ++ "," ++ jsToStringList tl

end

/-- One joined element: `null`/`undefined` become `""`. -/
def jsToStringElem : DVal → String
  | .undef => ""
  | .dnull => ""
  | v => jsToString v

/-- `Array.prototype.join(sep)`: the separator-joined stringified elements,
as used by the validator's `rule.values.join(', ')`. -/
def jsJoin (xs : DList) (sep : String) : String :=
  match xs with
  | .nil => ""
  | .cons v .nil => jsToStringElem v
  | .cons v tl => jsToStringElem v ++ sep ++ jsJoin tl sep

/-- Numeric coercion used by JS relational operators, restricted to the
values this embedding compares: numbers, booleans and `null`.  Strings are
only compared with strings here (JS would also coerce numeric strings; no
claim below compares a string with a number). -/
def cmpNum : DVal → Option Int
  | .num n => some n
  | .bool b => some (if b then 1 else 0)
  | .dnull => some 0
  | _ => none

/-- JS `<` (false whenever either side coerces like `NaN`). -/
def jsLT (a b : DVal) : Bool :=
  match a, b with
  | .str x, .str y => decide (x < y)
  | _, _ =>
      match cmpNum a, cmpNum b with
      | some x, some y => decide (x < y)
      | _, _ => false

/-- JS `>`. -/
def jsGT (a b : DVal) : Bool :=
  match a, b with
  | .str x, .str y => decide (y < x)
  | _, _ =>
      match cmpNum a, cmpNum b with
      | some x, some y => decide (y < x)
      | _, _ => false

/-- JS `<=`. -/
def jsLE (a b : DVal) : Bool :=
  match a, b with
  | .str x, .str y => decide (x ≤ y)
  | _, _ =>
      match cmpNum a, cmpNum b with
      | some x, some y => decide (x ≤ y)
      | _, _ => false

/-- JS `>=`. -/
def jsGE (a b : DVal) : Bool :=
  match a, b with
  | .str x, .str y => decide (y ≤ x)
  | _, _ =>
      match cmpNum a, cmpNum b with
      | some x, some y => decide (y ≤ x)
      | _, _ => false

/-- Non-short-circuiting binary operators. -/
def applyBinOp : BOp → DVal → DVal → DVal
  | .eq3, a, b => .bool (DVal.beq a b)
  | .ne3, a, b => .bool (! DVal.beq a b)
  | .blt, a, b => .bool (jsLT a b)
  | .bgt, a, b => .bool (jsGT a b)
  | .ble, a, b => .bool (jsLE a b)
  | .bge, a, b => .bool (jsGE a b)
  | .band, a, b => if truthy a then b else a
  | .bor, a, b => if truthy a then a else b

/-- Evaluate an expression under a parameter environment.  Unbound
identifiers are `ReferenceError`s, property reads on `undefined`/`null` are
`TypeError`s — both surface as `Except.error`, the embedding of a JS throw. -/
def evalExpr (env : List (String × DVal)) : FExpr → Except String DVal
  | .lnull => .ok .dnull
  | .lundef => .ok .undef
  | .lbool b => .ok (.bool b)
  | .lnum n => .ok (.num n)
  | .lstr s => .ok (.str s)
  | .pvar x =>
      match env.lookup x with
      | some v => .ok v
      | none => .error ("ReferenceError: " ++ x ++ " is not defined")
  | .member e n => do
      let v ← evalExpr env e
      match v with
      | .undef => .error ("TypeError: Cannot read properties of undefined (reading " ++ n ++ ")")
      | .dnull => .error ("TypeError: Cannot read properties of null (reading " ++ n ++ ")")
      | v => .ok (jsGet v n)
  | .enot e => do
      let v ← evalExpr env e
      .ok (.bool (! truthy v))
  | .ebin .band a b => do
      let va ← evalExpr env a
      if truthy va then evalExpr env b else .ok va
  | .ebin .bor a b => do
      let va ← evalExpr env a
      if truthy va then .ok va else evalExpr env b
  | .ebin op a b => do
      let va ← evalExpr env a
      let vb ← evalExpr env b
      .ok (applyBinOp op va vb)

/-- Execute a function body. -/
def evalStmt (env : List (String × DVal)) : FStmt → Except String DVal
  | .ret e => evalExpr env e
  | .throwE m => .error m

/-- Bind declared parameters to supplied arguments; missing arguments bind to
`undefined`, extra arguments are ignored (JS call semantics). -/
def bindParams : List String → List DVal → List (String × DVal)
  | [], _ => []
  | p :: ps, [] => (p, .undef) :: bindParams ps []
  | p :: ps, a :: as => (p, a) :: bindParams ps as

/-- Call an embedded function value. -/
def applyFunc (params : List String) (body : FStmt) (args : List DVal) : Except String DVal :=
  evalStmt (bindParams params args) body

/-- JS call `f(args...)`: a `TypeError` when the callee is not a function. -/
def jsCall (f : DVal) (args : List DVal) : Except String DVal :=
  match f with
  | .fn p b _ => applyFunc p b args
  | _ => .error "TypeError: value is not a function"

/-- Is `c` one of the path delimiters of `getNestedValue`'s split regex
`/\.|\[|\]/`? -/
def isPathDelim (c : Char) : Bool :=
  c = '.' || c = '[' || c = ']'

/-- `path.split(/\.|\[|\]/)` (keeping empty pieces), accumulator version. -/
def splitTokensAux : List Char → List Char → List String
  | [], cur => [String.mk cur.reverse]
  | c :: rest, cur =>
      if isPathDelim c then String.mk cur.reverse :: splitTokensAux rest []
      else splitTokensAux rest (c :: cur)

/-- `path.split(/\.|\[|\]/).filter(Boolean)`: the token list of a field path
(`"a[2].b"` and `"a.2.b"` both tokenize to `["a", "2", "b"]`). -/
def splitTokens (path : String) : List String :=
  (splitTokensAux path.data []).filter (fun t => t ≠ "")

/-- One step of the `getNestedValue` loop body: all-digit parts are looked up
as numeric indices (`current[parseInt(part, 10)]`), others as plain
properties. -/
def stepPart (cur : DVal) (part : String) : DVal :=
  if allDigits part then jsGetIdx cur (digitsToNat part) else jsGet cur part

/-- The `getNestedValue` loop: before each part the current value is tested
for JS *truthiness* (`if (!current) return undefined`), so any falsy
intermediate — not just a nullish one — short-circuits to `undefined`. -/
def gnvWalk : DVal → List String → DVal
  | cur, [] => cur
  | cur, part :: rest =>
      if truthy cur then gnvWalk (stepPart cur part) rest else (.undef)

/-- `getNestedValue(obj, path)` — src/src/validators/index.ts lines 26–43. -/
def getNestedValue (obj : DVal) (path : String) : DVal :=
  gnvWalk obj (splitTokens path)

/-- The same walk without the short-circuit: the value reached after
consuming a prefix of the token list, used to state which intermediate value
a path prefix "resolves to". -/
def pureWalk (obj : DVal) (parts : List String) : DVal :=
  parts.foldl stepPart obj

/-- Nullish means `undefined` or `null`. -/
def isNullish : DVal → Bool
  | .undef => true
  | .dnull => true
  | _ => false

/-- The `PV` façade instance — src/src/PV.ts lines 5–11.  Only the storage
reference matters here; the storage backend type is a parameter. -/
structure PVInst (σ : Type) where
  storage : σ

/-- `PV.getInstance(storage)` — src/src/PV.ts lines 30–42.  The class keeps a
static `instance` field (the `Option (PVInst σ)` state); a call constructs a
new instance only when that field is unset, and always returns the field's
value afterwards.  The result is the returned instance paired with the new
static-field state. -/
def PV.getInstance {σ : Type} (state : Option (PVInst σ)) (storage : σ) :
    PVInst σ × Option (PVInst σ) :=
  match state with
  | none => (⟨storage⟩, some ⟨storage⟩)
  | some i => (i, some i)

/-- The static-field state after a sequence of further `getInstance` calls. -/
def getInstanceSeq {σ : Type} (init : Option (PVInst σ)) (ss : List σ) :
    Option (PVInst σ) :=
  ss.foldl (fun st s => (PV.getInstance st s).2) init

/-- Is the value exactly `undefined` (JS `=== undefined`)? -/
def isUndef : DVal → Bool
  | .undef => true
  | _ => false

/-- Is the value exactly `null` (JS `=== null`)? -/
def isNull : DVal → Bool
  | .dnull => true
  | _ => false

/-- Is `sub` a contiguous infix of `l`? -/
def isInfixB (sub : List Char) : List Char → Bool
  | [] => sub.isEmpty
  | c :: rest => sub.isPrefixOf (c :: rest) || isInfixB sub rest

/-- Substring containment `s.includes(sub)` on strings. -/
def containsSub (sub s : String) : Bool :=
  isInfixB sub.data s.data

/-- `s.includes('.')`. -/
def containsDot (s : String) : Bool :=
  s.data.contains '.'

mutual

/-- `JSON.parse(JSON.stringify(v))` on an embedded value: a deep structural
clone in which object entries whose value is `undefined` or a function are
dropped, and array elements that are `undefined` or a function become
`null`.  (`JSON.stringify` then `JSON.parse` on the text is exactly this tree
transformation for the finite, cycle-free trees of this embedding; the
intermediate text itself carries no further information.) -/
def jsonClone : DVal → DVal
  | .obj fs => .obj (jsonCloneFields fs)
  | .arr xs => .arr (jsonCloneList xs)
  | v => v

/-- Array elements under JSON cloning. -/
def jsonCloneList : DList → DList
  | .nil => .nil
  | .cons v tl =>
      match v with
      | .undef => .cons .dnull (jsonCloneList tl)
      | .fn _ _ _ => .cons .dnull (jsonCloneList tl)
      | v => .cons (jsonClone v) (jsonCloneList tl)

/-- Object entries under JSON cloning. -/
def jsonCloneFields : DFields → DFields
  | .nil => .nil
  | .cons k v tl =>
      match v with
      | .undef => jsonCloneFields tl
      | .fn _ _ _ => jsonCloneFields tl
      | v => .cons k (jsonClone v) (jsonCloneFields tl)

end

/-- `parseArrayType(type)` — src/src/validators/index.ts lines 45–53: a tag
of the shape `L<X>` denotes an array of `X`. -/
def parseArrayType (type : String) : Bool × String :=
  if "L<".data.isPrefixOf type.data && ">".data.isSuffixOf type.data then
    (true, String.mk (type.data.drop 2).dropLast)
  else
    (false, type)

/-- `isValidationRule(rule)` — src/src/validators/index.ts lines 55–57:
`typeof rule === 'object' && rule !== null` (note that arrays pass). -/
def isValidationRule (rule : DVal) : Bool :=
  jsTypeof rule == "object" && !(isNull rule)

/-- The regex membership tests of the type registry (`PATTERNS.EMAIL.test`,
`new RegExp(rule.pattern).test`, …).  Abstracted as constantly `false`: no
claim in this file exercises the EMAIL/URL/DATE/PHONE/REGEX tags, and the
round-trip claim only needs both sides of the round trip to invoke the same
test on the same pattern and subject. -/
def patternTest (pattern : String) (s : String) : Bool :=
  false

/-- `Number.isInteger` — every number of the `Int` embedding is integral. -/
def numberIsInteger : DVal → Bool
  | .num _ => true
  | _ => false

/-- Explicit sequencing of fallible steps (definitionally `Except.bind`;
kept as its own definition so that proofs can reason by plain case
analysis). -/
def exBind {a b : Type} (x : Except String a) (f : a -> Except String b) : Except String b :=
  match x with
  | .error m => .error m
  | .ok v => f v

/-- `getDefaultValue(rule)` inside `applyDefaults` —
src/src/validators/index.ts lines 63–81.  An explicit `default` is invoked
when it is a function and JSON-cloned otherwise; with no explicit default, a
type-derived default is substituted for the S/N/B/L/M tags, and `undefined`
for every other (or missing) tag. -/
def getDefaultValue (rule : DVal) : Except String DVal :=
  let d := jsGet rule "default"
  if !(isUndef d) then
    match d with
    | .fn p b _ => applyFunc p b []
    | _ => .ok (jsonClone d)
  else
    let t := jsGet rule "type"
    if truthy t then
      .ok (if DVal.beq t (.str "S") then .str ""
           else if DVal.beq t (.str "N") then .num 0
           else if DVal.beq t (.str "B") then .bool false
           else if DVal.beq t (.str "L") then .arr .nil
           else if DVal.beq t (.str "M") then .obj .nil
           else .undef)
    else .ok (.undef)

/-- The `Object.entries(model).forEach` loop of `applyDefaults` —
src/src/validators/index.ts lines 83–87. -/
def applyDefaultsLoop : List (String × DVal) → DFields → Except String DFields
  | [], result => .ok result
  | (key, rule) :: rest, result =>
      if isUndef (result.get key) && isValidationRule rule && !(truthy (jsGet rule "optional")) then
        exBind (getDefaultValue rule) (fun dv => applyDefaultsLoop rest (result.set key dv))
      else
        applyDefaultsLoop rest result

/-- `applyDefaults(data, model)` — src/src/validators/index.ts lines 60–90.
Starts from a shallow copy `\x7b ...data \x7d` and fills every key that reads
as `undefined` and whose rule is a non-optional object rule. -/
def applyDefaults (data model : DVal) : Except String DVal :=
  exBind (applyDefaultsLoop (jsEntries model) (spreadEntries data))
    (fun fs => .ok (.obj fs))

/-- `validateType(value, type, rule?)` — src/src/validators/index.ts lines
92–122.  The switch is on strict string equality, so any unlisted (or
non-string) tag falls to the `default: return false` branch.  `isNaN` is
constantly false in the `Int` number model. -/
def validateType (value : DVal) (type : String) (rule : DVal) : Bool :=
  match type with
  | "S" => jsTypeof value == "string"
  | "N" =>
      if jsTypeof value != "number" then false
      else if truthy (jsGet rule "decimal") then
        let decimalPlaces : Nat := (((jsToString value).splitOn ".").getD 1 "").length
        if !(isUndef (jsGet rule "decimals")) &&
            !(DVal.beq (.num (decimalPlaces : Int)) (jsGet rule "decimals")) then false
        else true
      else true
  | "B" => jsTypeof value == "boolean"
  | "L" => isArray value
  | "M" => jsTypeof value == "object" && !(isNull value) && !(isArray value)
  | "EMAIL" => jsTypeof value == "string" && patternTest "EMAIL" (jsToString value)
  | "URL" => jsTypeof value == "string" && patternTest "URL" (jsToString value)
  | "DATE" => jsTypeof value == "string" && patternTest "DATE" (jsToString value)
  | "PHONE" => jsTypeof value == "string" && patternTest "PHONE" (jsToString value)
  | "REGEX" =>
      jsTypeof value == "string" &&
        (if truthy (jsGet rule "pattern") then
          patternTest (jsToString (jsGet rule "pattern")) (jsToString value)
         else false)
  | _ => false

/-- `getTypeDescription(rule)` — src/src/validators/index.ts lines 124–152,
fuel-bounded for the `items` recursion of the `L` case (the callers below
always supply sufficient fuel).  The function is only ever invoked by the
source on a string rule or an object rule whose property reads are safe, so
total `jsGet` reads are faithful here. -/
def getTypeDescription (fuel : Nat) (rule : DVal) : String :=
  match fuel with
  | 0 => "unknown"
  | fuel + 1 =>
    match rule with
    | .str s => s
    | _ =>
      let t := jsGet rule "type"
      if !(truthy t) then "unknown"
      else
        match t with
        | .str "S" =>
            "string" ++
            (if truthy (jsGet rule "minLength") then
              " (min length: " ++ jsToString (jsGet rule "minLength") ++ ")" else "") ++
            (if truthy (jsGet rule "maxLength") then
              " (max length: " ++ jsToString (jsGet rule "maxLength") ++ ")" else "")
        | .str "N" =>
            "number" ++
            (if !(isUndef (jsGet rule "min")) then
              " (min: " ++ jsToString (jsGet rule "min") ++ ")" else "") ++
            (if !(isUndef (jsGet rule "max")) then
              " (max: " ++ jsToString (jsGet rule "max") ++ ")" else "") ++
            (if truthy (jsGet rule "decimal") then " (decimal)" else "")
        | .str "EMAIL" => "email address"
        | .str "URL" => "URL"
        | .str "DATE" => "date (YYYY-MM-DD)"
        | .str "PHONE" => "phone number"
        | .str "B" => "boolean"
        | .str "L" =>
            "array" ++
            (if truthy (jsGet rule "items") then
              " of " ++ getTypeDescription fuel (jsGet rule "items") else "")
        | .str "REGEX" =>
            "string matching pattern: " ++ jsToString (jsGet rule "pattern")
        | .str other => other
        | other => jsToString other

/-- A reported field error: the dotted/bracketed path plus the message (kept
as a dynamic value because a dependency's `message` property is pushed as-is
by the source). -/
structure VErr where
  field : String
  message : DVal

/-- The validation response — `\x7b isValid: true, data \x7d` or
`\x7b isValid: false, errors \x7d`. -/
inductive VResp where
  | valid (data : DVal)
  | invalid (errors : List VErr)

/-- The `isValid` flag of a response. -/
def VResp.isValidFlag : VResp → Bool
  | .valid _ => true
  | .invalid _ => false

/-- The error list of a response (empty on success). -/
def VResp.errorList : VResp → List VErr
  | .valid _ => []
  | .invalid es => es

/-- `path.substring(0, path.lastIndexOf('.'))`, with the JS clamp of the
`-1` returned by a dotless path to the empty string: everything reversed up
to and including the first `'.'` seen from the right. -/
def dropThroughDot : List Char → List Char
  | [] => []
  | c :: rest => if c = '.' then rest else dropThroughDot rest

/-- The parent path used by dependency resolution. -/
def parentPathOf (path : String) : String :=
  String.mk (dropThroughDot path.data.reverse).reverse

/-- `Array.isArray(rule.dependsOn) ? rule.dependsOn : [rule.dependsOn]`. -/
def depsAsList : DVal → List DVal
  | .arr xs => xs.toList
  | d => [d]

/-- The dependent-field path used by the dependency loop: `dep.field` as-is
when it contains a dot (cross-object absolute reference), otherwise prefixed
with the current field's parent path when that is nonempty. -/
def depPathOf (path fld : String) : String :=
  if containsDot fld then fld
  else if parentPathOf path ≠ "" then parentPathOf path ++ "." ++ fld
  else fld

/-- `rule.values.includes(value)`: membership by strict equality for arrays,
substring test (of the coerced value) for strings; any other truthy receiver
has no callable `includes` and throws a `TypeError`. -/
def jsIncludes (vs : DVal) (value : DVal) : Except String Bool :=
  match vs with
  | .arr xs => .ok (xs.toList.any (fun v => DVal.beq v value))
  | .str s => .ok (containsSub (jsToString value) s)
  | _ => .error "TypeError: values.includes is not a function"

/-- `rule.values.join(', ')`: arrays join their stringified elements; any
other receiver has no callable `join` and throws a `TypeError`. -/
def jsJoinE (vs : DVal) (sep : String) : Except String String :=
  match vs with
  | .arr xs => .ok (jsJoin xs sep)
  | _ => .error "TypeError: values.join is not a function"

/-- The `deps.forEach` dependency loop of `validateValue` —
src/src/validators/index.ts lines 364–396.  For each entry: resolve the
dependent value (absolute path when `dep.field` contains a dot, else
sibling-relative through the parent path), call `condition`, and when it is
truthy call `validate`; a falsy verdict pushes the entry's `message` at the
current field's path.  There is **no** try/catch here: an exception from
either callback propagates.  A non-string `dep.field` is embedded as the
`TypeError` that `dep.field.includes` raises for the `undefined`/number/
object values that occur in malformed models (a JS *array* field value would
coerce instead of throwing; no claim exercises one). -/
def validateDeps (root value : DVal) (deps : List DVal) (path : String) :
    Except String (List VErr) :=
  match deps with
  | [] => .ok []
  | dep :: rest =>
      exBind (getProp dep "field") (fun f =>
      exBind (match f with
              | .str s => .ok s
              | _ => .error "TypeError: dep.field.includes is not a function") (fun fld =>
      let depValue := getNestedValue root (depPathOf path fld)
      exBind (getProp dep "condition") (fun cond =>
      exBind (jsCall cond [depValue]) (fun conditionResult =>
      exBind (if truthy conditionResult then
                exBind (getProp dep "validate") (fun v =>
                exBind (jsCall v [value, depValue, root]) (fun isValid =>
                if !(truthy isValid) then .ok [⟨path, jsGet dep "message"⟩] else .ok []))
              else .ok []) (fun here =>
      exBind (validateDeps root value rest path) (fun more =>
      .ok (here ++ more)))))))

/-- The element loop `value.forEach((item, index) => validateValue(item,
rule, path[index]))` used both for composite `L<X>` tags and for `items`;
the per-element validation is supplied as the callback `go`. -/
def forEachItems (go : DVal → String → Except String (List VErr)) :
    DList → String → Nat → Except String (List VErr)
  | .nil, _, _ => .ok []
  | .cons v tl, path, i =>
      exBind (go v (path ++ "[" ++ natToString i ++ "]")) (fun a =>
      exBind (forEachItems go tl path (i + 1)) (fun b =>
      .ok (a ++ b)))

/-- The sub-field loop `Object.entries(rule.fields).forEach(([key,
fieldRule]) => validateValue(value[key], fieldRule, path.key))`; the
per-field validation is supplied as the callback `go`. -/
def forEachFields (go : DVal → DVal → String → Except String (List VErr)) :
    List (String × DVal) → DVal → String → Except String (List VErr)
  | [], _, _ => .ok []
  | (k, fr) :: rest, value, path =>
      exBind (go (jsGet value k) fr (if path ≠ "" then path ++ "." ++ k else k)) (fun a =>
      exBind (forEachFields go rest value path) (fun b =>
      .ok (a ++ b)))

/-- The element list of an array value (`.nil` on non-arrays; used only
under an `Array.isArray` guard). -/
def DVal.asArr : DVal → DList
  | .arr xs => xs
  | _ => .nil

/-- The number-constraint section (`rule.type === 'N'`: `min`, `max`,
`integer`) — src/src/validators/index.ts lines 313–332; pure, pushes one
error per violated constraint in source order. -/
def numberConstraintErrors (value rule : DVal) (path : String) : List VErr :=
  if DVal.beq (jsGet rule "type") (.str "N") then
    (if !(isUndef (jsGet rule "min")) && jsLT value (jsGet rule "min") then
      [(⟨path, .str ("Value must be >= " ++ jsToString (jsGet rule "min"))⟩ : VErr)]
     else []) ++
    (if !(isUndef (jsGet rule "max")) && jsGT value (jsGet rule "max") then
      [(⟨path, .str ("Value must be <= " ++ jsToString (jsGet rule "max"))⟩ : VErr)]
     else []) ++
    (if truthy (jsGet rule "integer") && !(numberIsInteger value) then
      [(⟨path, .str "Value must be an integer"⟩ : VErr)]
     else [])
  else []

/-- The string-constraint section (`rule.type === 'S'`: `minLength`,
`maxLength`) — src/src/validators/index.ts lines 335–348. -/
def stringConstraintErrors (value rule : DVal) (path : String) : List VErr :=
  if DVal.beq (jsGet rule "type") (.str "S") then
    (if !(isUndef (jsGet rule "minLength")) &&
        jsLT (jsGet value "length") (jsGet rule "minLength") then
      [(⟨path, .str ("String length must be >= " ++
          jsToString (jsGet rule "minLength"))⟩ : VErr)]
     else []) ++
    (if !(isUndef (jsGet rule "maxLength")) &&
        jsGT (jsGet value "length") (jsGet rule "maxLength") then
      [(⟨path, .str ("String length must be <= " ++
          jsToString (jsGet rule "maxLength"))⟩ : VErr)]
     else [])
  else []

/-- The body of `validateValue` for a *defined* value —
src/src/validators/index.ts lines 274–396.  `go value rule path` is the
recursive call used for element/sub-field recursion (supplied by
`validateValue` at one lower fuel), and `descFuel` is the fuel handed to
`getTypeDescription` for the type-error message.  The section order and early
returns mirror the source exactly: type-indicator check, composite `L<X>`
handling, registry type check, enumeration, number constraints, string
constraints, `items` recursion, `fields` recursion, dependency evaluation. -/
def validateDefined (go : DVal → DVal → String → Except String (List VErr))
    (descFuel : Nat) (root value rule : DVal) (path : String) :
    Except String (List VErr) :=
  exBind (match rule with
          | .str s => .ok (DVal.str s)
          | _ => getProp rule "type") (fun ti =>
  if !(truthy ti) then .ok []
  else
    exBind (match ti with
            | .str s => .ok s
            | _ => .error "TypeError: type.startsWith is not a function") (fun tiStr =>
    if (parseArrayType tiStr).1 then
      match value with
      | .arr xs =>
          forEachItems (fun item p => go item (.str (parseArrayType tiStr).2) p) xs path 0
      | _ =>
          .ok [⟨path, .str ("Expected array of " ++ (parseArrayType tiStr).2 ++ ", got " ++
                jsTypeof value)⟩]
    else
      if !(validateType value tiStr (if jsTypeof rule == "object" then rule else .undef)) then
        .ok [⟨path, .str ("Invalid type, expected " ++ getTypeDescription descFuel rule ++
              ", got " ++ jsTypeof value)⟩]
      else
        match rule with
        | .str _ => .ok []
        | _ =>
          exBind (if truthy (jsGet rule "values") then
                    exBind (jsIncludes (jsGet rule "values") value) (fun inc =>
                    if !inc then
                      exBind (jsJoinE (jsGet rule "values") ", ") (fun joined =>
                      .ok [(⟨path, .str ("Value must be one of: " ++ joined)⟩ : VErr)])
                    else .ok [])
                  else .ok []) (fun e1 =>
          exBind (if truthy (jsGet rule "items") && isArray value then
                    forEachItems (fun item p => go item (jsGet rule "items") p)
                      (DVal.asArr value) path 0
                  else .ok []) (fun e4 =>
          exBind (if truthy (jsGet rule "fields") && jsTypeof value == "object" then
                    forEachFields go (jsEntries (jsGet rule "fields")) value path
                  else .ok []) (fun e5 =>
          exBind (if jsTypeof rule == "object" && truthy (jsGet rule "dependsOn") then
                    validateDeps root value (depsAsList (jsGet rule "dependsOn")) path
                  else .ok []) (fun e6 =>
          .ok (e1 ++
            (numberConstraintErrors value rule path ++
              (stringConstraintErrors value rule path ++ (e4 ++ (e5 ++ e6)))))))))))

/-- `validateValue(value, rule, path)` — src/src/validators/index.ts lines
262–397, fuel-bounded (each nested call strictly decreases the `vm` measure
of its rule, and every caller below supplies sufficient fuel; running out of
fuel is an artificial error no theorem ever reaches).  The `undefined` branch
(lines 265–272) is here; the defined-value sections are `validateDefined`. -/
def validateValue (fuel : Nat) (root value rule : DVal) (path : String) :
    Except String (List VErr) :=
  match fuel with
  | 0 => .error "out of fuel"
  | fuel + 1 =>
    match value with
    | .undef =>
        if jsTypeof rule == "object" then
          exBind (getProp rule "optional") (fun opt =>
            if truthy opt then .ok []
            else .ok [⟨path, .str "Field is required"⟩])
        else .ok [⟨path, .str "Field is required"⟩]
    | value =>
        validateDefined (fun v r p => validateValue fuel root v r p) (fuel + 1)
          root value rule path

mutual

/-- Structural size measure used to choose sufficient fuel: strings count
their length (a composite tag `L<X>` strictly shrinks to `X`), containers
strictly dominate their parts. -/
def vm : DVal → Nat
  | .str s => s.length + 1
  | .arr xs => vmList xs + 1
  | .obj fs => vmFields fs + 1
  | _ => 1

/-- `vm` on array elements. -/
def vmList : DList → Nat
  | .nil => 0
  | .cons v tl => vm v + 1 + vmList tl

/-- `vm` on object entries. -/
def vmFields : DFields → Nat
  | .nil => 0
  | .cons _ v tl => vm v + 1 + vmFields tl

end

/-- The top-level `Object.entries(model).forEach` loop of
`validateAgainstModel` — src/src/validators/index.ts lines 399–408: keys
containing a dot or a literal `[]` are resolved through `getNestedValue`,
others read directly. -/
def validateTop (fuel : Nat) (root : DVal) (entries : List (String × DVal))
    (parentPath : String) : Except String (List VErr) :=
  match entries with
  | [] => .ok []
  | (key, rule) :: rest =>
      let value :=
        if containsDot key || containsSub "[]" key then getNestedValue root key
        else jsGet root key
      exBind (validateValue fuel root value rule
        (if parentPath ≠ "" then parentPath ++ "." ++ key else key)) (fun a =>
      exBind (validateTop fuel root rest parentPath) (fun b =>
      .ok (a ++ b)))

/-- `validateAgainstModel(data, model, parentPath)` —
src/src/validators/index.ts lines 254–415: apply defaults, validate every
model field in declaration order against the defaulted data, and return
either the defaulted data or the collected errors.  All fuel bounds are
generous enough for every rule in the model (each nested `validateValue`
strictly decreases `vm` of its rule). -/
def validateAgainstModel (data model : DVal) (parentPath : String) :
    Except String VResp :=
  exBind (applyDefaults data model) (fun dataWithDefaults =>
  exBind (validateTop (vm model + 1) dataWithDefaults (jsEntries model) parentPath) (fun errors =>
  .ok (if errors.isEmpty then .valid dataWithDefaults else .invalid errors)))

/-- `f` lies at `path` or strictly below it (continuing with a `.` sub-key or
a `[i]` index suffix). -/
def pathExt (path f : String) : Prop :=
  f = path ∨ (∃ rest, f.data = path.data ++ '.' :: rest) ∨
    (∃ rest, f.data = path.data ++ '[' :: rest)

/-- The `dep.field` read of a dependency entry (a `TypeError` when it is not
a string, as in the source's `dep.field.includes` call). -/
def depField (dep : DVal) : Except String String :=
  exBind (getProp dep "field") (fun f =>
    match f with
    | .str s => .ok s
    | _ => .error "TypeError: dep.field.includes is not a function")

/-- The condition verdict of a dependency entry: `dep.condition(depValue)`
exactly as the dependency loop computes it. -/
def depCond (root : DVal) (path : String) (dep : DVal) : Except String DVal :=
  exBind (depField dep) (fun fld =>
  exBind (getProp dep "condition") (fun cond =>
  jsCall cond [getNestedValue root (depPathOf path fld)]))

/-- The validation verdict of a dependency entry:
`dep.validate(value, depValue, data)` exactly as the dependency loop computes
it. -/
def depValid (root value : DVal) (path : String) (dep : DVal) : Except String DVal :=
  exBind (depField dep) (fun fld =>
  exBind (getProp dep "validate") (fun v =>
  jsCall v [value, getNestedValue root (depPathOf path fld), root]))

/-- The opening brace character. -/
def braceL : Char := Char.ofNat 123

/-- The closing brace character. -/
def braceR : Char := Char.ofNat 125

/-- The whitespace characters of this development (the JS `\s` class also
holds form feeds and unicode spaces; no string in the repository's models
uses them). -/
def isWsChar (c : Char) : Bool :=
  c = ' ' || c = '\n' || c = '\t' || c = '\r'

/-- `String.prototype.trim`. -/
def jsTrim (s : String) : String :=
  String.mk (((s.data.dropWhile isWsChar).reverse.dropWhile isWsChar).reverse)

/-- `replace(/\s+/g, ' ')`: every whitespace run becomes a single space. -/
def collapseWsAux : Bool → List Char → List Char
  | _, [] => []
  | prevWs, c :: rest =>
      if isWsChar c then
        if prevWs then collapseWsAux true rest else ' ' :: collapseWsAux true rest
      else c :: collapseWsAux false rest

/-- Whitespace collapsing on strings. -/
def collapseWs (s : String) : String :=
  String.mk (collapseWsAux false s.data)

/-- `replace(/\n/g, ' ')`. -/
def replaceNl (s : String) : String :=
  String.mk (s.data.map (fun c => if c = '\n' then ' ' else c))

/-- A character of the class `[a-zA-Z0-9_]`. -/
def isWordChar (c : Char) : Bool :=
  c.isAlpha || c.isDigit || c = '_'

/-- `replace(/^function\s*[a-zA-Z0-9_]*\s*/, '')`: strip a leading
`function` keyword, optional whitespace, optional name and optional
whitespace (each greedy component is deterministic, nothing follows in the
pattern). -/
def stripFnKeyword (s : String) : String :=
  if "function".data.isPrefixOf s.data then
    String.mk ((((s.data.drop 8).dropWhile isWsChar).dropWhile isWordChar).dropWhile isWsChar)
  else s

/-- Remove the first occurrence of `pat` (the effect of
`replace(/function anonymous/, '')`). -/
def removeFirstAux (pat : List Char) : List Char → List Char
  | [] => []
  | c :: rest =>
      if pat.isPrefixOf (c :: rest) then (c :: rest).drop pat.length
      else c :: removeFirstAux pat rest

/-- First-occurrence removal on strings. -/
def removeFirst (pat : String) (s : String) : String :=
  String.mk (removeFirstAux pat.data s.data)

/-- `split(',')` on a character list: the comma-separated chunks (the empty
input yields `[""]`, as in JS). -/
def splitCommaAux : List Char → List Char → List String
  | acc, [] => [String.mk acc.reverse]
  | acc, c :: rest =>
      if c = ',' then String.mk acc.reverse :: splitCommaAux [] rest
      else splitCommaAux (c :: acc) rest

/-- `params.split(',').map(p => p.trim())`. -/
def splitParams (s : String) : List String :=
  (splitCommaAux [] s.data).map jsTrim

/-- Skip leading whitespace (`\s*`). -/
def skipWs (l : List Char) : List Char :=
  l.dropWhile isWsChar

/-- The greedy `([\s\S]*)\}\s*$` suffix of the function-shape regexes: the
body runs to the last `\x7d` of the input, which only trailing whitespace
may follow. -/
def bodyUpToLastBrace (l : List Char) : Option (List Char) :=
  match l.reverse.dropWhile isWsChar with
  | c :: rest => if c = braceR then some rest.reverse else none
  | [] => none

/-- Continuation `\s*=>\s*\{([\s\S]*)\}\s*$` of the block-arrow regex. -/
def arrowBlockTail (l : List Char) : Option (List Char) :=
  match skipWs l with
  | c1 :: c2 :: l2 =>
      if c1 = '=' && c2 = '>' then
        match skipWs l2 with
        | c :: l4 => if c = braceL then bodyUpToLastBrace l4 else none
        | [] => none
      else none
  | _ => none

/-- Continuation `\s*=>\s*(.+?)\s*$` of the expression-arrow regex: the lazy
group together with `\s*$` captures the rest stripped of trailing
whitespace, and must be nonempty.  (On the whitespace-collapsed, trimmed
strings the caller passes, the lazy/greedy split is exactly this.) -/
def arrowExprTail (l : List Char) : Option (List Char) :=
  match skipWs l with
  | c1 :: c2 :: l2 =>
      if c1 = '=' && c2 = '>' then
        match (skipWs l2).reverse.dropWhile isWsChar with
        | [] => none
        | r => some r.reverse
      else none
  | _ => none

/-- Continuation `\s*\{([\s\S]*)\}\s*$` of the classic-function regex. -/
def classicTail (l : List Char) : Option (List Char) :=
  match skipWs l with
  | c :: l4 => if c = braceL then bodyUpToLastBrace l4 else none
  | [] => none

/-- The lazy parenthesised parameter group `\((.*?)\)` followed by the
continuation `tail`: candidate closing parentheses are tried left to right,
and the first whose suffix satisfies the continuation wins. -/
def scanParen {a : Type} (tail : List Char → Option a) :
    List Char → List Char → Option (List Char × a)
  | _, [] => none
  | acc, c :: rest =>
      if c = ')' then
        match tail rest with
        | some r => some (acc.reverse, r)
        | none => scanParen tail (c :: acc) rest
      else scanParen tail (c :: acc) rest

/-- Characters admitted by the bare-parameter group `[^=>\s]+`. -/
def bareAllowed (c : Char) : Bool :=
  !(c = '=' || c = '>' || isWsChar c)

/-- Greedy-with-backtracking match of `[^=>\s]+` followed by `tail`:
lengths are tried from the maximal run downwards. -/
def tryBareLen {a : Type} (l : List Char) (tail : List Char → Option a) :
    Nat → Option (List Char × a)
  | 0 => none
  | k + 1 =>
      match tail (l.drop (k + 1)) with
      | some r => some (l.take (k + 1), r)
      | none => tryBareLen l tail k

/-- The alternation `^\s*(?:\((.*?)\)|([^=>\s]+))` followed by `tail`: the
parenthesised branch is preferred, the bare branch is the fallback. -/
def matchParams {a : Type} (tail : List Char → Option a) (s : String) :
    Option (List Char × a) :=
  let l := skipWs s.data
  match l with
  | '(' :: rest =>
      match scanParen tail [] rest with
      | some r => some r
      | none => tryBareLen l tail (l.takeWhile bareAllowed).length
  | _ => tryBareLen l tail (l.takeWhile bareAllowed).length

/-- The block-arrow regex
`/^\s*(?:\((.*?)\)|([^=>\s]+))\s*=>\s*\{([\s\S]*)\}\s*$/` as a matcher
returning the parameter text and the body text. -/
def blockArrowMatch (s : String) : Option (String × String) :=
  match matchParams arrowBlockTail s with
  | some (ps, body) => some (String.mk ps, String.mk body)
  | none => none

/-- The expression-arrow regex
`/^\s*(?:\((.*?)\)|([^=>\s]+))\s*=>\s*(.+?)\s*$/` as a matcher returning
the parameter text and the expression text. -/
def simpleArrowMatch (s : String) : Option (String × String) :=
  match matchParams arrowExprTail s with
  | some (ps, e) => some (String.mk ps, String.mk e)
  | none => none

/-- The classic-function regex `/^\s*\((.*?)\)\s*\{([\s\S]*)\}\s*$/` as a
matcher (no bare-parameter fallback here). -/
def regularFnMatch (s : String) : Option (String × String) :=
  match skipWs s.data with
  | '(' :: rest =>
      match scanParen classicTail [] rest with
      | some (ps, body) => some (String.mk ps, String.mk body)
      | none => none
  | _ => none

/-- First character of a JS identifier. -/
def isIdentStart (c : Char) : Bool :=
  c.isAlpha || c = '_' || c = '$'

/-- Subsequent character of a JS identifier. -/
def isIdentChar (c : Char) : Bool :=
  isIdentStart c || c.isDigit

/-- JS reserved words rejected as formal parameter names. -/
def reservedWords : List String :=
  ["break", "case", "catch", "class", "const", "continue", "debugger",
   "default", "delete", "do", "else", "enum", "export", "extends", "false",
   "finally", "for", "function", "if", "import", "in", "instanceof", "new",
   "null", "return", "super", "switch", "this", "throw", "true", "try",
   "typeof", "var", "void", "while", "with", "yield", "let", "static",
   "await"]

/-- Is `s` a valid formal parameter name? -/
def isValidIdent (s : String) : Bool :=
  match s.data with
  | [] => false
  | c :: rest => isIdentStart c && rest.all isIdentChar && !(reservedWords.contains s)

/-- Binary-operator token at the head of the input (longest match first, as
the printer emits them surrounded by single spaces). -/
def parseOp : List Char → Option (BOp × List Char)
  | '=' :: '=' :: '=' :: r => some (.eq3, r)
  | '!' :: '=' :: '=' :: r => some (.ne3, r)
  | '<' :: '=' :: r => some (.ble, r)
  | '<' :: r => some (.blt, r)
  | '>' :: '=' :: r => some (.bge, r)
  | '>' :: r => some (.bgt, r)
  | '&' :: '&' :: r => some (.band, r)
  | '|' :: '|' :: r => some (.bor, r)
  | _ => none

/-- Member-access chain `.name.name...` extending an already parsed base
expression (left-associative, as property access associates in JS). -/
def parseChain : Nat → FExpr → List Char → Option (FExpr × List Char)
  | 0, _, _ => none
  | fuel + 1, e, l =>
      match l with
      | [] => some (e, [])
      | c :: rest =>
          if c = '.' then
            (let w := rest.takeWhile isIdentChar
             if w.isEmpty then none
             else parseChain fuel (.member e (String.mk w)) (rest.drop w.length))
          else some (e, c :: rest)

/-- Atom of the expression grammar `new Function` accepts here: a
parenthesised group (either a binary expression or a wrapped member base),
a string literal, a number, a keyword literal or an identifier.  `pu`
parses the sub-expressions of a parenthesised group. -/
def parseAtom (pu : List Char → Option (FExpr × List Char)) (l : List Char) :
    Option (FExpr × List Char) :=
  match l with
  | [] => none
  | c :: rest =>
      if c = '(' then
        match pu rest with
        | none => none
        | some (e1, l2) =>
            match l2 with
            | ')' :: l3 => some (e1, l3)
            | ' ' :: l4 =>
                (match parseOp l4 with
                 | none => none
                 | some (op, l5) =>
                    match l5 with
                    | ' ' :: l6 =>
                        (match pu l6 with
                         | none => none
                         | some (e2, l7) =>
                            match l7 with
                            | ')' :: l8 => some (.ebin op e1 e2, l8)
                            | _ => none)
                    | _ => none)
            | _ => none
      else if c = quoteC then
        let content := rest.takeWhile (fun d => !(d = quoteC))
        match rest.dropWhile (fun d => !(d = quoteC)) with
        | _ :: l2 => some (.lstr (String.mk content), l2)
        | [] => none
      else if c = '-' then
        let ds := rest.takeWhile Char.isDigit
        if ds.isEmpty then none
        else some (.lnum (-(digitsToNat (String.mk ds) : Int)), rest.drop ds.length)
      else if c.isDigit then
        let ds := l.takeWhile Char.isDigit
        some (.lnum ((digitsToNat (String.mk ds) : Int)), l.drop ds.length)
      else if isIdentStart c then
        let w := l.takeWhile isIdentChar
        let l2 := l.drop w.length
        (if String.mk w = "null" then some (.lnull, l2)
         else if String.mk w = "undefined" then some (.lundef, l2)
         else if String.mk w = "true" then some (.lbool true, l2)
         else if String.mk w = "false" then some (.lbool false, l2)
         else some (.pvar (String.mk w), l2))
      else none

/-- Unary level of the expression grammar: logical negations over an atom
with its member chain. -/
def parseUnary : Nat → List Char → Option (FExpr × List Char)
  | 0, _ => none
  | fuel + 1, l =>
      match l with
      | [] => none
      | c :: rest =>
          if c = '!' then
            (match parseUnary fuel rest with
             | some (e, l2) => some (.enot e, l2)
             | none => none)
          else
            match parseAtom (parseUnary fuel) (c :: rest) with
            | some (e, l2) => parseChain (fuel + 1) e l2
            | none => none

/-- Parse a (trimmed) function body: a single `return` statement or a
single `throw new Error('...')` statement — the statement language of the
functions stored in validation models.  A body outside this language is
rejected, surfacing as the `SyntaxError` of `new Function`. -/
def parseStmtChars (fuel : Nat) (l : List Char) : Option FStmt :=
  if "return ".data.isPrefixOf l then
    match parseUnary fuel (l.drop 7) with
    | some (e, rest) =>
        (match rest with
         | ';' :: tail => if skipWs tail = [] then some (.ret e) else none
         | ' ' :: l4 =>
            (match parseOp l4 with
             | none => none
             | some (op, l5) =>
                match l5 with
                | ' ' :: l6 =>
                    (match parseUnary fuel l6 with
                     | some (e2, l7) =>
                        (match l7 with
                         | ';' :: tail =>
                            if skipWs tail = [] then some (.ret (.ebin op e e2)) else none
                         | _ => none)
                     | none => none)
                | _ => none)
         | _ => none)
    | none => none
  else if "throw new Error(".data.isPrefixOf l then
    match l.drop 16 with
    | q :: rest =>
        if q = quoteC then
          let content := rest.takeWhile (fun d => !(d = quoteC))
          match rest.dropWhile (fun d => !(d = quoteC)) with
          | _ :: ')' :: ';' :: tail =>
              if skipWs tail = [] then some (.throwE (String.mk content)) else none
          | _ => none
        else none
    | [] => none
  else none

/-- Body parser entry point. -/
def parseBody (s : String) : Option FStmt :=
  parseStmtChars (s.length + 1) (jsTrim s).data

/-- `new Function(...args, body)`: an empty argument list (the split of an
empty parameter text) declares no parameters; every declared parameter must
be a valid identifier, and the body must parse in the statement language of
the stored model functions — otherwise the constructor throws a
`SyntaxError`.  The produced function stringifies in classic form. -/
def jsNewFunction (args : List String) (body : String) : Except String DVal :=
  let params := match args with
                | [""] => []
                | xs => xs
  if params.all isValidIdent then
    match parseBody body with
    | some stmt => .ok (.fn params stmt .classic)
    | none => .error ("SyntaxError: Unexpected token in function body: " ++ body)
  else .error "SyntaxError: Invalid formal parameter name"

/-- The catch-all of `deserializeFunction`: every inner throw is re-thrown
with the `Failed to deserialize function: ` prefix. -/
def wrapDeserialize (r : Except String DVal) : Except String DVal :=
  match r with
  | .error m => .error ("Failed to deserialize function: " ++ m)
  | .ok v => .ok v

/-- `deserializeFunction(fnStr)` — src/unnamed/part_011 lines 4–71.  The
record form reads `original || code`; the text is trimmed, stripped of a
leading `function` keyword/name, stripped of a first `function anonymous`,
whitespace-collapsed and re-trimmed; then the three shape regexes are tried
in order (block arrow and expression arrow only when the text contains
`=>`, then the classic parenthesised form), and a text matching none of
them throws `Invalid function format`.  (The expression-arrow branch's
newline handling is the identity here: the collapsed text has no
newlines.) -/
def deserializeFunction (fnStr : DVal) : Except String DVal :=
  match (match fnStr with
         | .obj fs => if truthy (DFields.get fs "original") then DFields.get fs "original"
                      else DFields.get fs "code"
         | v => v) with
  | .str functionString =>
      let n3 := jsTrim (collapseWs (removeFirst "function anonymous"
        (stripFnKeyword (jsTrim functionString))))
      if containsSub "=>" n3 then
        match blockArrowMatch n3 with
        | some (ps, body) =>
            wrapDeserialize (jsNewFunction (splitParams ps) (jsTrim body))
        | none =>
            match simpleArrowMatch n3 with
            | some (ps, e) =>
                wrapDeserialize (jsNewFunction (splitParams ps)
                  ("return " ++ jsTrim e ++ ";"))
            | none =>
                match regularFnMatch n3 with
                | some (ps, body) =>
                    wrapDeserialize (jsNewFunction (splitParams ps) (jsTrim body))
                | none => .error "Failed to deserialize function: Invalid function format"
      else
        match regularFnMatch n3 with
        | some (ps, body) =>
            wrapDeserialize (jsNewFunction (splitParams ps) (jsTrim body))
        | none => .error "Failed to deserialize function: Invalid function format"
  | _ => .error "Failed to deserialize function: functionString.trim is not a function"

/-- `serializeFunction(fn)` — src/unnamed/part_011 lines 111–123: a record
`\x7b __type:'function', code, original \x7d` holding the newline-collapsed,
trimmed `fn.toString()` twice. -/
def serializeFunction (p : List String) (b : FStmt) (f : FForm) : DVal :=
  let code := jsTrim (replaceNl (printFunc p b f))
  .obj (.cons "__type" (.str "function") (.cons "code" (.str code)
    (.cons "original" (.str code) .nil)))

mutual

/-- `serializeObject(obj)` (the inner helper of `serializeValidationModel`)
— src/unnamed/part_011 lines 77–99: functions become records, arrays and
objects are mapped recursively, primitives pass through. -/
def serializeObject : DVal → DVal
  | .fn p b f => serializeFunction p b f
  | .arr xs => .arr (serializeObjectList xs)
  | .obj fs => .obj (serializeObjectFields fs)
  | v => v

/-- `serializeObject` over array elements. -/
def serializeObjectList : DList → DList
  | .nil => .nil
  | .cons v tl => .cons (serializeObject v) (serializeObjectList tl)

/-- `serializeObject` over object entries. -/
def serializeObjectFields : DFields → DFields
  | .nil => .nil
  | .cons k v tl => .cons k (serializeObject v) (serializeObjectFields tl)

end

/-- `serializeValidationModel(model)` — src/unnamed/part_011 lines 74–109.
The JS function returns `JSON.stringify(serializeObject(model))`; the
string layer is represented here by the tree it prints, so this definition
returns the serialized tree, and `JSON.parse` of the printed string is
`jsonClone` of it. -/
def serializeValidationModel (model : DVal) : DVal :=
  serializeObject model

/-- The type guard `isDependencyObject` — src/unnamed/part_011 lines
150–159: an object (`null` excluded) with a `field` key (`'field' in v`). -/
def isDependencyObject (v : DVal) : Bool :=
  (jsTypeof v == "object") && !(isNull v) &&
    (match v with
     | .obj fs => fs.hasKey "field"
     | _ => false)

/-- One dependency entry rebuilt by `deserializeObject`'s `dependsOn`
branch: `field` and `message` pass through, `condition`/`validate` go
through the reconstructor when present (`undefined` otherwise) — and no
other key of the entry survives. -/
def dsoDep (go : DVal → Except String DVal) (v : DVal) : Except String DVal :=
  exBind (if truthy (jsGet v "condition") then go (jsGet v "condition") else .ok .undef)
    (fun c =>
  exBind (if truthy (jsGet v "validate") then go (jsGet v "validate") else .ok .undef)
    (fun vl =>
  .ok (.obj (.cons "field" (jsGet v "field") (.cons "message" (jsGet v "message")
    (.cons "condition" c (.cons "validate" vl .nil)))))))

/-- The `dependsOn` array branch: every element must pass the dependency
type guard. -/
def dsoDeps (go : DVal → Except String DVal) : DList → Except String DList
  | .nil => .ok .nil
  | .cons d tl =>
      if isDependencyObject d then
        exBind (dsoDep go d) (fun d2 =>
        exBind (dsoDeps go tl) (fun tl2 => .ok (.cons d2 tl2)))
      else .error "Invalid dependency object structure"

/-- `deserializeObject` over plain array elements. -/
def dsoList (go : DVal → Except String DVal) : DList → Except String DList
  | .nil => .ok .nil
  | .cons v tl =>
      exBind (go v) (fun v2 =>
      exBind (dsoList go tl) (fun tl2 => .ok (.cons v2 tl2)))

/-- `deserializeObject` over object entries, with the special `dependsOn`
handling of src/unnamed/part_011 lines 147–195. -/
def dsoFields (go : DVal → Except String DVal) :
    List (String × DVal) → Except String DFields
  | [] => .ok .nil
  | (key, value) :: rest =>
      exBind (if key = "dependsOn" then
                (if isArray value then
                   exBind (dsoDeps go (DVal.asArr value)) (fun ds => .ok (.arr ds))
                 else if isDependencyObject value then dsoDep go value
                 else .error "Invalid dependency structure")
              else go value) (fun v2 =>
      exBind (dsoFields go rest) (fun tl => .ok (.cons key v2 tl)))

/-- `deserializeObject(obj)` (the inner helper of
`deserializeValidationModel`) — src/unnamed/part_011 lines 128–200,
fuel-bounded (recursion descends into strictly smaller subtrees; the
callers below supply sufficient fuel): function records are reconstructed
through `deserializeFunction(obj.original || obj.code)`, arrays and objects
are mapped recursively with the `dependsOn` special case, primitives pass
through. -/
def deserializeObject : Nat → DVal → Except String DVal
  | 0, _ => .error "out of fuel"
  | fuel + 1, obj =>
      if truthy obj && DVal.beq (jsGet obj "__type") (.str "function")
          && truthy (jsGet obj "code") then
        deserializeFunction (if truthy (jsGet obj "original") then jsGet obj "original"
                             else jsGet obj "code")
      else if isArray obj then
        exBind (dsoList (deserializeObject fuel) (DVal.asArr obj)) (fun xs => .ok (.arr xs))
      else if truthy obj && jsTypeof obj == "object" then
        exBind (dsoFields (deserializeObject fuel) (jsEntries obj)) (fun fs => .ok (.obj fs))
      else .ok obj

/-- The valid type tags of the model validator — src/src/validators/index.ts
lines 5–16. -/
def VALID_TYPES : List String :=
  ["S", "N", "B", "L", "M", "EMAIL", "URL", "DATE", "PHONE", "REGEX"]

/-- The dependency checks of `validateDataModel.validateField` —
src/src/validators/index.ts lines 204–227: per entry, a non-object entry
gets one error, otherwise missing `field` and missing/non-function
`condition`/`validate` each get their own error. -/
def vdDeps (path : String) : List DVal → Nat → List String
  | [], _ => []
  | dep :: rest, i =>
      (let depPath := path ++ ".dependsOn[" ++ natToString i ++ "]"
       if !(jsTypeof dep == "object") || isNull dep then
         ["Invalid dependency definition at " ++ depPath]
       else
         (if !(truthy (jsGet dep "field")) then
            ["Missing field in dependency at " ++ depPath] else []) ++
         (if !(truthy (jsGet dep "condition"))
             || !(jsTypeof (jsGet dep "condition") == "function") then
            ["Missing or invalid condition function at " ++ depPath] else []) ++
         (if !(truthy (jsGet dep "validate"))
             || !(jsTypeof (jsGet dep "validate") == "function") then
            ["Missing or invalid validate function at " ++ depPath] else [])) ++
      vdDeps path rest (i + 1)

/-- The nested-fields loop of `validateField`; the per-field recursion is
supplied as the callback `go`. -/
def vfFields (go : DVal → String → List String) :
    List (String × DVal) → String → List String
  | [], _ => []
  | (k, v) :: rest, path =>
      go v (if path ≠ "" then path ++ "." ++ k else k) ++ vfFields go rest path

/-- `validateField(field, path)` of `validateDataModel` —
src/src/validators/index.ts lines 157–244, fuel-bounded: string rules are
checked against the tag list; object rules get type/values/number-range/
dependency checks, then the nested `fields` walk (whose failing type check
aborts the rest of this field, skipping `items`), then the `items`
recursion. -/
def validateField : Nat → DVal → String → List String
  | 0, _, _ => []
  | fuel + 1, field, path =>
      match field with
      | .str s =>
          if VALID_TYPES.contains s then [] else ["Invalid type \"" ++ s ++ "\" at " ++ path]
      | field =>
        if !(jsTypeof field == "object") || isNull field then
          ["Invalid field definition at " ++ path]
        else
          (if truthy (jsGet field "type")
              && !(match jsGet field "type" with
                   | .str t => VALID_TYPES.contains t
                   | _ => false) then
             ["Invalid type \"" ++ jsToString (jsGet field "type") ++ "\" at " ++ path]
           else []) ++
          (if !(isUndef (jsGet field "values"))
              && (!(isArray (jsGet field "values"))
                  || (DVal.asArr (jsGet field "values")).length = 0) then
             ["Invalid values at " ++ path]
           else []) ++
          (if DVal.beq (jsGet field "type") (.str "N") then
             (if !(isUndef (jsGet field "min")) && !(jsTypeof (jsGet field "min") == "number") then
                ["Invalid min value at " ++ path] else []) ++
             (if !(isUndef (jsGet field "max")) && !(jsTypeof (jsGet field "max") == "number") then
                ["Invalid max value at " ++ path] else []) ++
             (if !(isUndef (jsGet field "min")) && !(isUndef (jsGet field "max"))
                 && jsGT (jsGet field "min") (jsGet field "max") then
                ["Invalid range at " ++ path] else []) ++
             (if !(isUndef (jsGet field "integer"))
                 && !(jsTypeof (jsGet field "integer") == "boolean") then
                ["Invalid integer flag at " ++ path] else [])
           else []) ++
          (if truthy (jsGet field "dependsOn") then
             vdDeps path (depsAsList (jsGet field "dependsOn")) 0
           else []) ++
          (if truthy (jsGet field "fields") then
             if !(jsTypeof (jsGet field "fields") == "object")
                 || isNull (jsGet field "fields") then
               ["Invalid fields definition at " ++ path]
             else
               vfFields (fun v p => validateField fuel v p)
                 (jsEntries (jsGet field "fields")) path ++
               (if truthy (jsGet field "items") then
                  validateField fuel (jsGet field "items") (path ++ ".items")
                else [])
           else
             (if truthy (jsGet field "items") then
                validateField fuel (jsGet field "items") (path ++ ".items")
              else []))

/-- The top-level loop of `validateDataModel`. -/
def vdTop (fuel : Nat) : List (String × DVal) → List String
  | [] => []
  | (k, f) :: rest => validateField fuel f k ++ vdTop fuel rest

/-- `validateDataModel(model)` — src/src/validators/index.ts lines 154–251:
collects all structural errors; the response is the `isValid` flag plus the
error list (`null` in JS when empty — represented by the empty list). -/
def validateDataModel (model : DVal) : Bool × List String :=
  let errs := vdTop (vm model + 1) (jsEntries model)
  (errs.isEmpty, errs)

/-- `errors.join(', ')`. -/
def joinStrs : List String → String → String
  | [], _ => ""
  | [x], _ => x
  | x :: rest, sep => x ++ sep ++ joinStrs rest sep

/-- `deserializeValidationModel(serializedModel)` — src/unnamed/part_011
lines 125–221, applied to the `JSON.parse` of the serialized string (for a
string produced by `serializeValidationModel`, that parse is `jsonClone` of
the serialized tree): run `deserializeObject`, then reject the result if
`validateDataModel` finds errors. -/
def deserializeValidationModel (parsed : DVal) : Except String DVal :=
  exBind (deserializeObject (vm parsed + 1) parsed) (fun d =>
  if !(validateDataModel d).1 then
    .error ("Invalid model after deserialization: " ++ joinStrs (validateDataModel d).2 ", ")
  else .ok d)

/-- Structural size of an expression (used as the fuel bound of the
recursive-descent parser). -/
def esize : FExpr → Nat
  | .member e _ => esize e + 1
  | .enot e => esize e + 1
  | .ebin _ a b => esize a + esize b + 1
  | _ => 1

/-- Size of a statement. -/
def ssize : FStmt → Nat
  | .ret e => esize e + 1
  | .throwE _ => 1

/-- Well-formedness of an expression for the print/parse round trip:
variable and member names are identifiers (a variable named `undefined`
would read back as the literal), string literals carry no quote
character. -/
def wfExpr : FExpr → Bool
  | .lnull => true
  | .lundef => true
  | .lbool _ => true
  | .lnum _ => true
  | .lstr s => !(s.data.contains quoteC)
  | .pvar x => isValidIdent x && !(x = "undefined")
  | .member e n => wfExpr e && !(n = "") && n.data.all isIdentChar
  | .enot e => wfExpr e
  | .ebin _ a b => wfExpr a && wfExpr b

/-- Well-formedness of a statement body. -/
def wfStmt : FStmt → Bool
  | .ret e => wfExpr e
  | .throwE m => !(m.data.contains quoteC)

/-- Well-formedness of a parameter list: every name a valid identifier. -/
def wfParams (p : List String) : Bool :=
  p.all isValidIdent

/-- Characters that may legitimately follow a complete printed expression
(the parser's ident/number scans are greedy, and a leading `.` would extend
a member chain). -/
def followOk : List Char → Bool
  | [] => true
  | c :: _ => !(isIdentChar c) && !(c = '.')

/-- The innermost non-member base of a member chain. -/
def spineBase : FExpr → FExpr
  | .member e _ => spineBase e
  | e => e

/-- The member names of a chain, outermost last. -/
def spineNames : FExpr → List String
  | .member e n => spineNames e ++ [n]
  | _ => []

/-- Character rendering of a member chain suffix. -/
def chainData : List String → List Char
  | [] => []
  | n :: tl => '.' :: n.data ++ chainData tl

/-- Character rendering of a chain base as the parser's atom sees it
(parenthesised exactly when the printer wraps it). -/
def atomData (b : FExpr) : List Char :=
  if wrapBase b then '(' :: (printExpr b).data ++ [')'] else (printExpr b).data

/-- A word scan may stop here: end of input or a non-identifier
character. -/
def wordStop : List Char → Bool
  | [] => true
  | c :: _ => !(isIdentChar c)

/-- The keyword/identifier dispatch of the parser's word atom. -/
def wordExpr (s : String) : FExpr :=
  if s = "null" then FExpr.lnull
  else if s = "undefined" then FExpr.lundef
  else if s = "true" then FExpr.lbool true
  else if s = "false" then FExpr.lbool false
  else FExpr.pvar s

/-- The separator-and-identifier continuation of a printed parameter list
at the character level. -/
def joinCont : List String → List Char
  | [] => []
  | x :: xs => ',' :: (' ' :: (x.data ++ joinCont xs))

/-- The full character rendering of `intercalate ", "`. -/
def joinComma : List String → List Char
  | [] => []
  | x :: xs => x.data ++ joinCont xs

/-- Character form of the canonical normalized classic function text
`(params) \x7b body \x7d`. -/
def classicCanonL (p : List String) (b : FStmt) : List Char :=
  '(' :: ((String.intercalate ", " p).data ++ (')' :: (' ' :: (braceL :: (' ' ::
    ((printStmt b).data ++ (' ' :: (braceR :: []))))))))

/-- The canonical normalized classic function text. -/
def classicCanon (p : List String) (b : FStmt) : String :=
  String.mk (classicCanonL p b)

/-- Helper: once the static field holds an instance, `getInstance` returns it
unchanged regardless of the storage argument. -/
theorem getInstance_some {σ : Type} (i : PVInst σ) (s : σ) :
    PV.getInstance (some i) s = (i, some i) := rfl

/-- Helper: a populated static field is never changed by later calls. -/
theorem getInstanceSeq_some {σ : Type} (i : PVInst σ) (ss : List σ) :
    getInstanceSeq (some i) ss = some i := by
  induction ss with
  | nil => rfl
  | cons s rest ih =>
      simpa [getInstanceSeq, PV.getInstance] using ih

/-- C9: once `PV.getInstance storage1` has created the singleton, every
subsequent call — after any number of intervening calls, with any storage
argument — returns the original instance, still bound to `storage1`, and
leaves the singleton state unchanged; the new storage argument is ignored. -/
theorem C9_getInstance_singleton_ignores_new_storage
    {σ : Type} (s1 : σ) (ss : List σ) (s' : σ) :
    (PV.getInstance (none : Option (PVInst σ)) s1).1.storage = s1 ∧
    PV.getInstance (getInstanceSeq (PV.getInstance (none : Option (PVInst σ)) s1).2 ss) s' =
      ((PV.getInstance (none : Option (PVInst σ)) s1).1,
       (PV.getInstance (none : Option (PVInst σ)) s1).2) := by
  refine ⟨rfl, ?_⟩
  have h : (PV.getInstance (none : Option (PVInst σ)) s1).2 =
      some (PV.getInstance (none : Option (PVInst σ)) s1).1 := rfl
  rw [h, getInstanceSeq_some, getInstance_some]

/-- Witness for C9 at concrete inputs: storage backends are numbers, the
singleton is created with storage `7`, two calls with storages `8` and `9`
intervene, and a final call with storage `10` still returns the instance
bound to `7` with the state unchanged. -/
theorem C9_getInstance_singleton_ignores_new_storage_witness :
    (PV.getInstance (none : Option (PVInst Nat)) 7).1.storage = 7 ∧
    PV.getInstance (getInstanceSeq (PV.getInstance (none : Option (PVInst Nat)) 7).2 [8, 9]) 10 =
      ((PV.getInstance (none : Option (PVInst Nat)) 7).1,
       (PV.getInstance (none : Option (PVInst Nat)) 7).2) :=
  C9_getInstance_singleton_ignores_new_storage 7 [8, 9] 10

/-- Helper: if the walk's current value is falsy after consuming some strict
prefix of the parts, the `getNestedValue` loop returns `undefined`. -/
theorem gnvWalk_falsy (parts : List String) :
    ∀ (root : DVal) (i : Nat), i < parts.length →
      truthy (pureWalk root (parts.take i)) = false →
      gnvWalk root parts = .undef := by
  induction parts with
  | nil => intro root i hi _; exact absurd hi (by simp)
  | cons p rest ih =>
      intro root i hi hf
      match i with
      | 0 =>
          simp only [List.take_zero, pureWalk, List.foldl_nil] at hf
          simp [gnvWalk, hf]
      | j + 1 =>
          by_cases ht : truthy root
          · have hstep : pureWalk root ((p :: rest).take (j + 1)) =
                pureWalk (stepPart root p) (rest.take j) := by
              simp [pureWalk]
            rw [hstep] at hf
            have hj : j < rest.length := by
              simpa using hi
            simp only [gnvWalk, ht, if_true]
            exact ih (stepPart root p) j hj hf
          · simp [gnvWalk, ht]

/-- C8: the path resolver flattens bracket and dot index notation to the same
token list, so `getNestedValue root "a[2].b"` and `getNestedValue root
"a.2.b"` agree for every root; and whenever the value reached by some proper
prefix of the path's tokens is nullish (`undefined` or `null`), the result is
`undefined` — `getNestedValue` is total and never throws, absence being
represented by the `undefined` value. -/
theorem C8_getNestedValue_bracket_dot_and_nullish :
    (∀ root : DVal, getNestedValue root "a[2].b" = getNestedValue root "a.2.b") ∧
    (∀ (root : DVal) (path : String) (i : Nat),
      i < (splitTokens path).length →
      isNullish (pureWalk root ((splitTokens path).take i)) = true →
      getNestedValue root path = .undef) := by
  constructor
  · intro root
    show gnvWalk root (splitTokens "a[2].b") = gnvWalk root (splitTokens "a.2.b")
    have h : splitTokens "a[2].b" = splitTokens "a.2.b" := by decide
    rw [h]
  · intro root path i hi hn
    have hf : truthy (pureWalk root ((splitTokens path).take i)) = false := by
      cases hv : pureWalk root ((splitTokens path).take i) <;>
        simp_all [isNullish, truthy]
    exact gnvWalk_falsy (splitTokens path) root i hi hf

/-- Witness for C8 at concrete inputs: for the root `\x7b a: null \x7d` and
path `"a.b"`, the prefix of length 1 resolves to `null`, and the resolver
returns `undefined`. -/
theorem C8_getNestedValue_bracket_dot_and_nullish_witness :
    1 < (splitTokens "a.b").length ∧
    isNullish (pureWalk (.obj (.cons "a" .dnull .nil)) ((splitTokens "a.b").take 1)) = true ∧
    getNestedValue (.obj (.cons "a" .dnull .nil)) "a.b" = .undef :=
  ⟨by decide, by decide,
    C8_getNestedValue_bracket_dot_and_nullish.2 (.obj (.cons "a" .dnull .nil)) "a.b" 1
      (by decide) (by decide)⟩

/-- C10: the short-circuit in `getNestedValue` fires on every *falsy*
intermediate value, not only nullish ones: whenever some proper prefix of the
path resolves to a falsy value (`0`, `""`, `false`, `null`, `undefined` in
this embedding), the result is `undefined` — even when the remaining segments
exist on that value, as in `getNestedValue (\x7b a: "" \x7d) "a.length"`,
which returns `undefined` although `"".length` is `0`. -/
theorem C10_getNestedValue_falsy_short_circuit :
    (∀ (root : DVal) (path : String) (i : Nat),
      i < (splitTokens path).length →
      truthy (pureWalk root ((splitTokens path).take i)) = false →
      getNestedValue root path = .undef) ∧
    getNestedValue (.obj (.cons "a" (.str "") .nil)) "a.length" = .undef ∧
    jsGet (.str "") "length" = .num 0 := by
  refine ⟨?_, rfl, rfl⟩
  intro root path i hi hf
  exact gnvWalk_falsy (splitTokens path) root i hi hf

/-- Witness for C10 at concrete inputs: for root `\x7b a: 0 \x7d` and path
`"a.b"` the prefix of length 1 resolves to the falsy non-nullish value `0`,
and the resolver returns `undefined`. -/
theorem C10_getNestedValue_falsy_short_circuit_witness :
    1 < (splitTokens "a.b").length ∧
    truthy (pureWalk (.obj (.cons "a" (.num 0) .nil)) ((splitTokens "a.b").take 1)) = false ∧
    getNestedValue (.obj (.cons "a" (.num 0) .nil)) "a.b" = .undef :=
  ⟨by decide, by decide,
    C10_getNestedValue_falsy_short_circuit.1 (.obj (.cons "a" (.num 0) .nil)) "a.b" 1
      (by decide) (by decide)⟩

/-- Success inversion for `exBind`. -/
theorem exBind_ok_iff {a b : Type} {x : Except String a} {f : a → Except String b} {v : b} :
    exBind x f = .ok v ↔ ∃ w, x = .ok w ∧ f w = .ok v := by
  cases x <;> simp [exBind]

/-- Error inversion for `exBind`. -/
theorem exBind_err_iff {a b : Type} {x : Except String a} {f : a → Except String b} {m : String} :
    exBind x f = .error m ↔ (x = .error m ∨ ∃ w, x = .ok w ∧ f w = .error m) := by
  cases x <;> simp [exBind]

/-- `String` append acts on the character lists. -/
theorem string_data_append (s t : String) : (s ++ t).data = s.data ++ t.data := by
  cases s; cases t; rfl

/-- Rebuilding a `DFields` from its entry list is the identity. -/
theorem dfields_ofList_toList : (fs : DFields) → DFields.ofList fs.toList = fs
  | .nil => rfl
  | .cons k v tl => by
      simp [DFields.toList, DFields.ofList, dfields_ofList_toList tl]

/-- Reading a key just written. -/
theorem dfields_get_set_self : (fs : DFields) → ∀ (key : String) (v : DVal),
    (fs.set key v).get key = v
  | .nil, key, v => by simp [DFields.set, DFields.get]
  | .cons k w tl, key, v => by
      by_cases h : k = key <;>
        simp [DFields.set, DFields.get, h, dfields_get_set_self tl key v]

/-- Writing one key does not disturb another. -/
theorem dfields_get_set_ne : (fs : DFields) → ∀ (key key' : String) (v : DVal),
    key' ≠ key → (fs.set key v).get key' = fs.get key'
  | .nil, key, key', v, h => by
      have hne : ¬(key = key') := fun hh => h hh.symm
      simp [DFields.set, DFields.get, hne]
  | .cons k w tl, key, key', v, h => by
      by_cases hk : k = key
      · subst hk
        have hne : ¬(k = key') := fun hh => h hh.symm
        simp [DFields.set, DFields.get, hne]
      · by_cases hk' : k = key'
        · subst hk'
          have hne : ¬(k = key) := hk
          simp [DFields.set, DFields.get, hne]
        · simp [DFields.set, DFields.get, hk, hk', dfields_get_set_ne tl key key' v h]

/-- The defaults loop distributes over list append. -/
theorem applyDefaultsLoop_append (xs ys : List (String × DVal)) :
    ∀ (r : DFields),
      applyDefaultsLoop (xs ++ ys) r =
        exBind (applyDefaultsLoop xs r) (applyDefaultsLoop ys) := by
  induction xs with
  | nil => intro r; simp [applyDefaultsLoop, exBind]
  | cons e rest ih =>
      intro r
      obtain ⟨key, rule⟩ := e
      simp only [List.cons_append, applyDefaultsLoop]
      by_cases hc : isUndef (r.get key) && isValidationRule rule && !truthy (jsGet rule "optional")
      · simp only [hc, if_true]
        cases hdv : getDefaultValue rule with
        | error m => simp [exBind]
        | ok dv => simp [exBind, ih]
      · simp only [hc, if_false]
        exact ih r

/-- The defaults loop leaves keys it never visits unchanged. -/
theorem applyDefaultsLoop_get_not_mem (entries : List (String × DVal)) :
    ∀ (r out : DFields) (key : String),
      applyDefaultsLoop entries r = .ok out →
      key ∉ entries.map Prod.fst →
      out.get key = r.get key := by
  induction entries with
  | nil =>
      intro r out key h _
      simp only [applyDefaultsLoop, Except.ok.injEq] at h
      subst h; rfl
  | cons e rest ih =>
      intro r out key h hkey
      obtain ⟨k, rule⟩ := e
      simp only [List.map_cons, List.mem_cons] at hkey
      push_neg at hkey
      simp only [applyDefaultsLoop] at h
      by_cases hc : isUndef (r.get k) && isValidationRule rule && !truthy (jsGet rule "optional")
      · simp only [hc, if_true, exBind_ok_iff] at h
        obtain ⟨dv, _, hrest⟩ := h
        rw [ih _ out key hrest hkey.2]
        exact dfields_get_set_ne r k key dv hkey.1
      · simp only [hc, if_false] at h
        exact ih r out key h hkey.2

/-- The defaults loop leaves keys whose current value is defined unchanged
(such keys can never match the `result[key] === undefined` trigger). -/
theorem applyDefaultsLoop_get_defined (entries : List (String × DVal)) :
    ∀ (r out : DFields) (key : String),
      applyDefaultsLoop entries r = .ok out →
      isUndef (r.get key) = false →
      out.get key = r.get key := by
  induction entries with
  | nil =>
      intro r out key h _
      simp only [applyDefaultsLoop, Except.ok.injEq] at h
      subst h; rfl
  | cons e rest ih =>
      intro r out key h hdef
      obtain ⟨k, rule⟩ := e
      simp only [applyDefaultsLoop] at h
      by_cases hk : k = key
      · subst hk
        have hc : (isUndef (r.get k) && isValidationRule rule && !truthy (jsGet rule "optional")) = false := by
          simp [hdef]
        simp only [hc, if_false] at h
        exact ih r out k h hdef
      · by_cases hc : isUndef (r.get k) && isValidationRule rule && !truthy (jsGet rule "optional")
        · simp only [hc, if_true, exBind_ok_iff] at h
          obtain ⟨dv, _, hrest⟩ := h
          have hpres : (r.set k dv).get key = r.get key :=
            dfields_get_set_ne r k key dv (fun hh => hk hh.symm)
          rw [ih _ out key hrest (by rw [hpres]; exact hdef), hpres]
        · simp only [hc, if_false] at h
          exact ih r out key h hdef

/-- C4 counterexample: for the model `\x7b a: \x7b type: 'S' \x7d \x7d` (no
`default`, not optional) and empty data, `applyDefaults` sets `a` to the
type-derived default `""` — not `undefined` as the claim states. -/
theorem C4_counterexample_type_default_substituted :
    applyDefaults (.obj .nil) (.obj (.cons "a" (.obj (.cons "type" (.str "S") .nil)) .nil)) =
      .ok (.obj (.cons "a" (.str "") .nil)) ∧
    DVal.str "" ≠ DVal.undef :=
  ⟨rfl, fun h => DVal.noConfusion h⟩

/-- C4 as amended: during default application, every top-level key that reads
as `undefined` in the data and whose rule is a non-optional object rule is
set to the result of `getDefaultValue`; and `getDefaultValue` invokes
`rule.default` with no arguments when it is a function, deep-clones it (JSON
round trip) when it is any other defined value, and — when no `default` is
specified — substitutes a **type-derived** default for the tags S/N/B/L/M
(`""`, `0`, `false`, `[]`, `\x7b\x7d` respectively), yielding `undefined`
only for other or missing type tags. -/
theorem C4_applyDefaults_amended :
    (∀ (data model : DVal) (mfs : DFields) (key : String) (rule out : DVal),
      model = .obj mfs →
      (mfs.toList.map Prod.fst).Nodup →
      (key, rule) ∈ mfs.toList →
      isUndef ((spreadEntries data).get key) = true →
      isValidationRule rule = true →
      truthy (jsGet rule "optional") = false →
      applyDefaults data model = .ok out →
      ∃ dv, getDefaultValue rule = .ok dv ∧ jsGet out key = dv) ∧
    (∀ (rule : DVal) (p : List String) (b : FStmt) (f : FForm),
      jsGet rule "default" = .fn p b f → getDefaultValue rule = applyFunc p b []) ∧
    (∀ (rule d : DVal),
      jsGet rule "default" = d → isUndef d = false → (∀ p b f, d ≠ .fn p b f) →
      getDefaultValue rule = .ok (jsonClone d)) ∧
    (∀ rule : DVal, jsGet rule "default" = .undef →
      (jsGet rule "type" = .str "S" → getDefaultValue rule = .ok (.str "")) ∧
      (jsGet rule "type" = .str "N" → getDefaultValue rule = .ok (.num 0)) ∧
      (jsGet rule "type" = .str "B" → getDefaultValue rule = .ok (.bool false)) ∧
      (jsGet rule "type" = .str "L" → getDefaultValue rule = .ok (.arr .nil)) ∧
      (jsGet rule "type" = .str "M" → getDefaultValue rule = .ok (.obj .nil)) ∧
      (∀ t : String, jsGet rule "type" = .str t → t ≠ "" →
        t ∉ (["S", "N", "B", "L", "M"] : List String) →
        getDefaultValue rule = .ok .undef) ∧
      (truthy (jsGet rule "type") = false → getDefaultValue rule = .ok .undef)) := by
  refine ⟨?_, ?_, ?_, ?_⟩
  · intro data model mfs key rule out hm hnd hmem hud hrule hopt happ
    subst hm
    simp only [applyDefaults, exBind_ok_iff] at happ
    obtain ⟨fs, hloop, hout⟩ := happ
    simp only [Except.ok.injEq] at hout
    obtain ⟨pre, post, hsplit⟩ := List.append_of_mem hmem
    have hentries : jsEntries (.obj mfs) = mfs.toList := rfl
    rw [hentries, hsplit] at hloop
    have hnd' := hnd
    rw [hsplit] at hnd'
    simp only [List.map_append, List.map_cons, List.nodup_append, List.nodup_cons] at hnd'
    have hkey_pre : key ∉ pre.map Prod.fst := by
      intro hmempre
      exact hnd'.2.2 hmempre (by simp)
    have hkey_post : key ∉ post.map Prod.fst := hnd'.2.1.1
    rw [applyDefaultsLoop_append] at hloop
    rw [exBind_ok_iff] at hloop
    obtain ⟨r1, hpre, hrest⟩ := hloop
    have hr1 : r1.get key = (spreadEntries data).get key :=
      applyDefaultsLoop_get_not_mem pre _ r1 key hpre hkey_pre
    have hud1 : isUndef (r1.get key) = true := by rw [hr1]; exact hud
    simp only [applyDefaultsLoop, hud1, hrule, hopt, Bool.not_false, Bool.and_true,
      Bool.true_and, if_true, exBind_ok_iff] at hrest
    obtain ⟨dv, hdv, hpost⟩ := hrest
    refine ⟨dv, hdv, ?_⟩
    have hfs : fs.get key = (r1.set key dv).get key :=
      applyDefaultsLoop_get_not_mem post _ fs key hpost hkey_post
    rw [← hout]
    show fs.get key = dv
    rw [hfs, dfields_get_set_self]
  · intro rule p b f hd
    simp [getDefaultValue, hd, isUndef]
  · intro rule d hd hdef hnotfn
    rw [getDefaultValue, hd]
    cases d with
    | undef => exact absurd hdef (by simp [isUndef])
    | dnull => rfl
    | bool b => rfl
    | num n => rfl
    | str s => rfl
    | arr xs => rfl
    | obj fs => rfl
    | fn p b f => exact absurd rfl (hnotfn p b f)
  · intro rule hd
    refine ⟨?_, ?_, ?_, ?_, ?_, ?_, ?_⟩ <;> intro ht
    · simp [getDefaultValue, hd, isUndef, ht, truthy, DVal.beq]
    · simp [getDefaultValue, hd, isUndef, ht, truthy, DVal.beq]
    · simp [getDefaultValue, hd, isUndef, ht, truthy, DVal.beq]
    · simp [getDefaultValue, hd, isUndef, ht, truthy, DVal.beq]
    · simp [getDefaultValue, hd, isUndef, ht, truthy, DVal.beq]
    · intro hjs hne hnotin
      have h1 : ht ≠ "S" := fun h => hnotin (by simp [h])
      have h2 : ht ≠ "N" := fun h => hnotin (by simp [h])
      have h3 : ht ≠ "B" := fun h => hnotin (by simp [h])
      have h4 : ht ≠ "L" := fun h => hnotin (by simp [h])
      have h5 : ht ≠ "M" := fun h => hnotin (by simp [h])
      simp [getDefaultValue, hd, isUndef, hjs, truthy, DVal.beq, hne,
        h1, h2, h3, h4, h5]
    · rw [getDefaultValue, hd]
      simp only [isUndef, Bool.not_true, if_false, ht]
      simp

/-- Witness for C4-as-amended at concrete inputs: the model
`\x7b a: \x7b type: 'S' \x7d \x7d` with empty data yields `a = ""`. -/
theorem C4_applyDefaults_amended_witness :
    ∃ dv, getDefaultValue (.obj (.cons "type" (.str "S") .nil)) = .ok dv ∧
      jsGet (.obj (.cons "a" (.str "") .nil)) "a" = dv :=
  C4_applyDefaults_amended.1 (.obj .nil)
    (.obj (.cons "a" (.obj (.cons "type" (.str "S") .nil)) .nil))
    (.cons "a" (.obj (.cons "type" (.str "S") .nil)) .nil)
    "a" (.obj (.cons "type" (.str "S") .nil)) (.obj (.cons "a" (.str "") .nil))
    rfl (by decide) (List.mem_singleton.mpr rfl) rfl rfl rfl rfl

/-- A path extends itself. -/
theorem pathExt_refl (path : String) : pathExt path path := Or.inl rfl

/-- Extensions below a `.`-child are extensions of the parent. -/
theorem pathExt_dot {path k f : String} (h : pathExt (path ++ "." ++ k) f) :
    pathExt path f := by
  have hdata : (path ++ "." ++ k).data = path.data ++ '.' :: k.data := by
    rw [string_data_append, string_data_append, List.append_assoc]
    rfl
  rcases h with h | ⟨rest, h⟩ | ⟨rest, h⟩
  · exact Or.inr (Or.inl ⟨k.data, by rw [h, hdata]⟩)
  · exact Or.inr (Or.inl ⟨k.data ++ '.' :: rest, by rw [h, hdata]; simp⟩)
  · exact Or.inr (Or.inl ⟨k.data ++ '[' :: rest, by rw [h, hdata]; simp⟩)

/-- Extensions below a `[i]` child are extensions of the parent. -/
theorem pathExt_bracket {path s f : String} (h : pathExt (path ++ "[" ++ s ++ "]") f) :
    pathExt path f := by
  have hdata : (path ++ "[" ++ s ++ "]").data = path.data ++ '[' :: (s.data ++ [']']) := by
    rw [string_data_append, string_data_append, string_data_append,
      List.append_assoc, List.append_assoc]
    rfl
  rcases h with h | ⟨rest, h⟩ | ⟨rest, h⟩
  · exact Or.inr (Or.inr ⟨s.data ++ [']'], by rw [h, hdata]⟩)
  · exact Or.inr (Or.inr ⟨s.data ++ [']'] ++ '.' :: rest, by rw [h, hdata]; simp⟩)
  · exact Or.inr (Or.inr ⟨s.data ++ [']'] ++ '[' :: rest, by rw [h, hdata]; simp⟩)

/-- The per-entry error chunk of the dependency loop is `[]` or the single
entry message at the field's path. -/
theorem validateDeps_here_shape {cres : DVal} {dep root value : DVal} {fld path : String}
    {here : List VErr}
    (hhere : (if truthy cres = true then
        exBind (getProp dep "validate") (fun v =>
        exBind (jsCall v [value, getNestedValue root (depPathOf path fld), root]) (fun isValid =>
        if !(truthy isValid) then .ok [⟨path, jsGet dep "message"⟩] else .ok []))
      else .ok []) = .ok here) :
    here = [] ∨ ∃ msg, here = [⟨path, msg⟩] := by
  by_cases hc : truthy cres = true
  · rw [if_pos hc] at hhere
    rw [exBind_ok_iff] at hhere; obtain ⟨v, _, hhere⟩ := hhere
    rw [exBind_ok_iff] at hhere; obtain ⟨iv, _, hhere⟩ := hhere
    by_cases hv : (!truthy iv) = true
    · rw [if_pos hv] at hhere
      injection hhere with h1
      exact Or.inr ⟨jsGet dep "message", h1.symm⟩
    · rw [if_neg hv] at hhere
      injection hhere with h1
      exact Or.inl h1.symm
  · rw [if_neg hc] at hhere
    injection hhere with h1
    exact Or.inl h1.symm

/-- Every error the dependency loop reports is at exactly the field's path. -/
theorem validateDeps_paths :
    ∀ (deps : List DVal) (root value : DVal) (path : String) (out : List VErr),
      validateDeps root value deps path = .ok out →
      ∀ e ∈ out, e.field = path := by
  intro deps
  induction deps with
  | nil =>
      intro root value path out h e he
      simp only [validateDeps, Except.ok.injEq] at h
      subst h; cases he
  | cons dep rest ih =>
      intro root value path out h e he
      simp only [validateDeps] at h
      rw [exBind_ok_iff] at h; obtain ⟨f, _, h⟩ := h
      rw [exBind_ok_iff] at h; obtain ⟨fld, _, h⟩ := h
      rw [exBind_ok_iff] at h; obtain ⟨cond, _, h⟩ := h
      rw [exBind_ok_iff] at h; obtain ⟨cres, _, h⟩ := h
      rw [exBind_ok_iff] at h; obtain ⟨here, hhere, h⟩ := h
      rw [exBind_ok_iff] at h; obtain ⟨more, hmore, h⟩ := h
      simp only [Except.ok.injEq] at h
      subst h
      rcases List.mem_append.mp he with hm | hm
      · rcases validateDeps_here_shape hhere with h0 | ⟨msg, h1⟩
        · subst h0; cases hm
        · subst h1
          simp only [List.mem_singleton] at hm
          subst hm; rfl
      · exact ih root value path more hmore e hm

/-- A string with a nonempty character list is nonempty. -/
theorem str_ne_empty_of_data {s : String} (h : s.data ≠ []) : s ≠ "" := by
  intro he; subst he; exact h rfl

/-- A bracketed child path is never the empty string. -/
theorem bracketPath_ne_empty (path s : String) : path ++ "[" ++ s ++ "]" ≠ "" := by
  apply str_ne_empty_of_data
  rw [string_data_append, string_data_append, string_data_append]
  simp

/-- A dotted child path of a nonempty parent is never the empty string. -/
theorem dotPath_ne_empty (path k : String) (h : path ≠ "") : path ++ "." ++ k ≠ "" := by
  apply str_ne_empty_of_data
  rw [string_data_append, string_data_append]
  simp

/-- Errors produced by the element loop extend the loop's base path, provided
the callback's errors extend their element path. -/
theorem forEachItems_paths (go : DVal → String → Except String (List VErr))
    (hgo : ∀ v p out, p ≠ "" → go v p = .ok out → ∀ e ∈ out, pathExt p e.field) :
    ∀ (xs : DList) (path : String) (i : Nat) (out : List VErr),
      forEachItems go xs path i = .ok out →
      ∀ e ∈ out, pathExt path e.field
  | .nil, path, i, out, h, e, he => by
      simp only [forEachItems, Except.ok.injEq] at h
      subst h; cases he
  | .cons v tl, path, i, out, h, e, he => by
      simp only [forEachItems] at h
      rw [exBind_ok_iff] at h; obtain ⟨a, ha, h⟩ := h
      rw [exBind_ok_iff] at h; obtain ⟨b, hb, h⟩ := h
      simp only [Except.ok.injEq] at h
      subst h
      rcases List.mem_append.mp he with hm | hm
      · exact pathExt_bracket (hgo v _ a (bracketPath_ne_empty path (natToString i)) ha e hm)
      · exact forEachItems_paths go hgo tl path (i + 1) b hb e hm

/-- Errors produced by the field loop extend the loop's base path (which must
be nonempty), provided the callback's errors extend their field path. -/
theorem forEachFields_paths (go : DVal → DVal → String → Except String (List VErr))
    (hgo : ∀ v fr p out, p ≠ "" → go v fr p = .ok out → ∀ e ∈ out, pathExt p e.field) :
    ∀ (entries : List (String × DVal)) (value : DVal) (path : String),
      path ≠ "" →
      ∀ (out : List VErr), forEachFields go entries value path = .ok out →
      ∀ e ∈ out, pathExt path e.field
  | [], value, path, hne, out, h, e, he => by
      simp only [forEachFields, Except.ok.injEq] at h
      subst h; cases he
  | (k, fr) :: rest, value, path, hne, out, h, e, he => by
      simp only [forEachFields] at h
      rw [exBind_ok_iff] at h; obtain ⟨a, ha, h⟩ := h
      rw [exBind_ok_iff] at h; obtain ⟨b, hb, h⟩ := h
      simp only [Except.ok.injEq] at h
      subst h
      rcases List.mem_append.mp he with hm | hm
      · rw [if_pos hne] at ha
        exact pathExt_dot (hgo _ fr _ a (dotPath_ne_empty path k hne) ha e hm)
      · exact forEachFields_paths go hgo rest value path hne b hb e hm

/-- Shape of the enumeration-error chunk `e1`. -/
theorem values_chunk_shape {vs value : DVal} {path : String} {e1 : List VErr}
    (h : (if truthy vs = true then
            exBind (jsIncludes vs value) (fun inc =>
            if !inc then
              exBind (jsJoinE vs ", ") (fun joined =>
              .ok [(⟨path, .str ("Value must be one of: " ++ joined)⟩ : VErr)])
            else .ok [])
          else .ok []) = .ok e1) :
    ∀ e ∈ e1, e.field = path := by
  intro e he
  by_cases hc : truthy vs = true
  · rw [if_pos hc] at h
    rw [exBind_ok_iff] at h; obtain ⟨inc, _, h⟩ := h
    by_cases hi : (!inc) = true
    · rw [if_pos hi] at h
      rw [exBind_ok_iff] at h; obtain ⟨joined, _, h⟩ := h
      injection h with h1
      subst h1
      simp only [List.mem_singleton] at he
      subst he; rfl
    · rw [if_neg hi] at h
      injection h with h1
      subst h1; cases he
  · rw [if_neg hc] at h
    injection h with h1
    subst h1; cases he

/-- Shape of the number/string constraint chunks `e2`/`e3`: concatenations of
conditional singletons at the field's path. -/
theorem constraint_chunk_fields {path : String} {c1 c2 c3 : Bool} {m1 m2 m3 : DVal}
    (e : VErr)
    (he : e ∈ (if c1 then [(⟨path, m1⟩ : VErr)] else []) ++
               (if c2 then [(⟨path, m2⟩ : VErr)] else []) ++
               (if c3 then [(⟨path, m3⟩ : VErr)] else [])) :
    e.field = path := by
  rcases List.mem_append.mp he with hm | hm
  · rcases List.mem_append.mp hm with hm' | hm'
    · split at hm'
      · simp only [List.mem_singleton] at hm'; subst hm'; rfl
      · cases hm'
    · split at hm'
      · simp only [List.mem_singleton] at hm'; subst hm'; rfl
      · cases hm'
  · split at hm
    · simp only [List.mem_singleton] at hm; subst hm; rfl
    · cases hm

/-- Two-chunk version of `constraint_chunk_fields`. -/
theorem constraint_chunk2_fields {path : String} {c1 c2 : Bool} {m1 m2 : DVal}
    (e : VErr)
    (he : e ∈ (if c1 then [(⟨path, m1⟩ : VErr)] else []) ++
               (if c2 then [(⟨path, m2⟩ : VErr)] else [])) :
    e.field = path := by
  rcases List.mem_append.mp he with hm | hm
  · split at hm
    · simp only [List.mem_singleton] at hm; subst hm; rfl
    · cases hm
  · split at hm
    · simp only [List.mem_singleton] at hm; subst hm; rfl
    · cases hm

/-- Number-constraint errors land at the field's path. -/
theorem numberConstraintErrors_fields {value rule : DVal} {path : String}
    (e : VErr) (he : e ∈ numberConstraintErrors value rule path) : e.field = path := by
  unfold numberConstraintErrors at he
  split at he
  · exact constraint_chunk_fields e he
  · cases he

/-- String-constraint errors land at the field's path. -/
theorem stringConstraintErrors_fields {value rule : DVal} {path : String}
    (e : VErr) (he : e ∈ stringConstraintErrors value rule path) : e.field = path := by
  unfold stringConstraintErrors at he
  split at he
  · exact constraint_chunk2_fields e he
  · cases he

/-- The post-typecheck constraint/recursion chain of `validateDefined`
reports errors only at the field's path or below it. -/
theorem constraintsChain_paths (go : DVal → DVal → String → Except String (List VErr))
    (hgo : ∀ v r p out, p ≠ "" → go v r p = .ok out → ∀ e ∈ out, pathExt p e.field)
    (root value rule : DVal) (path : String) (out : List VErr)
    (hne : path ≠ "")
    (h : exBind (if truthy (jsGet rule "values") then
                   exBind (jsIncludes (jsGet rule "values") value) (fun inc =>
                   if !inc then
                     exBind (jsJoinE (jsGet rule "values") ", ") (fun joined =>
                     .ok [(⟨path, .str ("Value must be one of: " ++ joined)⟩ : VErr)])
                   else .ok [])
                 else .ok []) (fun e1 =>
         exBind (if truthy (jsGet rule "items") && isArray value then
                   forEachItems (fun item p => go item (jsGet rule "items") p)
                     (DVal.asArr value) path 0
                 else .ok []) (fun e4 =>
         exBind (if truthy (jsGet rule "fields") && jsTypeof value == "object" then
                   forEachFields go (jsEntries (jsGet rule "fields")) value path
                 else .ok []) (fun e5 =>
         exBind (if jsTypeof rule == "object" && truthy (jsGet rule "dependsOn") then
                   validateDeps root value (depsAsList (jsGet rule "dependsOn")) path
                 else .ok []) (fun e6 =>
         .ok (e1 ++
           (numberConstraintErrors value rule path ++
             (stringConstraintErrors value rule path ++ (e4 ++ (e5 ++ e6))))))))) = .ok out) :
    ∀ e ∈ out, pathExt path e.field := by
  rw [exBind_ok_iff] at h; obtain ⟨e1, he1, h⟩ := h
  rw [exBind_ok_iff] at h; obtain ⟨e4, he4, h⟩ := h
  rw [exBind_ok_iff] at h; obtain ⟨e5, he5, h⟩ := h
  rw [exBind_ok_iff] at h; obtain ⟨e6, he6, h⟩ := h
  injection h with h1
  subst h1
  intro e he
  simp only [List.mem_append] at he
  rcases he with he | he | he | he | he | he
  · exact Or.inl (values_chunk_shape he1 e he)
  · exact Or.inl (numberConstraintErrors_fields e he)
  · exact Or.inl (stringConstraintErrors_fields e he)
  · split at he4
    · exact forEachItems_paths _
        (fun v p out' hp hg => hgo v _ p out' hp hg) _ path 0 e4 he4 e he
    · injection he4 with h4; subst h4; cases he
  · split at he5
    · exact forEachFields_paths go hgo _ _ path hne e5 he5 e he
    · injection he5 with h5; subst h5; cases he
  · split at he6
    · exact Or.inl (validateDeps_paths _ root _ path e6 he6 e he)
    · injection he6 with h6; subst h6; cases he

/-- Every error reported by `validateDefined` lies at the field's own path or
strictly below it, provided the recursive callback has that property. -/
theorem validateDefined_paths (go : DVal → DVal → String → Except String (List VErr))
    (hgo : ∀ v r p out, p ≠ "" → go v r p = .ok out → ∀ e ∈ out, pathExt p e.field)
    (descFuel : Nat) (root value rule : DVal) (path : String) (out : List VErr)
    (hne : path ≠ "")
    (h : validateDefined go descFuel root value rule path = .ok out) :
    ∀ e ∈ out, pathExt path e.field := by
  rw [validateDefined.eq_def] at h
  rw [exBind_ok_iff] at h; obtain ⟨ti, hti, h⟩ := h
  split at h
  · injection h with h1; subst h1; intro e he; cases he
  · rw [exBind_ok_iff] at h; obtain ⟨tiStr, htis, h⟩ := h
    split at h
    · -- composite L<X> tag
      split at h
      · intro e he
        exact forEachItems_paths _ (fun v p out' hp hg => hgo v _ p out' hp hg)
          _ path 0 out h e he
      · injection h with h1; subst h1
        intro e he
        simp only [List.mem_singleton] at he
        subst he; exact pathExt_refl path
    · -- non-composite: the rule-position choice, then the type check
      split at h
      all_goals split at h
      all_goals first
        | (injection h with h1; subst h1;
           intro e he; simp only [List.mem_singleton] at he;
           subst he; exact pathExt_refl path)
        | (cases rule <;>
            first
              | (injection h with h1; subst h1; intro e he; cases he)
              | (exact constraintsChain_paths go hgo root _ _ path out hne h))

/-- Every error reported by `validateValue` lies at the field's own path or
strictly below it (a `.`-key or `[i]` extension); nothing is ever reported
above or beside the field. -/
theorem validateValue_paths :
    ∀ (fuel : Nat) (root value rule : DVal) (path : String) (out : List VErr),
      path ≠ "" →
      validateValue fuel root value rule path = .ok out →
      ∀ e ∈ out, pathExt path e.field := by
  intro fuel
  induction fuel with
  | zero =>
      intro root value rule path out _ h
      exact absurd h (by rw [validateValue]; simp)
  | succ fuel ih =>
      intro root value rule path out hne h
      cases value
      case undef =>
        replace h : (if jsTypeof rule == "object" then
            exBind (getProp rule "optional") (fun opt =>
              if truthy opt then .ok []
              else .ok [⟨path, .str "Field is required"⟩])
          else .ok [(⟨path, .str "Field is required"⟩ : VErr)]) = .ok out := h
        split at h
        · rw [exBind_ok_iff] at h; obtain ⟨opt, _, h⟩ := h
          split at h
          · injection h with h1; subst h1; intro e he; cases he
          · injection h with h1; subst h1
            intro e he
            simp only [List.mem_singleton] at he
            subst he; exact pathExt_refl path
        · injection h with h1; subst h1
          intro e he
          simp only [List.mem_singleton] at he
          subst he; exact pathExt_refl path
      all_goals
        exact validateDefined_paths _ (fun v r p out' hp hg => ih root v r p out' hp hg)
          _ root _ rule path out hne h

/-- `List.contains` is `false` for a non-member. -/
theorem contains_false_of_not_mem {c : Char} : ∀ {l : List Char}, c ∉ l → l.contains c = false := by
  intro l h
  induction l with
  | nil => rfl
  | cons d tl ih =>
      simp only [List.mem_cons] at h
      push_neg at h
      have := ih h.2
      simp [List.contains_cons, h.1, this]
      exact h.2

/-- The head of an infix pattern occurs in the scanned list. -/
theorem infixB_head_mem {c : Char} {cs : List Char} : ∀ {l : List Char},
    isInfixB (c :: cs) l = true → c ∈ l := by
  intro l
  induction l with
  | nil => intro h; simp [isInfixB, List.isEmpty] at h
  | cons d tl ih =>
      intro h
      simp only [isInfixB, Bool.or_eq_true] at h
      rcases h with h | h
      · have : c = d := by
          cases hp : List.isPrefixOf (c :: cs) (d :: tl)
          · rw [hp] at h; cases h
          · simp only [List.isPrefixOf, Bool.and_eq_true, beq_iff_eq] at hp
            exact hp.1
        exact this ▸ List.mem_cons_self d tl
      · exact List.mem_cons_of_mem d (ih h)

/-- The top-level loop distributes over list append. -/
theorem validateTop_append (fuel : Nat) (root : DVal) (xs ys : List (String × DVal))
    (pp : String) :
    validateTop fuel root (xs ++ ys) pp =
      exBind (validateTop fuel root xs pp) (fun a =>
      exBind (validateTop fuel root ys pp) (fun b => .ok (a ++ b))) := by
  induction xs with
  | nil =>
      cases h : validateTop fuel root ys pp <;> simp [validateTop, exBind, h]
  | cons e rest ih =>
      obtain ⟨key, rule⟩ := e
      simp only [List.cons_append, validateTop, List.append_eq]
      cases h1 : validateValue fuel root
          (if containsDot key || containsSub "[]" key then getNestedValue root key
           else jsGet root key) rule
          (if pp ≠ "" then pp ++ "." ++ key else key) with
      | error m => simp [exBind]
      | ok a =>
          rw [ih]
          cases h2 : validateTop fuel root rest pp with
          | error m => simp [exBind, h2]
          | ok b =>
              cases h3 : validateTop fuel root ys pp with
              | error m => simp [exBind, h2, h3]
              | ok c => simp [exBind, h2, h3]

/-- With an empty parent path, every error of the top-level loop extends the
key of some model entry, provided all keys are nonempty. -/
theorem validateTop_paths (fuel : Nat) (root : DVal) :
    ∀ (entries : List (String × DVal)) (out : List VErr),
      (∀ k ∈ entries.map Prod.fst, k ≠ "") →
      validateTop fuel root entries "" = .ok out →
      ∀ e ∈ out, ∃ k ∈ entries.map Prod.fst, pathExt k e.field := by
  intro entries
  induction entries with
  | nil =>
      intro out _ h e he
      simp only [validateTop, Except.ok.injEq] at h
      subst h; cases he
  | cons ent rest ih =>
      intro out hk h e he
      obtain ⟨key, rule⟩ := ent
      simp only [validateTop] at h
      rw [exBind_ok_iff] at h; obtain ⟨a, ha, h⟩ := h
      rw [exBind_ok_iff] at h; obtain ⟨b, hb, h⟩ := h
      injection h with h1
      subst h1
      have hkey : key ≠ "" := hk key (by simp)
      rcases List.mem_append.mp he with hm | hm
      · rw [if_neg (show ¬(("" : String) ≠ "") from fun hcc => hcc rfl)] at ha
        exact ⟨key, by simp, validateValue_paths fuel root _ rule key a hkey ha e hm⟩
      · obtain ⟨k, hk', hp⟩ := ih b (fun k hkm => hk k (by simp [hkm])) hb e hm
        exact ⟨k, by simp [hk'], hp⟩

/-- An extension of a key with no dots or brackets equals that key only if it
is the key itself; extensions of a *different* dotless, bracketless key can
never collide with it. -/
theorem pathExt_ne {k f key : String} (hp : pathExt k f) (hkne : k ≠ key)
    (hdot : '.' ∉ key.data) (hbr : '[' ∉ key.data) : f ≠ key := by
  rcases hp with h | ⟨rest, h⟩ | ⟨rest, h⟩
  · rw [h]; exact hkne
  · intro hf
    subst hf
    exact hdot (h ▸ List.mem_append.mpr (Or.inr (List.mem_cons_self _ _)))
  · intro hf
    subst hf
    exact hbr (h ▸ List.mem_append.mpr (Or.inr (List.mem_cons_self _ _)))

/-- The type-error message can never read "Field is required". -/
theorem invalid_type_msg_ne_required (d : String) :
    ("Invalid type, expected " ++ d ++ ", got object" : String) ≠ "Field is required" := by
  intro h
  have h2 := congrArg (fun s => s.data.head?) h
  simp only [string_data_append] at h2
  simp at h2

/-- String concatenation is associative. -/
theorem string_append_assoc (a b c : String) : a ++ b ++ c = a ++ (b ++ c) := by
  apply String.ext
  simp only [string_data_append, List.append_assoc]

/-- On an object rule whose `type` tag fails the registry check (and is not a
composite `L<X>` tag), `validateDefined` returns exactly the single
invalid-type error. -/
theorem validateDefined_obj_typefail (go : DVal → DVal → String → Except String (List VErr))
    (descFuel : Nat) (root value : DVal) (rfs : DFields) (path tag : String)
    (hty : DFields.get rfs "type" = .str tag)
    (htr : tag ≠ "")
    (hcomp : (parseArrayType tag).1 = false)
    (hvt : validateType value tag (.obj rfs) = false) :
    validateDefined go descFuel root value (.obj rfs) path =
      .ok [⟨path, .str ("Invalid type, expected " ++ getTypeDescription descFuel (.obj rfs) ++
        ", got " ++ jsTypeof value)⟩] := by
  have hget : getProp (DVal.obj rfs) "type" = .ok (.str tag) := by
    show Except.ok (jsGet (DVal.obj rfs) "type") = Except.ok (DVal.str tag)
    rw [show jsGet (DVal.obj rfs) "type" = DFields.get rfs "type" from rfl, hty]
  have htr' : truthy (DVal.str tag) = true := by
    simp [truthy, htr]
  rw [validateDefined.eq_def]
  simp [hget, exBind, htr', hcomp, hvt, jsTypeof]

/-- With a defined fuel budget, a `null` value against a rule declaring one
of the registry tags S/N/B/L/M always yields exactly the single
invalid-type error ("got object" because `typeof null` is `"object"`) —
never the required-field error and never a pass. -/
theorem validateValue_null_type_error (fuel : Nat) (root rule : DVal) (path tag : String)
    (htag : tag = "S" ∨ tag = "N" ∨ tag = "B" ∨ tag = "L" ∨ tag = "M")
    (hrule : rule = .str tag ∨ ∃ rfs, rule = .obj rfs ∧ DFields.get rfs "type" = .str tag) :
    validateValue (fuel + 1) root .dnull rule path =
      .ok [⟨path, .str ("Invalid type, expected " ++ getTypeDescription (fuel + 1) rule ++
        ", got object")⟩] := by
  rcases hrule with hre | ⟨rfs, hre, hty⟩
  · subst hre
    rcases htag with h | h | h | h | h <;> subst h <;> rfl
  · subst hre
    have htr : tag ≠ "" := by
      rcases htag with h | h | h | h | h <;> subst h <;> decide
    have hcomp : (parseArrayType tag).1 = false := by
      rcases htag with h | h | h | h | h <;> subst h <;> rfl
    have hvt : validateType DVal.dnull tag (DVal.obj rfs) = false := by
      rcases htag with h | h | h | h | h <;> subst h <;> rfl
    have h0 : validateValue (fuel + 1) root DVal.dnull (DVal.obj rfs) path =
        validateDefined (fun v r p => validateValue fuel root v r p) (fuel + 1)
          root DVal.dnull (DVal.obj rfs) path := rfl
    rw [h0, validateDefined_obj_typefail _ (fuel + 1) root DVal.dnull rfs path tag
      hty htr hcomp hvt]
    rw [string_append_assoc]
    show Except.ok [(⟨path, DVal.str ("Invalid type, expected " ++
        getTypeDescription (fuel + 1) (DVal.obj rfs) ++ (", got " ++ "object"))⟩ : VErr)] = _
    rw [show (", got " ++ "object" : String) = ", got object" from rfl]

/-- C5: for every model field whose resolved value is `null` (not
`undefined`) and whose rule declares one of the types S, N, B, L, or M
(either as the bare string tag or as `rule.type`), `validateAgainstModel`
reports the "Invalid type, expected ..., got ..." error for that field: the
result is invalid (never a silent pass), the invalid-type error for the
field is present, and every error at that field's path is that type error —
in particular never "Field is required".  `null` is not treated as
absence. -/
theorem C5_null_value_reports_type_error
    (dfs mfs : DFields) (key tag : String) (rule : DVal) (resp : VResp)
    (htag : tag = "S" ∨ tag = "N" ∨ tag = "B" ∨ tag = "L" ∨ tag = "M")
    (hrule : rule = .str tag ∨ ∃ rfs, rule = .obj rfs ∧ DFields.get rfs "type" = .str tag)
    (hnd : (mfs.toList.map Prod.fst).Nodup)
    (hmem : (key, rule) ∈ mfs.toList)
    (hkeys : ∀ k ∈ mfs.toList.map Prod.fst, k ≠ "")
    (hdot : '.' ∉ key.data) (hbr : '[' ∉ key.data)
    (hnull : DFields.get dfs key = DVal.dnull)
    (hres : validateAgainstModel (.obj dfs) (.obj mfs) "" = .ok resp) :
    resp.isValidFlag = false ∧
    (⟨key, DVal.str ("Invalid type, expected " ++
        getTypeDescription (vm (DVal.obj mfs) + 1) rule ++ ", got object")⟩ : VErr) ∈
      resp.errorList ∧
    ∀ e ∈ resp.errorList, e.field = key →
      e.message = DVal.str ("Invalid type, expected " ++
          getTypeDescription (vm (DVal.obj mfs) + 1) rule ++ ", got object") ∧
      e.message ≠ DVal.str "Field is required" := by
  simp only [validateAgainstModel, exBind_ok_iff, Except.ok.injEq] at hres
  obtain ⟨dw, happ, errors, htop, hr⟩ := hres
  simp only [applyDefaults, exBind_ok_iff, Except.ok.injEq] at happ
  obtain ⟨fs', hloop, hfs⟩ := happ
  subst hfs
  have hspread : spreadEntries (DVal.obj dfs) = dfs := dfields_ofList_toList dfs
  have hdwget : jsGet (DVal.obj fs') key = DVal.dnull := by
    show fs'.get key = DVal.dnull
    rw [applyDefaultsLoop_get_defined (jsEntries (DVal.obj mfs))
      (spreadEntries (DVal.obj dfs)) fs' key hloop (by rw [hspread, hnull]; rfl)]
    rw [hspread, hnull]
  obtain ⟨pre, post, hsplit⟩ := List.append_of_mem hmem
  have hnd' := hnd
  rw [hsplit] at hnd'
  simp only [List.map_append, List.map_cons, List.nodup_append, List.nodup_cons] at hnd'
  have hkey_pre : key ∉ pre.map Prod.fst := by
    intro hmempre
    exact hnd'.2.2 hmempre (by simp)
  have hkey_post : key ∉ post.map Prod.fst := hnd'.2.1.1
  have hkeys_pre : ∀ k ∈ pre.map Prod.fst, k ≠ "" := by
    intro k hk
    apply hkeys
    rw [hsplit]
    simp [hk]
  have hkeys_post : ∀ k ∈ post.map Prod.fst, k ≠ "" := by
    intro k hk
    apply hkeys
    rw [hsplit]
    simp [hk]
  have hentries : jsEntries (DVal.obj mfs) = mfs.toList := rfl
  rw [hentries, hsplit, validateTop_append] at htop
  rw [exBind_ok_iff] at htop
  obtain ⟨a, hpre, htop⟩ := htop
  simp only [exBind_ok_iff, Except.ok.injEq] at htop
  obtain ⟨b, hmid, hab⟩ := htop
  subst hab
  simp only [validateTop] at hmid
  rw [exBind_ok_iff] at hmid
  obtain ⟨ak, hak, hmid⟩ := hmid
  simp only [exBind_ok_iff, Except.ok.injEq] at hmid
  obtain ⟨bp, hpost, hb⟩ := hmid
  subst hb
  rw [if_neg (show ¬(("" : String) ≠ "") from fun hcc => hcc rfl)] at hak
  have hcdot : containsDot key = false := contains_false_of_not_mem hdot
  have hcbr : containsSub "[]" key = false := by
    cases hc : containsSub "[]" key
    · rfl
    · have hmem2 : ('[' : Char) ∈ key.data := infixB_head_mem hc
      exact absurd hmem2 hbr
  have hcond : (containsDot key || containsSub "[]" key) = false := by
    rw [hcdot, hcbr]
    rfl
  rw [hcond, if_neg (fun hcc => Bool.noConfusion hcc)] at hak
  rw [hdwget, validateValue_null_type_error (vm (DVal.obj mfs)) (DVal.obj fs')
    rule key tag htag hrule] at hak
  simp only [Except.ok.injEq] at hak
  subst hak
  have hne2 : (a ++ ([(⟨key, DVal.str ("Invalid type, expected " ++
      getTypeDescription (vm (DVal.obj mfs) + 1) rule ++ ", got object")⟩ : VErr)] ++ bp)).isEmpty
      = false := by
    cases a <;> rfl
  rw [hne2, if_neg (fun hcc => Bool.noConfusion hcc)] at hr
  subst hr
  refine ⟨rfl, ?_, ?_⟩
  · exact List.mem_append.mpr (Or.inr (List.mem_append.mpr (Or.inl
      (List.mem_singleton.mpr rfl))))
  · intro e he hef
    simp only [VResp.errorList] at he
    rcases List.mem_append.mp he with hm | hm
    · obtain ⟨k, hk', hp⟩ := validateTop_paths _ (DVal.obj fs') pre a hkeys_pre hpre e hm
      exact absurd hef (pathExt_ne hp (fun hkk => hkey_pre (hkk ▸ hk')) hdot hbr)
    · rcases List.mem_append.mp hm with hm2 | hm2
      · rw [List.mem_singleton] at hm2
        subst hm2
        refine ⟨rfl, ?_⟩
        intro hcon
        injection hcon with hs
        exact invalid_type_msg_ne_required _ hs
      · obtain ⟨k, hk', hp⟩ := validateTop_paths _ (DVal.obj fs') post bp hkeys_post hpost e hm2
        exact absurd hef (pathExt_ne hp (fun hkk => hkey_post (hkk ▸ hk')) hdot hbr)

/-- Witness for C5 at a concrete input: data `\x7b a: null \x7d` against the
model `\x7b a: \x7b type: 'S' \x7d \x7d` is invalid with exactly the
"Invalid type, expected string, got object" error at `a`. -/
theorem C5_null_value_reports_type_error_witness :
    (VResp.invalid [⟨"a", DVal.str "Invalid type, expected string, got object"⟩]).isValidFlag
      = false ∧
    (⟨"a", DVal.str "Invalid type, expected string, got object"⟩ : VErr) ∈
      (VResp.invalid [⟨"a", DVal.str "Invalid type, expected string, got object"⟩]).errorList ∧
    ∀ e ∈ (VResp.invalid [⟨"a",
        DVal.str "Invalid type, expected string, got object"⟩]).errorList,
      e.field = "a" →
      e.message = DVal.str "Invalid type, expected string, got object" ∧
      e.message ≠ DVal.str "Field is required" :=
  C5_null_value_reports_type_error
    (.cons "a" .dnull .nil)
    (.cons "a" (.obj (.cons "type" (.str "S") .nil)) .nil)
    "a" "S" (.obj (.cons "type" (.str "S") .nil))
    (.invalid [⟨"a", DVal.str "Invalid type, expected string, got object"⟩])
    (Or.inl rfl)
    (Or.inr ⟨.cons "type" (.str "S") .nil, rfl, rfl⟩)
    (by decide)
    (List.mem_singleton.mpr rfl)
    (by
      intro k hk
      have hk2 : k ∈ ["a"] := hk
      rw [List.mem_singleton] at hk2
      subst hk2
      decide)
    (by decide) (by decide)
    rfl rfl

/-- A successful `depField` read comes from a string `field` property. -/
theorem depField_ok {dep : DVal} {fld : String} (h : depField dep = .ok fld) :
    getProp dep "field" = .ok (.str fld) := by
  rw [depField, exBind_ok_iff] at h
  obtain ⟨f, hf, h2⟩ := h
  cases f <;> simp_all

/-- Exact characterization of the dependency loop: when every entry's
condition evaluates (to `cond dep`) and every entry with a truthy condition
has an evaluating validate verdict (`val dep`), the loop succeeds and
returns one error per failing entry — condition truthy, verdict falsy — in
declared order, each carrying the entry's `message` at the field's path.
No entry is skipped after a failure. -/
theorem validateDeps_exact (root value : DVal) (path : String) :
    ∀ (deps : List DVal) (cond val : DVal → DVal),
      (∀ dep ∈ deps, depCond root path dep = .ok (cond dep)) →
      (∀ dep ∈ deps, truthy (cond dep) = true → depValid root value path dep = .ok (val dep)) →
      validateDeps root value deps path =
        .ok ((deps.filter (fun dep => truthy (cond dep) && !truthy (val dep))).map
          (fun dep => (⟨path, jsGet dep "message"⟩ : VErr))) := by
  intro deps
  induction deps with
  | nil => intro cond val hc hv; rfl
  | cons dep rest ih =>
      intro cond val hc hv
      have hch := hc dep (by simp)
      simp only [depCond, exBind_ok_iff] at hch
      obtain ⟨fld, hfld, c, hcond, hcall⟩ := hch
      have hgf := depField_ok hfld
      have hrest := ih cond val (fun d hd => hc d (List.mem_cons_of_mem dep hd))
        (fun d hd => hv d (List.mem_cons_of_mem dep hd))
      simp only [validateDeps]
      rw [hgf]
      simp only [exBind]
      rw [hcond]
      simp only [exBind]
      rw [hcall]
      simp only [exBind]
      by_cases hcd : truthy (cond dep) = true
      · rw [if_pos hcd]
        have hvd := hv dep (by simp) hcd
        simp only [depValid, exBind_ok_iff] at hvd
        obtain ⟨fld2, hfld2, v, hval, hcallv⟩ := hvd
        rw [hfld] at hfld2
        injection hfld2 with hf2
        subst hf2
        rw [hval]
        simp only [exBind]
        rw [hcallv]
        simp only [exBind]
        by_cases hvd2 : truthy (val dep) = true
        · rw [if_neg (by rw [hvd2]; exact fun hcc => Bool.noConfusion hcc)]
          simp only [exBind]
          rw [hrest]
          simp only [exBind]
          simp [List.filter_cons, hcd, hvd2]
        · rw [Bool.not_eq_true] at hvd2
          rw [if_pos (by rw [hvd2]; rfl)]
          simp only [exBind]
          rw [hrest]
          simp only [exBind]
          simp [List.filter_cons, hcd, hvd2]
      · rw [if_neg hcd]
        simp only [exBind]
        rw [hrest]
        simp only [exBind]
        rw [Bool.not_eq_true] at hcd
        simp [List.filter_cons, hcd]

/-- Extensions below a `.`-child strictly extend the parent path. -/
theorem pathExt_dot_strict {path k f : String} (h : pathExt (path ++ "." ++ k) f) :
    ∃ rest, f.data = path.data ++ '.' :: rest := by
  have hdata : (path ++ "." ++ k).data = path.data ++ '.' :: k.data := by
    rw [string_data_append, string_data_append, List.append_assoc]
    rfl
  rcases h with h | ⟨rest, h⟩ | ⟨rest, h⟩
  · exact ⟨k.data, by rw [h, hdata]⟩
  · exact ⟨k.data ++ '.' :: rest, by rw [h, hdata]; simp⟩
  · exact ⟨k.data ++ '[' :: rest, by rw [h, hdata]; simp⟩

/-- Extensions below a `[i]` child strictly extend the parent path. -/
theorem pathExt_bracket_strict {path s f : String} (h : pathExt (path ++ "[" ++ s ++ "]") f) :
    ∃ rest, f.data = path.data ++ '[' :: rest := by
  have hdata : (path ++ "[" ++ s ++ "]").data = path.data ++ '[' :: (s.data ++ [']']) := by
    rw [string_data_append, string_data_append, string_data_append,
      List.append_assoc, List.append_assoc]
    rfl
  rcases h with h | ⟨rest, h⟩ | ⟨rest, h⟩
  · exact ⟨s.data ++ [']'], by rw [h, hdata]⟩
  · exact ⟨s.data ++ [']'] ++ '.' :: rest, by rw [h, hdata]; simp⟩
  · exact ⟨s.data ++ [']'] ++ '[' :: rest, by rw [h, hdata]; simp⟩

/-- A strict extension differs from the base path. -/
theorem strictExt_ne {path f : String} {c : Char}
    (h : ∃ rest, f.data = path.data ++ c :: rest) : f ≠ path := by
  obtain ⟨rest, h⟩ := h
  intro he
  subst he
  have h2 := congrArg List.length h
  simp [List.length_append] at h2

/-- Errors of the element loop never land at the loop's own base path. -/
theorem forEachItems_ne_path (go : DVal → String → Except String (List VErr))
    (hgo : ∀ v p out, p ≠ "" → go v p = .ok out → ∀ e ∈ out, pathExt p e.field) :
    ∀ (xs : DList) (path : String) (i : Nat) (out : List VErr),
      forEachItems go xs path i = .ok out →
      ∀ e ∈ out, e.field ≠ path
  | .nil, path, i, out, h, e, he => by
      simp only [forEachItems, Except.ok.injEq] at h
      subst h; cases he
  | .cons v tl, path, i, out, h, e, he => by
      simp only [forEachItems] at h
      rw [exBind_ok_iff] at h; obtain ⟨a, ha, h⟩ := h
      rw [exBind_ok_iff] at h; obtain ⟨b, hb, h⟩ := h
      simp only [Except.ok.injEq] at h
      subst h
      rcases List.mem_append.mp he with hm | hm
      · exact strictExt_ne (pathExt_bracket_strict
          (hgo v _ a (bracketPath_ne_empty path (natToString i)) ha e hm))
      · exact forEachItems_ne_path go hgo tl path (i + 1) b hb e hm

/-- Errors of the sub-field loop never land at the loop's own (nonempty) base
path. -/
theorem forEachFields_ne_path (go : DVal → DVal → String → Except String (List VErr))
    (hgo : ∀ v fr p out, p ≠ "" → go v fr p = .ok out → ∀ e ∈ out, pathExt p e.field) :
    ∀ (entries : List (String × DVal)) (value : DVal) (path : String),
      path ≠ "" →
      ∀ (out : List VErr), forEachFields go entries value path = .ok out →
      ∀ e ∈ out, e.field ≠ path
  | [], value, path, hne, out, h, e, he => by
      simp only [forEachFields, Except.ok.injEq] at h
      subst h; cases he
  | (k, fr) :: rest, value, path, hne, out, h, e, he => by
      simp only [forEachFields] at h
      rw [exBind_ok_iff] at h; obtain ⟨a, ha, h⟩ := h
      rw [exBind_ok_iff] at h; obtain ⟨b, hb, h⟩ := h
      simp only [Except.ok.injEq] at h
      subst h
      rcases List.mem_append.mp he with hm | hm
      · rw [if_pos hne] at ha
        exact strictExt_ne (pathExt_dot_strict
          (hgo _ fr _ a (dotPath_ne_empty path k hne) ha e hm))
      · exact forEachFields_ne_path go hgo rest value path hne b hb e hm

/-- Filtering by a path keeps a chunk that lies wholly at that path. -/
theorem filter_field_eq_self {l : List VErr} {path : String}
    (h : ∀ e ∈ l, e.field = path) :
    l.filter (fun e => e.field == path) = l := by
  induction l with
  | nil => rfl
  | cons x tl ih =>
      rw [List.filter_cons]
      have hx : (x.field == path) = true := by
        rw [h x (by simp)]
        simp
      rw [if_pos hx, ih (fun e he => h e (by simp [he]))]

/-- Filtering by a path drops a chunk that lies wholly off that path. -/
theorem filter_field_eq_nil {l : List VErr} {path : String}
    (h : ∀ e ∈ l, e.field ≠ path) :
    l.filter (fun e => e.field == path) = [] := by
  induction l with
  | nil => rfl
  | cons x tl ih =>
      rw [List.filter_cons]
      have hx : (x.field == path) = false := by
        simp [h x (by simp)]
      rw [hx, if_neg (fun hcc => Bool.noConfusion hcc),
        ih (fun e he => h e (by simp [he]))]

/-- On a defined value the fuel-match of `validateValue` steps straight into
the defined-value body. -/
theorem validateValue_defined_eq (fuel : Nat) (root value rule : DVal) (path : String)
    (h : isUndef value = false) :
    validateValue (fuel + 1) root value rule path =
      validateDefined (fun v r p => validateValue fuel root v r p) (fuel + 1)
        root value rule path := by
  cases value
  case undef => exact absurd h (by simp [isUndef])
  all_goals rfl

/-- Reduction of `exBind` on a success (stated standalone so that `simp` can
use it without unfolding stuck `exBind` applications). -/
theorem exBind_ok {a b : Type} (v : a) (f : a → Except String b) :
    exBind (.ok v) f = f v := rfl

/-- Reduction of `exBind` on an error. -/
theorem exBind_err {a b : Type} (m : String) (f : a → Except String b) :
    exBind (.error m) f = .error m := rfl

/-- Filtering `validateDefined`'s output to the field's own path, for a
defined value against an object rule that passes its (non-composite) type
check and has no `values` enumeration but a truthy `dependsOn`: the
`items`/`fields` recursions contribute nothing at the exact path, leaving
the number/string constraint chunks followed by the dependency errors. -/
theorem validateDefined_filter (go : DVal → DVal → String → Except String (List VErr))
    (hgo : ∀ v r p out, p ≠ "" → go v r p = .ok out → ∀ e ∈ out, pathExt p e.field)
    (descFuel : Nat) (root value : DVal) (rfs : DFields) (path tag : String) (out : List VErr)
    (hne : path ≠ "")
    (hty : DFields.get rfs "type" = .str tag)
    (htr : tag ≠ "")
    (hcomp : (parseArrayType tag).1 = false)
    (hvt : validateType value tag (.obj rfs) = true)
    (hnovals : truthy (DFields.get rfs "values") = false)
    (hdeps : truthy (DFields.get rfs "dependsOn") = true)
    (h : validateDefined go descFuel root value (.obj rfs) path = .ok out) :
    ∃ e6, validateDeps root value (depsAsList (DFields.get rfs "dependsOn")) path = .ok e6 ∧
      out.filter (fun e => e.field == path) =
        numberConstraintErrors value (.obj rfs) path ++
          (stringConstraintErrors value (.obj rfs) path ++ e6) := by
  have hget : getProp (DVal.obj rfs) "type" = .ok (.str tag) := by
    show Except.ok (jsGet (DVal.obj rfs) "type") = Except.ok (DVal.str tag)
    rw [show jsGet (DVal.obj rfs) "type" = DFields.get rfs "type" from rfl, hty]
  have htr' : truthy (DVal.str tag) = true := by
    simp [truthy, htr]
  rw [validateDefined.eq_def] at h
  simp only [hget, exBind_ok, exBind_err, htr', hcomp, hvt, jsTypeof, jsGet, hnovals, hdeps,
    Bool.not_true, Bool.not_false, Bool.true_and, Bool.and_true, beq_self_eq_true,
    if_true, if_false, Bool.false_eq_true, ite_false, ite_true, reduceIte] at h
  rw [exBind_ok_iff] at h
  obtain ⟨e4, he4, h⟩ := h
  rw [exBind_ok_iff] at h
  obtain ⟨e5, he5, h⟩ := h
  rw [exBind_ok_iff] at h
  obtain ⟨e6, he6, h⟩ := h
  simp only [Except.ok.injEq] at h
  subst h
  refine ⟨e6, he6, ?_⟩
  have h4 : ∀ e ∈ e4, e.field ≠ path := by
    intro e he
    split at he4
    · exact forEachItems_ne_path _ (fun v p out' hp hgg => hgo v _ p out' hp hgg)
        _ path 0 e4 he4 e he
    · injection he4 with h4e
      rw [← h4e] at he
      cases he
  have h5 : ∀ e ∈ e5, e.field ≠ path := by
    intro e he
    split at he5
    · exact forEachFields_ne_path go hgo _ value path hne e5 he5 e he
    · injection he5 with h5e
      rw [← h5e] at he
      cases he
  simp only [List.filter_append]
  rw [filter_field_eq_self (fun e he => numberConstraintErrors_fields e he),
    filter_field_eq_self (fun e he => stringConstraintErrors_fields e he),
    filter_field_eq_nil h4, filter_field_eq_nil h5,
    filter_field_eq_self (fun e he => validateDeps_paths _ root value path e6 he6 e he)]
  simp

/-- C2 as amended: (1) the dependency loop evaluates every entry — for a
field rule whose entries' callbacks evaluate with condition verdicts
`cond dep` and validation verdicts `val dep`, it returns exactly one error
per failing entry (condition truthy, verdict falsy) in declared order, each
carrying the entry's `message` at the field's path, with no short-circuit
after the first failure; and (2) lifted to `validateAgainstModel`: for a
top-level field with a defined value that passes its declared
(non-composite) type check, the errors recorded at exactly that field's
path are its number/string constraint errors followed by exactly those K
dependency errors — the original claim's "exactly K entries for that
field's path" additionally counts the field's own constraint errors. -/
theorem C2_dependency_errors_amended :
    (∀ (root value : DVal) (path : String) (deps : List DVal) (cond val : DVal → DVal),
      (∀ dep ∈ deps, depCond root path dep = .ok (cond dep)) →
      (∀ dep ∈ deps, truthy (cond dep) = true → depValid root value path dep = .ok (val dep)) →
      validateDeps root value deps path =
        .ok ((deps.filter (fun dep => truthy (cond dep) && !truthy (val dep))).map
          (fun dep => (⟨path, jsGet dep "message"⟩ : VErr)))) ∧
    (∀ (dfs mfs rfs : DFields) (key tag : String) (dwv : DVal) (resp : VResp)
      (cond val : DVal → DVal),
      (mfs.toList.map Prod.fst).Nodup →
      (key, DVal.obj rfs) ∈ mfs.toList →
      (∀ k ∈ mfs.toList.map Prod.fst, k ≠ "") →
      '.' ∉ key.data → '[' ∉ key.data →
      isUndef (DFields.get dfs key) = false →
      DFields.get rfs "type" = .str tag →
      tag ≠ "" →
      (parseArrayType tag).1 = false →
      validateType (DFields.get dfs key) tag (.obj rfs) = true →
      truthy (DFields.get rfs "values") = false →
      truthy (DFields.get rfs "dependsOn") = true →
      applyDefaults (.obj dfs) (.obj mfs) = .ok dwv →
      (∀ dep ∈ depsAsList (DFields.get rfs "dependsOn"),
        depCond dwv key dep = .ok (cond dep)) →
      (∀ dep ∈ depsAsList (DFields.get rfs "dependsOn"),
        truthy (cond dep) = true →
        depValid dwv (DFields.get dfs key) key dep = .ok (val dep)) →
      validateAgainstModel (.obj dfs) (.obj mfs) "" = .ok resp →
      resp.errorList.filter (fun e => e.field == key) =
        numberConstraintErrors (DFields.get dfs key) (.obj rfs) key ++
          (stringConstraintErrors (DFields.get dfs key) (.obj rfs) key ++
            (((depsAsList (DFields.get rfs "dependsOn")).filter
                (fun dep => truthy (cond dep) && !truthy (val dep))).map
              (fun dep => (⟨key, jsGet dep "message"⟩ : VErr))))) := by
  constructor
  · exact fun root value path deps cond val hc hv =>
      validateDeps_exact root value path deps cond val hc hv
  · intro dfs mfs rfs key tag dwv resp cond val hnd hmem hkeys hdotk hbrk hdef
      hty htr hcomp hvt hnovals hdeps happ hc hv hres
    have happK := happ
    simp only [applyDefaults, exBind_ok_iff, Except.ok.injEq] at happ
    obtain ⟨fs', hloop, hfs⟩ := happ
    subst hfs
    have hspread : spreadEntries (DVal.obj dfs) = dfs := dfields_ofList_toList dfs
    have hdwget : jsGet (DVal.obj fs') key = DFields.get dfs key := by
      show fs'.get key = DFields.get dfs key
      rw [applyDefaultsLoop_get_defined (jsEntries (DVal.obj mfs))
        (spreadEntries (DVal.obj dfs)) fs' key hloop (by rw [hspread]; exact hdef)]
      rw [hspread]
    simp only [validateAgainstModel, exBind_ok_iff, Except.ok.injEq] at hres
    obtain ⟨dw2, happ2, errors, htop, hr⟩ := hres
    rw [happK] at happ2
    injection happ2 with hdw2
    subst hdw2
    obtain ⟨pre, post, hsplit⟩ := List.append_of_mem hmem
    have hnd' := hnd
    rw [hsplit] at hnd'
    simp only [List.map_append, List.map_cons, List.nodup_append, List.nodup_cons] at hnd'
    have hkey_pre : key ∉ pre.map Prod.fst := by
      intro hmempre
      exact hnd'.2.2 hmempre (by simp)
    have hkey_post : key ∉ post.map Prod.fst := hnd'.2.1.1
    have hkeys_pre : ∀ k ∈ pre.map Prod.fst, k ≠ "" := by
      intro k hk
      apply hkeys
      rw [hsplit]
      simp [hk]
    have hkeys_post : ∀ k ∈ post.map Prod.fst, k ≠ "" := by
      intro k hk
      apply hkeys
      rw [hsplit]
      simp [hk]
    have hkeyne : key ≠ "" := by
      apply hkeys
      rw [hsplit]
      simp
    have hentries : jsEntries (DVal.obj mfs) = mfs.toList := rfl
    rw [hentries, hsplit, validateTop_append] at htop
    rw [exBind_ok_iff] at htop
    obtain ⟨a, hpre, htop⟩ := htop
    simp only [exBind_ok_iff, Except.ok.injEq] at htop
    obtain ⟨b, hmid, hab⟩ := htop
    subst hab
    simp only [validateTop] at hmid
    rw [exBind_ok_iff] at hmid
    obtain ⟨ak, hak, hmid⟩ := hmid
    simp only [exBind_ok_iff, Except.ok.injEq] at hmid
    obtain ⟨bp, hpost, hb⟩ := hmid
    subst hb
    rw [if_neg (show ¬(("" : String) ≠ "") from fun hcc => hcc rfl)] at hak
    have hcdot : containsDot key = false := contains_false_of_not_mem hdotk
    have hcbr : containsSub "[]" key = false := by
      cases hc2 : containsSub "[]" key
      · rfl
      · have hmem2 : ('[' : Char) ∈ key.data := infixB_head_mem hc2
        exact absurd hmem2 hbrk
    have hcond2 : (containsDot key || containsSub "[]" key) = false := by
      rw [hcdot, hcbr]
      rfl
    rw [hcond2, if_neg (fun hcc => Bool.noConfusion hcc)] at hak
    rw [hdwget, validateValue_defined_eq (vm (DVal.obj mfs)) (DVal.obj fs')
      (DFields.get dfs key) (DVal.obj rfs) key hdef] at hak
    obtain ⟨e6, he6, hfilt⟩ := validateDefined_filter
      (fun v r p => validateValue (vm (DVal.obj mfs)) (DVal.obj fs') v r p)
      (fun v r p out' hp hg => validateValue_paths (vm (DVal.obj mfs)) (DVal.obj fs')
        v r p out' hp hg)
      (vm (DVal.obj mfs) + 1) (DVal.obj fs') (DFields.get dfs key) rfs key tag ak
      hkeyne hty htr hcomp hvt hnovals hdeps hak
    rw [validateDeps_exact (DVal.obj fs') (DFields.get dfs key) key
      (depsAsList (DFields.get rfs "dependsOn")) cond val hc hv] at he6
    injection he6 with he6e
    have ha0 : ∀ e ∈ a, e.field ≠ key := by
      intro e hm
      obtain ⟨k, hk', hp⟩ := validateTop_paths _ (DVal.obj fs') pre a hkeys_pre hpre e hm
      exact pathExt_ne hp (fun hkk => hkey_pre (hkk ▸ hk')) hdotk hbrk
    have hbp0 : ∀ e ∈ bp, e.field ≠ key := by
      intro e hm
      obtain ⟨k, hk', hp⟩ := validateTop_paths _ (DVal.obj fs') post bp hkeys_post hpost e hm
      exact pathExt_ne hp (fun hkk => hkey_post (hkk ▸ hk')) hdotk hbrk
    have hfe : (a ++ (ak ++ bp)).filter (fun e => e.field == key) =
        numberConstraintErrors (DFields.get dfs key) (DVal.obj rfs) key ++
          (stringConstraintErrors (DFields.get dfs key) (DVal.obj rfs) key ++
            (((depsAsList (DFields.get rfs "dependsOn")).filter
                (fun dep => truthy (cond dep) && !truthy (val dep))).map
              (fun dep => (⟨key, jsGet dep "message"⟩ : VErr)))) := by
      simp only [List.filter_append]
      rw [filter_field_eq_nil ha0, filter_field_eq_nil hbp0, hfilt, ← he6e]
      simp
    cases hie : (a ++ (ak ++ bp)).isEmpty
    · rw [hie, if_neg (fun hcc => Bool.noConfusion hcc)] at hr
      subst hr
      simp only [VResp.errorList]
      exact hfe
    · have hnil : a ++ (ak ++ bp) = [] := by
        cases hx : a ++ (ak ++ bp)
        · rfl
        · rw [hx] at hie
          exact absurd hie (by simp [List.isEmpty])
      rw [hie, if_pos rfl] at hr
      subst hr
      simp only [VResp.errorList, List.filter_nil]
      rw [hnil] at hfe
      simp only [List.filter_nil] at hfe
      exact hfe

/-- C2 counterexample: for the model `\x7b a: \x7b type:'N', max:5,
dependsOn: \x7b field:'b', condition: v => false, validate: v => true,
message:'m' \x7d \x7d, b: \x7b type:'N' \x7d \x7d` and the data
`\x7b a:10, b:1 \x7d`, K = 0 dependency entries fail (the single entry's
condition verdict is `false`), yet the errors array contains one entry at
field `a`'s path — the violated `max` constraint — so it does not contain
exactly K entries for that field's path. -/
theorem C2_counterexample_constraint_error_with_zero_failing_deps :
    validateAgainstModel
        (.obj (.cons "a" (.num 10) (.cons "b" (.num 1) .nil)))
        (.obj (.cons "a" (.obj (.cons "type" (.str "N") (.cons "max" (.num 5)
            (.cons "dependsOn" (.obj (.cons "field" (.str "b")
              (.cons "condition" (.fn ["v"] (.ret (.lbool false)) (.arrowExpr true))
              (.cons "validate" (.fn ["v"] (.ret (.lbool true)) (.arrowExpr true))
              (.cons "message" (.str "m") .nil))))) .nil))))
          (.cons "b" (.obj (.cons "type" (.str "N") .nil)) .nil)))
        "" =
      .ok (.invalid [⟨"a", .str "Value must be <= 5"⟩]) ∧
    depCond (.obj (.cons "a" (.num 10) (.cons "b" (.num 1) .nil))) "a"
        (.obj (.cons "field" (.str "b")
          (.cons "condition" (.fn ["v"] (.ret (.lbool false)) (.arrowExpr true))
          (.cons "validate" (.fn ["v"] (.ret (.lbool true)) (.arrowExpr true))
          (.cons "message" (.str "m") .nil))))) =
      .ok (.bool false) ∧
    ([(⟨"a", DVal.str "Value must be <= 5"⟩ : VErr)].filter
        (fun e => e.field == "a")).length = 1 :=
  ⟨rfl, rfl, rfl⟩

/-- Witness for C2-as-amended at a concrete input: the model
`\x7b a: \x7b type:'N', dependsOn: \x7b field:'b', condition: v => true,
validate: (v,d) => false, message:'dep failed' \x7d \x7d, b: \x7b type:'N'
\x7d \x7d` against `\x7b a:1, b:2 \x7d` reports exactly the one failing
dependency entry's message at `a`. -/
theorem C2_dependency_errors_amended_witness :
    (VResp.invalid [(⟨"a", DVal.str "dep failed"⟩ : VErr)]).errorList.filter
        (fun e => e.field == "a") =
      numberConstraintErrors (DVal.num 1)
          (.obj (.cons "type" (.str "N") (.cons "dependsOn"
            (.obj (.cons "field" (.str "b")
              (.cons "condition" (.fn ["v"] (.ret (.lbool true)) (.arrowExpr true))
              (.cons "validate" (.fn ["v", "d"] (.ret (.lbool false)) (.arrowExpr false))
              (.cons "message" (.str "dep failed") .nil))))) .nil))) "a" ++
        (stringConstraintErrors (DVal.num 1)
            (.obj (.cons "type" (.str "N") (.cons "dependsOn"
              (.obj (.cons "field" (.str "b")
                (.cons "condition" (.fn ["v"] (.ret (.lbool true)) (.arrowExpr true))
                (.cons "validate" (.fn ["v", "d"] (.ret (.lbool false)) (.arrowExpr false))
                (.cons "message" (.str "dep failed") .nil))))) .nil))) "a" ++
          [(⟨"a", DVal.str "dep failed"⟩ : VErr)]) :=
  C2_dependency_errors_amended.2
    (.cons "a" (.num 1) (.cons "b" (.num 2) .nil))
    (.cons "a" (.obj (.cons "type" (.str "N") (.cons "dependsOn"
        (.obj (.cons "field" (.str "b")
          (.cons "condition" (.fn ["v"] (.ret (.lbool true)) (.arrowExpr true))
          (.cons "validate" (.fn ["v", "d"] (.ret (.lbool false)) (.arrowExpr false))
          (.cons "message" (.str "dep failed") .nil))))) .nil)))
      (.cons "b" (.obj (.cons "type" (.str "N") .nil)) .nil))
    (.cons "type" (.str "N") (.cons "dependsOn"
        (.obj (.cons "field" (.str "b")
          (.cons "condition" (.fn ["v"] (.ret (.lbool true)) (.arrowExpr true))
          (.cons "validate" (.fn ["v", "d"] (.ret (.lbool false)) (.arrowExpr false))
          (.cons "message" (.str "dep failed") .nil))))) .nil))
    "a" "N"
    (.obj (.cons "a" (.num 1) (.cons "b" (.num 2) .nil)))
    (.invalid [(⟨"a", DVal.str "dep failed"⟩ : VErr)])
    (fun d => DVal.bool true) (fun d => DVal.bool false)
    (by decide)
    (List.mem_cons_self _ _)
    (by
      intro k hk
      have hk2 : k ∈ ["a", "b"] := hk
      simp at hk2
      rcases hk2 with h | h <;> subst h <;> decide)
    (by decide) (by decide)
    rfl rfl (by decide) rfl rfl rfl rfl rfl
    (by
      intro dep hdep
      have h2 : dep ∈ [DVal.obj (.cons "field" (.str "b")
          (.cons "condition" (.fn ["v"] (.ret (.lbool true)) (.arrowExpr true))
          (.cons "validate" (.fn ["v", "d"] (.ret (.lbool false)) (.arrowExpr false))
          (.cons "message" (.str "dep failed") .nil))))] := hdep
      rw [List.mem_singleton] at h2
      subst h2
      rfl)
    (by
      intro dep hdep htru
      have h2 : dep ∈ [DVal.obj (.cons "field" (.str "b")
          (.cons "condition" (.fn ["v"] (.ret (.lbool true)) (.arrowExpr true))
          (.cons "validate" (.fn ["v", "d"] (.ret (.lbool false)) (.arrowExpr false))
          (.cons "message" (.str "dep failed") .nil))))] := hdep
      rw [List.mem_singleton] at h2
      subst h2
      rfl)
    rfl

/-- One step of the dependency loop, expressed through the entry's condition
and validation verdicts (`getProp dep "field"` is deterministic, so the
re-read inside `depValid` agrees with the loop's single read). -/
theorem validateDeps_cons (root value : DVal) (path : String) (dep : DVal) (rest : List DVal) :
    validateDeps root value (dep :: rest) path =
      exBind (depCond root path dep) (fun cres =>
      exBind (if truthy cres then
                exBind (depValid root value path dep) (fun vres =>
                  .ok (if !truthy vres then [(⟨path, jsGet dep "message"⟩ : VErr)] else []))
              else .ok []) (fun here =>
      exBind (validateDeps root value rest path) (fun more => .ok (here ++ more)))) := by
  simp only [validateDeps, depCond, depValid, depField]
  cases hf : getProp dep "field" with
  | error m => simp only [hf, exBind_err]
  | ok f =>
      simp only [hf, exBind_ok]
      cases f
      case str fld =>
        simp only [exBind_ok]
        cases hcnd : getProp dep "condition" with
        | error m => simp only [hcnd, exBind_err]
        | ok c =>
            simp only [hcnd, exBind_ok]
            cases hcall : jsCall c [getNestedValue root (depPathOf path fld)] with
            | error m => simp only [hcall, exBind_err]
            | ok cres =>
                simp only [hcall, exBind_ok]
                by_cases hct : truthy cres = true
                · rw [if_pos hct, if_pos hct]
                  cases hval : getProp dep "validate" with
                  | error m => simp only [hval, exBind_err]
                  | ok v =>
                      simp only [hval, exBind_ok]
                      cases hcallv : jsCall v
                          [value, getNestedValue root (depPathOf path fld), root] with
                      | error m => simp only [hcallv, exBind_err]
                      | ok vres =>
                          simp only [hcallv, exBind_ok]
                          by_cases hvt2 : (!truthy vres) = true
                          · rw [if_pos hvt2, if_pos hvt2]
                            simp only [exBind_ok]
                          · rw [if_neg hvt2, if_neg hvt2]
                            simp only [exBind_ok]
                · rw [if_neg hct, if_neg hct]
      all_goals simp only [exBind_err]

/-- When the dependency loop throws, `validateDefined` on an object rule
whose (non-composite) type check passes — and which has no `values`,
`items` or `fields` sections — throws the same error. -/
theorem validateDefined_deps_error (go : DVal → DVal → String → Except String (List VErr))
    (descFuel : Nat) (root value : DVal) (rfs : DFields) (path tag m : String)
    (hty : DFields.get rfs "type" = .str tag)
    (htr : tag ≠ "")
    (hcomp : (parseArrayType tag).1 = false)
    (hvt : validateType value tag (.obj rfs) = true)
    (hnovals : truthy (DFields.get rfs "values") = false)
    (hnoitems : truthy (DFields.get rfs "items") = false)
    (hnofields : truthy (DFields.get rfs "fields") = false)
    (hdeps : truthy (DFields.get rfs "dependsOn") = true)
    (herr : validateDeps root value (depsAsList (DFields.get rfs "dependsOn")) path
      = .error m) :
    validateDefined go descFuel root value (.obj rfs) path = .error m := by
  have hget : getProp (DVal.obj rfs) "type" = .ok (.str tag) := by
    show Except.ok (jsGet (DVal.obj rfs) "type") = Except.ok (DVal.str tag)
    rw [show jsGet (DVal.obj rfs) "type" = DFields.get rfs "type" from rfl, hty]
  have htr' : truthy (DVal.str tag) = true := by
    simp [truthy, htr]
  rw [validateDefined.eq_def]
  simp only [hget, exBind_ok, exBind_err, htr', hcomp, hvt, jsTypeof, jsGet, hnovals,
    hnoitems, hnofields, hdeps, herr, Bool.not_true, Bool.not_false, Bool.true_and,
    Bool.and_true, Bool.false_and, beq_self_eq_true, if_true, if_false,
    Bool.false_eq_true, ite_false, ite_true, reduceIte]

/-- C3 counterexample: for the model `\x7b a: \x7b type:'N', dependsOn:
\x7b field:'b', condition: v => \x7b throw new Error('cond boom') \x7d,
validate: v => true, message:'m' \x7d \x7d, b: \x7b type:'N' \x7d \x7d` and
the data `\x7b a:1, b:2 \x7d`, the condition callback's exception is not
caught: `validateAgainstModel` itself throws `cond boom` instead of
converting it into a field error and continuing. -/
theorem C3_counterexample_callback_throw_escapes :
    validateAgainstModel
        (.obj (.cons "a" (.num 1) (.cons "b" (.num 2) .nil)))
        (.obj (.cons "a" (.obj (.cons "type" (.str "N")
            (.cons "dependsOn" (.obj (.cons "field" (.str "b")
              (.cons "condition" (.fn ["v"] (.throwE "cond boom") (.arrowBlock true))
              (.cons "validate" (.fn ["v"] (.ret (.lbool true)) (.arrowExpr true))
              (.cons "message" (.str "m") .nil))))) .nil)))
          (.cons "b" (.obj (.cons "type" (.str "N") .nil)) .nil)))
        "" =
      .error "cond boom" :=
  rfl

/-- C3 as amended: there is no try/catch around the dependency callbacks —
an exception from a `condition` callback (1) or from a `validate` callback
of an entry whose condition is truthy (2) aborts the dependency loop with
that exception, and (3) it propagates out of `validateAgainstModel`
unchanged: the remaining entries and the remaining document fields are
never validated and no field error is recorded for it. -/
theorem C3_callback_exceptions_propagate :
    (∀ (root value : DVal) (path : String) (dep : DVal) (rest : List DVal) (m : String),
      depCond root path dep = .error m →
      validateDeps root value (dep :: rest) path = .error m) ∧
    (∀ (root value : DVal) (path : String) (dep : DVal) (rest : List DVal) (m : String)
      (cres : DVal),
      depCond root path dep = .ok cres → truthy cres = true →
      depValid root value path dep = .error m →
      validateDeps root value (dep :: rest) path = .error m) ∧
    (∀ (dfs mfs rfs : DFields) (pre post : List (String × DVal)) (key tag m : String)
      (dwv : DVal) (a : List VErr),
      mfs.toList = pre ++ (key, DVal.obj rfs) :: post →
      containsDot key = false → containsSub "[]" key = false →
      isUndef (DFields.get dfs key) = false →
      DFields.get rfs "type" = .str tag → tag ≠ "" →
      (parseArrayType tag).1 = false →
      validateType (DFields.get dfs key) tag (.obj rfs) = true →
      truthy (DFields.get rfs "values") = false →
      truthy (DFields.get rfs "items") = false →
      truthy (DFields.get rfs "fields") = false →
      truthy (DFields.get rfs "dependsOn") = true →
      applyDefaults (.obj dfs) (.obj mfs) = .ok dwv →
      validateTop (vm (DVal.obj mfs) + 1) dwv pre "" = .ok a →
      validateDeps dwv (DFields.get dfs key)
        (depsAsList (DFields.get rfs "dependsOn")) key = .error m →
      validateAgainstModel (.obj dfs) (.obj mfs) "" = .error m) := by
  refine ⟨?_, ?_, ?_⟩
  · intro root value path dep rest m h
    rw [validateDeps_cons, h, exBind_err]
  · intro root value path dep rest m cres hc hct hv
    rw [validateDeps_cons, hc, exBind_ok, if_pos hct, hv, exBind_err, exBind_err]
  · intro dfs mfs rfs pre post key tag m dwv a hsplit hcdot hcbr hdef hty htr hcomp
      hvt hnovals hnoitems hnofields hdeps happ hpre herr
    have happK := happ
    simp only [applyDefaults, exBind_ok_iff, Except.ok.injEq] at happ
    obtain ⟨fs', hloop, hfs⟩ := happ
    subst hfs
    have hspread : spreadEntries (DVal.obj dfs) = dfs := dfields_ofList_toList dfs
    have hdwget : jsGet (DVal.obj fs') key = DFields.get dfs key := by
      show fs'.get key = DFields.get dfs key
      rw [applyDefaultsLoop_get_defined (jsEntries (DVal.obj mfs))
        (spreadEntries (DVal.obj dfs)) fs' key hloop (by rw [hspread]; exact hdef)]
      rw [hspread]
    have hentries : jsEntries (DVal.obj mfs) = mfs.toList := rfl
    rw [validateAgainstModel, happK, exBind_ok, hentries, hsplit, validateTop_append,
      hpre, exBind_ok]
    simp only [validateTop]
    rw [if_neg (show ¬(("" : String) ≠ "") from fun hcc => hcc rfl)]
    have hcond2 : (containsDot key || containsSub "[]" key) = false := by
      rw [hcdot, hcbr]
      rfl
    rw [hcond2, if_neg (fun hcc => Bool.noConfusion hcc), hdwget,
      validateValue_defined_eq (vm (DVal.obj mfs)) (DVal.obj fs')
        (DFields.get dfs key) (DVal.obj rfs) key hdef,
      validateDefined_deps_error (fun v r p => validateValue (vm (DVal.obj mfs))
          (DVal.obj fs') v r p)
        (vm (DVal.obj mfs) + 1) (DVal.obj fs') (DFields.get dfs key) rfs key tag m
        hty htr hcomp hvt hnovals hnoitems hnofields hdeps herr,
      exBind_err, exBind_err, exBind_err]

/-- Witness for C3 at a concrete input: the throwing condition callback's
message `cond boom` escapes `validateAgainstModel`. -/
theorem C3_callback_exceptions_propagate_witness :
    validateAgainstModel
        (.obj (.cons "a" (.num 1) (.cons "b" (.num 2) .nil)))
        (.obj (.cons "a" (.obj (.cons "type" (.str "N")
            (.cons "dependsOn" (.obj (.cons "field" (.str "b")
              (.cons "condition" (.fn ["w"] (.throwE "cond boom") (.arrowBlock true))
              (.cons "validate" (.fn ["w"] (.ret (.lbool true)) (.arrowExpr true))
              (.cons "message" (.str "m") .nil))))) .nil)))
          (.cons "b" (.obj (.cons "type" (.str "N") .nil)) .nil)))
        "" =
      .error "cond boom" :=
  C3_callback_exceptions_propagate.2.2
    (.cons "a" (.num 1) (.cons "b" (.num 2) .nil))
    (.cons "a" (.obj (.cons "type" (.str "N")
        (.cons "dependsOn" (.obj (.cons "field" (.str "b")
          (.cons "condition" (.fn ["w"] (.throwE "cond boom") (.arrowBlock true))
          (.cons "validate" (.fn ["w"] (.ret (.lbool true)) (.arrowExpr true))
          (.cons "message" (.str "m") .nil))))) .nil)))
      (.cons "b" (.obj (.cons "type" (.str "N") .nil)) .nil))
    (.cons "type" (.str "N")
        (.cons "dependsOn" (.obj (.cons "field" (.str "b")
          (.cons "condition" (.fn ["w"] (.throwE "cond boom") (.arrowBlock true))
          (.cons "validate" (.fn ["w"] (.ret (.lbool true)) (.arrowExpr true))
          (.cons "message" (.str "m") .nil))))) .nil))
    [] [("b", .obj (.cons "type" (.str "N") .nil))]
    "a" "N" "cond boom"
    (.obj (.cons "a" (.num 1) (.cons "b" (.num 2) .nil)))
    []
    rfl rfl rfl rfl rfl (by decide) rfl rfl rfl rfl rfl rfl rfl rfl rfl

/-- C7: `deserializeFunction` throws for every function source text that,
after normalization (trim, `function`-keyword strip, `function anonymous`
removal, whitespace collapse), matches neither the block-arrow form, nor
the expression-arrow form, nor the classic parenthesised form: the result
is the `Invalid function format` error (re-thrown by the local catch with
the `Failed to deserialize function` prefix), never a callable — there is
no fallback function shape. -/
theorem C7_unmatched_shape_throws (fnStr : DVal) (s : String)
    (hres : fnStr = .str s ∨ ∃ fs, fnStr = .obj fs ∧
      (if truthy (DFields.get fs "original") then DFields.get fs "original"
       else DFields.get fs "code") = .str s)
    (hb : blockArrowMatch (jsTrim (collapseWs (removeFirst "function anonymous"
      (stripFnKeyword (jsTrim s))))) = none)
    (hs2 : simpleArrowMatch (jsTrim (collapseWs (removeFirst "function anonymous"
      (stripFnKeyword (jsTrim s))))) = none)
    (hr2 : regularFnMatch (jsTrim (collapseWs (removeFirst "function anonymous"
      (stripFnKeyword (jsTrim s))))) = none) :
    deserializeFunction fnStr =
      .error "Failed to deserialize function: Invalid function format" := by
  have hcore : ∀ t : DVal, t = .str s →
      (match t with
       | .str functionString =>
          (let n3 := jsTrim (collapseWs (removeFirst "function anonymous"
            (stripFnKeyword (jsTrim functionString))));
           if containsSub "=>" n3 then
            match blockArrowMatch n3 with
            | some (ps, body) =>
                wrapDeserialize (jsNewFunction (splitParams ps) (jsTrim body))
            | none =>
                match simpleArrowMatch n3 with
                | some (ps, e) =>
                    wrapDeserialize (jsNewFunction (splitParams ps)
                      ("return " ++ jsTrim e ++ ";"))
                | none =>
                    match regularFnMatch n3 with
                    | some (ps, body) =>
                        wrapDeserialize (jsNewFunction (splitParams ps) (jsTrim body))
                    | none => .error "Failed to deserialize function: Invalid function format"
           else
            match regularFnMatch n3 with
            | some (ps, body) =>
                wrapDeserialize (jsNewFunction (splitParams ps) (jsTrim body))
            | none => .error "Failed to deserialize function: Invalid function format")
       | _ => .error "Failed to deserialize function: functionString.trim is not a function") =
      .error "Failed to deserialize function: Invalid function format" := by
    intro t ht
    subst ht
    simp only []
    by_cases hc : containsSub "=>" (jsTrim (collapseWs (removeFirst "function anonymous"
        (stripFnKeyword (jsTrim s))))) = true
    · rw [if_pos hc, hb, hs2, hr2]
    · rw [if_neg hc, hr2]
  rcases hres with h | ⟨fs, h, hread⟩
  · subst h
    exact hcore (.str s) rfl
  · subst h
    show (match (match DVal.obj fs with
                 | .obj fs2 => if truthy (DFields.get fs2 "original")
                               then DFields.get fs2 "original"
                               else DFields.get fs2 "code"
                 | v => v) with
          | .str functionString => _
          | _ => _) = _
    rw [show (match DVal.obj fs with
              | .obj fs2 => if truthy (DFields.get fs2 "original")
                            then DFields.get fs2 "original"
                            else DFields.get fs2 "code"
              | v => v) = DVal.str s from hread]
    exact hcore (.str s) rfl

/-- Witness for C7 at the concrete input: deserializing a function record
whose source text is `while(true)\x7b\x7d` throws rather than producing a
callable. -/
theorem C7_unmatched_shape_throws_witness :
    deserializeFunction (.str "while(true)\x7b\x7d") =
      .error "Failed to deserialize function: Invalid function format" :=
  C7_unmatched_shape_throws (.str "while(true)\x7b\x7d") "while(true)\x7b\x7d"
    (Or.inl rfl) rfl rfl rfl

/-- C6 counterexample: serializing a model whose single `dependsOn` entry
carries `optional: true` and deserializing it back (the parse of the
serialized string is the JSON clone of the serialized tree) succeeds, but
the entry's `optional` comes back as `undefined`, not `true`: the
`dependsOn` branch of `deserializeObject` rebuilds each entry from
`field`/`message`/`condition`/`validate` only. -/
theorem C6_counterexample_optional_dropped :
    jsGet (jsGet (jsGet (jsonClone (serializeValidationModel (DVal.obj (DFields.ofList
        [("a", DVal.obj (DFields.ofList
            [("type", DVal.str "N"),
             ("dependsOn", DVal.obj (DFields.ofList
               [("field", DVal.str "b"),
                ("message", DVal.str "msg1"),
                ("condition", DVal.fn ["v"] (.ret (.lbool true)) (.arrowExpr true)),
                ("validate", DVal.fn ["v", "d"]
                  (.ret (.ebin .eq3 (.pvar "v") (.pvar "d"))) (.arrowExpr false)),
                ("optional", DVal.bool true)]))])),
         ("b", DVal.obj (DFields.ofList [("type", DVal.str "N")]))])))) "a") "dependsOn")
      "optional" = .bool true ∧
    (Except.toOption (deserializeValidationModel (jsonClone (serializeValidationModel
      (DVal.obj (DFields.ofList
        [("a", DVal.obj (DFields.ofList
            [("type", DVal.str "N"),
             ("dependsOn", DVal.obj (DFields.ofList
               [("field", DVal.str "b"),
                ("message", DVal.str "msg1"),
                ("condition", DVal.fn ["v"] (.ret (.lbool true)) (.arrowExpr true)),
                ("validate", DVal.fn ["v", "d"]
                  (.ret (.ebin .eq3 (.pvar "v") (.pvar "d"))) (.arrowExpr false)),
                ("optional", DVal.bool true)]))])),
         ("b", DVal.obj (DFields.ofList [("type", DVal.str "N")]))])))))).map
      (fun d => jsGet (jsGet (jsGet d "a") "dependsOn") "optional") = some DVal.undef ∧
    DVal.undef ≠ DVal.bool true :=
  ⟨rfl, rfl, fun h => DVal.noConfusion h⟩

/-- C6 as amended: in the `dependsOn` branch of `deserializeObject`, (1)
each rebuilt entry keeps the serialized entry's `field` and `message`
unchanged and runs `condition`/`validate` through the function
reconstructor when present (`undefined` when absent) — but every OTHER key
of the entry, in particular `optional`, is dropped (the rebuilt entry reads
it as `undefined`); and (2) an object's `dependsOn` key holding a single
dependency entry is rebuilt exactly that way. -/
theorem C6_dependsOn_entry_rebuild_amended :
    (∀ (go : DVal → Except String DVal) (v d2 : DVal),
      dsoDep go v = .ok d2 →
      jsGet d2 "field" = jsGet v "field" ∧
      jsGet d2 "message" = jsGet v "message" ∧
      jsGet d2 "optional" = .undef ∧
      (truthy (jsGet v "condition") = false → jsGet d2 "condition" = .undef) ∧
      (∀ c, truthy (jsGet v "condition") = true → go (jsGet v "condition") = .ok c →
        jsGet d2 "condition" = c) ∧
      (truthy (jsGet v "validate") = false → jsGet d2 "validate" = .undef) ∧
      (∀ w, truthy (jsGet v "validate") = true → go (jsGet v "validate") = .ok w →
        jsGet d2 "validate" = w)) ∧
    (∀ (go : DVal → Except String DVal) (value : DVal) (rest : List (String × DVal))
      (out : DFields),
      dsoFields go (("dependsOn", value) :: rest) = .ok out →
      isArray value = false →
      isDependencyObject value = true →
      ∃ d2, dsoDep go value = .ok d2 ∧ ∃ tl, out = .cons "dependsOn" d2 tl) := by
  constructor
  · intro go v d2 h
    rw [dsoDep, exBind_ok_iff] at h
    obtain ⟨c, hc, h⟩ := h
    simp only [exBind_ok_iff, Except.ok.injEq] at h
    obtain ⟨vl, hvl, hout⟩ := h
    subst hout
    refine ⟨rfl, rfl, rfl, ?_, ?_, ?_, ?_⟩
    · intro hf
      rw [if_neg (by rw [hf]; exact fun hcc => Bool.noConfusion hcc)] at hc
      injection hc with h1
      show c = DVal.undef
      rw [← h1]
    · intro c0 ht hgo
      rw [if_pos ht, hgo] at hc
      injection hc with h1
      show c = c0
      rw [← h1]
    · intro hf
      rw [if_neg (by rw [hf]; exact fun hcc => Bool.noConfusion hcc)] at hvl
      injection hvl with h1
      show vl = DVal.undef
      rw [← h1]
    · intro w0 ht hgo
      rw [if_pos ht, hgo] at hvl
      injection hvl with h1
      show vl = w0
      rw [← h1]
  · intro go value rest out h harr hdep
    simp only [dsoFields] at h
    rw [if_pos trivial] at h
    rw [if_neg (by rw [harr]; exact fun hcc => Bool.noConfusion hcc)] at h
    rw [if_pos hdep] at h
    rw [exBind_ok_iff] at h
    obtain ⟨d2, hd2, h⟩ := h
    simp only [exBind_ok_iff, Except.ok.injEq] at h
    obtain ⟨tl, htl, hout⟩ := h
    exact ⟨d2, hd2, tl, hout.symm⟩

/-- Witness for C6 at a concrete entry: a dependency entry with `field`,
`message` and `optional: true` (no callbacks) is rebuilt with the same
field and message, and its `optional` reads back as `undefined`. -/
theorem C6_dependsOn_entry_rebuild_amended_witness :
    jsGet (DVal.obj (DFields.ofList [("field", DVal.str "b"), ("message", DVal.str "m"),
        ("condition", DVal.undef), ("validate", DVal.undef)])) "field" =
      jsGet (DVal.obj (DFields.ofList [("field", DVal.str "b"), ("message", DVal.str "m"),
        ("optional", DVal.bool true)])) "field" ∧
    jsGet (DVal.obj (DFields.ofList [("field", DVal.str "b"), ("message", DVal.str "m"),
        ("condition", DVal.undef), ("validate", DVal.undef)])) "message" =
      jsGet (DVal.obj (DFields.ofList [("field", DVal.str "b"), ("message", DVal.str "m"),
        ("optional", DVal.bool true)])) "message" ∧
    jsGet (DVal.obj (DFields.ofList [("field", DVal.str "b"), ("message", DVal.str "m"),
        ("condition", DVal.undef), ("validate", DVal.undef)])) "optional" = DVal.undef ∧
    (truthy (jsGet (DVal.obj (DFields.ofList [("field", DVal.str "b"),
        ("message", DVal.str "m"), ("optional", DVal.bool true)])) "condition") = false →
      jsGet (DVal.obj (DFields.ofList [("field", DVal.str "b"), ("message", DVal.str "m"),
        ("condition", DVal.undef), ("validate", DVal.undef)])) "condition" = DVal.undef) ∧
    (∀ c, truthy (jsGet (DVal.obj (DFields.ofList [("field", DVal.str "b"),
        ("message", DVal.str "m"), ("optional", DVal.bool true)])) "condition") = true →
      (Except.ok (DVal.num 0) : Except String DVal) = Except.ok c →
      jsGet (DVal.obj (DFields.ofList [("field", DVal.str "b"), ("message", DVal.str "m"),
        ("condition", DVal.undef), ("validate", DVal.undef)])) "condition" = c) ∧
    (truthy (jsGet (DVal.obj (DFields.ofList [("field", DVal.str "b"),
        ("message", DVal.str "m"), ("optional", DVal.bool true)])) "validate") = false →
      jsGet (DVal.obj (DFields.ofList [("field", DVal.str "b"), ("message", DVal.str "m"),
        ("condition", DVal.undef), ("validate", DVal.undef)])) "validate" = DVal.undef) ∧
    (∀ w, truthy (jsGet (DVal.obj (DFields.ofList [("field", DVal.str "b"),
        ("message", DVal.str "m"), ("optional", DVal.bool true)])) "validate") = true →
      (Except.ok (DVal.num 0) : Except String DVal) = Except.ok w →
      jsGet (DVal.obj (DFields.ofList [("field", DVal.str "b"), ("message", DVal.str "m"),
        ("condition", DVal.undef), ("validate", DVal.undef)])) "validate" = w) :=
  C6_dependsOn_entry_rebuild_amended.1 (fun _ => .ok (.num 0))
    (DVal.obj (DFields.ofList [("field", DVal.str "b"), ("message", DVal.str "m"),
      ("optional", DVal.bool true)]))
    (DVal.obj (DFields.ofList [("field", DVal.str "b"), ("message", DVal.str "m"),
      ("condition", DVal.undef), ("validate", DVal.undef)]))
    rfl

/-- C1 counterexample: the model whose dependency validate function is
`v => (v === 'a  b')` (two spaces inside the string literal) vs the data
`\x7b a: 'a  b', b: 'x' \x7d`.  The original model validates the data
(`isValid = true`), but after a serialize/deserialize round trip the
deserializer's whitespace collapse rewrites the literal to `'a b'`, and the
round-tripped model rejects the same data (`isValid = false`): the round
trip is not behaviorally equivalent. -/
theorem C1_counterexample_whitespace_collapse :
    (Except.toOption (validateAgainstModel (DVal.obj (DFields.ofList [("a", DVal.str "a  b"), ("b", DVal.str "x")])) (DVal.obj (DFields.ofList
      [("a", DVal.obj (DFields.ofList
          [("type", DVal.str "S"),
           ("dependsOn", DVal.obj (DFields.ofList
             [("field", DVal.str "b"),
              ("message", DVal.str "bad"),
              ("condition", DVal.fn ["v"] (.ret (.lbool true)) (.arrowExpr true)),
              ("validate", DVal.fn ["v"]
                (.ret (.ebin .eq3 (.pvar "v") (.lstr "a  b"))) (.arrowExpr true))]))])),
       ("b", DVal.obj (DFields.ofList [("type", DVal.str "S")]))])) "")).map VResp.isValidFlag = some true ∧
    (Except.toOption (deserializeValidationModel (jsonClone (serializeValidationModel (DVal.obj (DFields.ofList
      [("a", DVal.obj (DFields.ofList
          [("type", DVal.str "S"),
           ("dependsOn", DVal.obj (DFields.ofList
             [("field", DVal.str "b"),
              ("message", DVal.str "bad"),
              ("condition", DVal.fn ["v"] (.ret (.lbool true)) (.arrowExpr true)),
              ("validate", DVal.fn ["v"]
                (.ret (.ebin .eq3 (.pvar "v") (.lstr "a  b"))) (.arrowExpr true))]))])),
       ("b", DVal.obj (DFields.ofList [("type", DVal.str "S")]))])))))).bind
      (fun md => (Except.toOption (validateAgainstModel (DVal.obj (DFields.ofList [("a", DVal.str "a  b"), ("b", DVal.str "x")])) md "")).map VResp.isValidFlag) =
      some false ∧
    some true ≠ some false :=
  ⟨rfl, rfl, fun h => by injection h with h2; exact Bool.noConfusion h2⟩

/-- The digit-string fold of `digitsToNat` over `natDecAux` output restores
the encoded number (positionally: a nonempty digit block multiplies the
accumulator by its weight). -/
theorem natDecAux_foldl : ∀ (fuel n acc : Nat), n ≤ fuel →
    (natDecAux fuel n).foldl (fun a c => a * 10 + (c.toNat - 48)) acc =
      acc * 10 ^ (natDecAux fuel n).length + n := by
  intro fuel
  induction fuel with
  | zero =>
      intro n acc h
      interval_cases n
      simp [natDecAux]
  | succ fuel ih =>
      intro n acc h
      by_cases hn : n = 0
      · subst hn
        simp [natDecAux]
      · rw [natDecAux, if_neg hn]
        rw [List.foldl_append, List.length_append]
        have hdiv : n / 10 ≤ fuel := by omega
        rw [ih (n / 10) acc hdiv]
        have hmod : n % 10 < 10 := Nat.mod_lt _ (by norm_num)
        have hchar : (Char.ofNat (48 + n % 10)).toNat - 48 = n % 10 := by
          set k := n % 10 with hk
          interval_cases k <;> decide
        simp only [List.foldl_cons, List.foldl_nil, List.length_cons, List.length_nil,
          hchar]
        have : acc * 10 ^ ((natDecAux fuel (n / 10)).length + (0 + 1)) =
            acc * 10 ^ (natDecAux fuel (n / 10)).length * 10 := by
          rw [pow_succ]
          ring
        rw [this]
        omega

/-- Decimal round trip: parsing the decimal rendering of `n` gives back
`n`. -/
theorem digitsToNat_natDec (n : Nat) :
    digitsToNat (String.mk (natDec n)) = n := by
  by_cases hn : n = 0
  · subst hn
    decide
  · show (natDec n).foldl (fun a c => a * 10 + (c.toNat - 48)) 0 = n
    rw [natDec, if_neg hn]
    rw [natDecAux_foldl (n + 1) n 0 (by omega)]
    simp

/-- Every character of `natDecAux` output is a decimal digit. -/
theorem natDecAux_digits : ∀ (fuel n : Nat), ∀ c ∈ natDecAux fuel n, c.isDigit = true := by
  intro fuel
  induction fuel with
  | zero => intro n c hc; cases hc
  | succ fuel ih =>
      intro n c hc
      rw [natDecAux] at hc
      split at hc
      · cases hc
      · rcases List.mem_append.mp hc with hm | hm
        · exact ih _ c hm
        · rw [List.mem_singleton] at hm
          subst hm
          have hmod : n % 10 < 10 := Nat.mod_lt _ (by norm_num)
          show (Char.ofNat (48 + n % 10)).isDigit = true
          set k := n % 10 with hk
          interval_cases k <;> decide

/-- Every character of `natDec` output is a decimal digit. -/
theorem natDec_digits (n : Nat) : ∀ c ∈ natDec n, c.isDigit = true := by
  intro c hc
  rw [natDec] at hc
  split at hc
  · rw [List.mem_singleton] at hc
    subst hc
    decide
  · exact natDecAux_digits _ _ c hc

/-- `natDec` output is nonempty. -/
theorem natDec_ne_nil (n : Nat) : natDec n ≠ [] := by
  rw [natDec]
  split
  · exact fun h => List.noConfusion h
  · rw [natDecAux, if_neg (by assumption)]
    intro h
    rcases List.append_eq_nil.mp h with ⟨_, h2⟩
    exact List.noConfusion h2

/-- An alphabetic character is not a digit. -/
theorem alpha_not_digit (c : Char) (h : c.isAlpha = true) : c.isDigit = false := by
  simp only [Char.isAlpha, Char.isUpper, Char.isLower, Char.isDigit,
    Bool.or_eq_true, Bool.and_eq_true, decide_eq_true_eq, Char.le_def] at *
  simp only [Bool.and_eq_false_iff, decide_eq_false_iff_not, Char.le_def, not_le]
  have h2 : ∀ a b : UInt32, a ≤ b ↔ a.toNat ≤ b.toNat := fun a b => Iff.rfl
  simp only [GE.ge, h2] at *
  have e1 : UInt32.toNat 65 = 65 := rfl
  have e2 : UInt32.toNat 90 = 90 := rfl
  have e3 : UInt32.toNat 97 = 97 := rfl
  have e4 : UInt32.toNat 122 = 122 := rfl
  have e5 : UInt32.toNat 48 = 48 := rfl
  have e6 : UInt32.toNat 57 = 57 := rfl
  rw [e1, e2, e3, e4] at h
  rw [e5, e6]
  omega

/-- An identifier-start character is not a digit. -/
theorem identStart_not_digit (c : Char) (h : isIdentStart c = true) : c.isDigit = false := by
  simp only [isIdentStart, Bool.or_eq_true, decide_eq_true_eq] at h
  rcases h with (h | h) | h
  · exact alpha_not_digit c h
  · subst h; decide
  · subst h; decide

/-- An identifier character differs from every non-identifier character. -/
theorem identChar_not_char (c x : Char) (h : isIdentChar c = true)
    (hx : isIdentChar x = false) : (c = x) = False := by
  simp only [eq_iff_iff, iff_false]
  intro he
  subst he
  rw [h] at hx
  exact Bool.noConfusion hx

/-- An identifier character is not whitespace. -/
theorem identChar_not_ws (c : Char) (h : isIdentChar c = true) : isWsChar c = false := by
  cases hw : isWsChar c
  · rfl
  · exfalso
    simp only [isWsChar, Bool.or_eq_true, decide_eq_true_eq] at hw
    rcases hw with ((h1 | h1) | h1) | h1 <;> subst h1 <;>
      simp [isIdentChar, isIdentStart, Char.isAlpha, Char.isUpper, Char.isLower,
        Char.isDigit] at h

/-- Splitting `takeWhile`/`dropWhile` over an append whose left part wholly
satisfies the predicate and whose right part starts with a failing
character (or is empty). -/
theorem takeWhile_all_append (p : Char → Bool) : ∀ (a rest : List Char),
    (∀ c ∈ a, p c = true) →
    (match rest with | [] => True | c :: _ => p c = false) →
    (a ++ rest).takeWhile p = a ∧ (a ++ rest).dropWhile p = rest := by
  intro a
  induction a with
  | nil =>
      intro rest _ hr
      cases rest with
      | nil => exact ⟨rfl, rfl⟩
      | cons c tl =>
          simp only at hr
          simp [List.takeWhile_cons, List.dropWhile_cons, hr]
  | cons x a2 ih =>
      intro rest h hr
      have hx : p x = true := h x (by simp)
      have ih2 := ih rest (fun c hc => h c (by simp [hc])) hr
      simp [List.takeWhile_cons, List.dropWhile_cons, hx, ih2.1, ih2.2]

/-- `chainData` distributes over a snoc. -/
theorem chainData_append (a : List String) (n : String) :
    chainData (a ++ [n]) = chainData a ++ ('.' :: n.data) := by
  induction a with
  | nil => simp [chainData]
  | cons x tl ih => simp [chainData, ih]

/-- Printed member chains decompose into the wrapped base followed by the
name chain. -/
theorem pe_spine : ∀ (e : FExpr) (n : String),
    (printExpr (FExpr.member e n)).data =
      atomData (spineBase e) ++ chainData (spineNames e ++ [n])
  | .member e2 n2, n => by
      have ih := pe_spine e2 n2
      show ((printExpr (.member e2 n2)) ++ "." ++ n).data = _
      rw [string_data_append, string_data_append, ih]
      rw [show spineBase (.member e2 n2) = spineBase e2 from rfl,
        show spineNames (.member e2 n2) = spineNames e2 ++ [n2] from rfl,
        chainData_append, chainData_append, chainData_append]
      simp [List.append_assoc]
  | .lnull, n => by
      rw [show spineBase FExpr.lnull = FExpr.lnull from rfl,
        show spineNames FExpr.lnull = [] from rfl]
      show ((printExpr .lnull) ++ "." ++ n).data = _
      rw [string_data_append, string_data_append]
      simp [atomData, chainData, wrapBase]
  | .lundef, n => by
      rw [show spineBase FExpr.lundef = FExpr.lundef from rfl,
        show spineNames FExpr.lundef = [] from rfl]
      show ((printExpr .lundef) ++ "." ++ n).data = _
      rw [string_data_append, string_data_append]
      simp [atomData, chainData, wrapBase]
  | .lbool b, n => by
      rw [show spineBase (FExpr.lbool b) = FExpr.lbool b from rfl,
        show spineNames (FExpr.lbool b) = [] from rfl]
      show ((if wrapBase (.lbool b) then "(" ++ printExpr (.lbool b) ++ ")"
             else printExpr (.lbool b)) ++ "." ++ n).data = _
      rw [string_data_append, string_data_append]
      simp [atomData, chainData, wrapBase]
  | .lnum m, n => by
      rw [show spineBase (FExpr.lnum m) = FExpr.lnum m from rfl,
        show spineNames (FExpr.lnum m) = [] from rfl]
      show (("(" ++ printExpr (.lnum m) ++ ")") ++ "." ++ n).data = _
      rw [string_data_append, string_data_append, string_data_append,
        string_data_append]
      simp [atomData, chainData, wrapBase, spineBase, spineNames]
  | .lstr s, n => by
      rw [show spineBase (FExpr.lstr s) = FExpr.lstr s from rfl,
        show spineNames (FExpr.lstr s) = [] from rfl]
      show ((printExpr (.lstr s)) ++ "." ++ n).data = _
      rw [string_data_append, string_data_append]
      simp [atomData, chainData, wrapBase]
  | .pvar x, n => by
      rw [show spineBase (FExpr.pvar x) = FExpr.pvar x from rfl,
        show spineNames (FExpr.pvar x) = [] from rfl]
      show ((printExpr (.pvar x)) ++ "." ++ n).data = _
      rw [string_data_append, string_data_append]
      simp [atomData, chainData, wrapBase]
  | .enot e2, n => by
      rw [show spineBase (FExpr.enot e2) = FExpr.enot e2 from rfl,
        show spineNames (FExpr.enot e2) = [] from rfl]
      show (("(" ++ printExpr (.enot e2) ++ ")") ++ "." ++ n).data = _
      rw [string_data_append, string_data_append, string_data_append,
        string_data_append]
      simp [atomData, chainData, wrapBase, spineBase, spineNames]
  | .ebin op a b, n => by
      rw [show spineBase (FExpr.ebin op a b) = FExpr.ebin op a b from rfl,
        show spineNames (FExpr.ebin op a b) = [] from rfl]
      show (("(" ++ printExpr (.ebin op a b) ++ ")") ++ "." ++ n).data = _
      rw [string_data_append, string_data_append, string_data_append,
        string_data_append]
      simp [atomData, chainData, wrapBase, spineBase, spineNames]

/-- `parseChain` consumes exactly a printed name chain, folding the names
onto the base expression left-associatively. -/
theorem parseChain_chain : ∀ (ns : List String) (fuel : Nat) (e0 : FExpr) (rest : List Char),
    (∀ n ∈ ns, n ≠ "" ∧ n.data.all isIdentChar = true) →
    ns.length + 1 ≤ fuel →
    followOk rest = true →
    parseChain fuel e0 (chainData ns ++ rest) =
      some (ns.foldl (fun a n => FExpr.member a n) e0, rest) := by
  intro ns
  induction ns with
  | nil =>
      intro fuel e0 rest _ hfuel hfollow
      match fuel, hfuel with
      | fuel + 1, _ =>
        show parseChain (fuel + 1) e0 rest = some (e0, rest)
        cases rest with
        | nil => rfl
        | cons c tl =>
            simp only [followOk, Bool.and_eq_true, Bool.not_eq_true] at hfollow
            simp only [parseChain]
            rw [if_neg (by
              intro he
              rw [he] at hfollow
              simp at hfollow)]
  | cons n ns2 ih =>
      intro fuel e0 rest hwf hfuel hfollow
      match fuel, hfuel with
      | fuel + 1, hfuel =>
        have hn := hwf n (by simp)
        show parseChain (fuel + 1) e0 ('.' :: (n.data ++ chainData ns2) ++ rest)
          = some ((n :: ns2).foldl (fun a n => FExpr.member a n) e0, rest)
        simp only [List.cons_append, parseChain]
        rw [if_pos trivial]
        have hsplit := takeWhile_all_append isIdentChar n.data (chainData ns2 ++ rest)
          (fun c hc => by
            have h2 := hn.2
            rw [List.all_eq_true] at h2
            exact h2 c hc)
          (by
            cases hcd : chainData ns2 with
            | nil =>
                simp only [hcd, List.nil_append]
                cases rest with
                | nil => exact True.intro
                | cons c tl =>
                    simp only [followOk, Bool.and_eq_true, Bool.not_eq_true] at hfollow
                    show isIdentChar c = false
                    cases hic : isIdentChar c
                    · rfl
                    · rw [hic] at hfollow
                      exact absurd hfollow.1 (by decide)
            | cons c tl =>
                have hcdot : c = '.' := by
                  cases ns2 with
                  | nil => simp [chainData] at hcd
                  | cons m ms =>
                      simp only [chainData, List.cons_append] at hcd
                      exact ((List.cons.injEq _ _ _ _).mp hcd).1.symm
                subst hcdot
                rfl)
        simp only [List.cons_append, List.append_assoc] at hsplit ⊢
        rw [hsplit.1]
        have hwne : n.data.isEmpty = false := by
          cases hd : n.data with
          | nil =>
              exfalso
              apply hn.1
              cases n
              simp at hd
              rw [hd]
          | cons c tl => rfl
        simp only [hwne, Bool.false_eq_true, if_false]
        have hdrop : (n.data ++ (chainData ns2 ++ rest)).drop n.data.length =
            chainData ns2 ++ rest := by
          rw [List.drop_left]
        rw [hdrop]
        have hmk : String.mk n.data = n := by cases n; rfl
        rw [hmk]
        rw [ih fuel (.member e0 n) rest (fun m hm => hwf m (by simp [hm]))
          (by simp at hfuel ⊢; omega) hfollow]
        rfl

/-- Expressions have positive size. -/
theorem esize_pos : ∀ e : FExpr, 1 ≤ esize e := by
  intro e
  cases e <;> simp [esize]

/-- Folding the spine names back onto the spine base restores the
expression. -/
theorem spine_foldl : ∀ e : FExpr,
    (spineNames e).foldl (fun a n => FExpr.member a n) (spineBase e) = e
  | .member e2 n => by
      rw [show spineNames (.member e2 n) = spineNames e2 ++ [n] from rfl,
        show spineBase (.member e2 n) = spineBase e2 from rfl,
        List.foldl_append, spine_foldl e2]
      rfl
  | .lnull => rfl
  | .lundef => rfl
  | .lbool b => rfl
  | .lnum m => rfl
  | .lstr s => rfl
  | .pvar x => rfl
  | .enot e2 => rfl
  | .ebin op a b => rfl

/-- Size decomposes over the spine. -/
theorem spine_size : ∀ e : FExpr,
    esize e = esize (spineBase e) + (spineNames e).length
  | .member e2 n => by
      rw [show spineNames (.member e2 n) = spineNames e2 ++ [n] from rfl,
        show spineBase (.member e2 n) = spineBase e2 from rfl,
        show esize (.member e2 n) = esize e2 + 1 from rfl, spine_size e2]
      simp
      omega
  | .lnull => rfl
  | .lundef => rfl
  | .lbool b => rfl
  | .lnum m => rfl
  | .lstr s => rfl
  | .pvar x => rfl
  | .enot e2 => rfl
  | .ebin op a b => rfl

/-- The spine base of a well-formed expression is well-formed. -/
theorem spineBase_wf : ∀ e : FExpr, wfExpr e = true → wfExpr (spineBase e) = true
  | .member e2 n => by
      intro h
      rw [show wfExpr (.member e2 n) =
        (wfExpr e2 && !(n = "") && n.data.all isIdentChar) from rfl] at h
      simp only [Bool.and_eq_true] at h
      exact spineBase_wf e2 h.1.1
  | .lnull => fun h => h
  | .lundef => fun h => h
  | .lbool b => fun h => h
  | .lnum m => fun h => h
  | .lstr s => fun h => h
  | .pvar x => fun h => h
  | .enot e2 => fun h => h
  | .ebin op a b => fun h => h

/-- The spine names of a well-formed expression are identifier chunks. -/
theorem spineNames_wf : ∀ e : FExpr, wfExpr e = true →
    ∀ m ∈ spineNames e, m ≠ "" ∧ m.data.all isIdentChar = true
  | .member e2 n => by
      intro h m hm
      rw [show wfExpr (.member e2 n) =
        (wfExpr e2 && !(n = "") && n.data.all isIdentChar) from rfl] at h
      simp only [Bool.and_eq_true] at h
      rw [show spineNames (.member e2 n) = spineNames e2 ++ [n] from rfl] at hm
      rcases List.mem_append.mp hm with hm2 | hm2
      · exact spineNames_wf e2 h.1.1 m hm2
      · rw [List.mem_singleton] at hm2
        subst hm2
        refine ⟨?_, h.2⟩
        have hne := h.1.2
        intro he
        rw [he] at hne
        simp at hne
  | .lnull => fun _ m hm => absurd hm (List.not_mem_nil m)
  | .lundef => fun _ m hm => absurd hm (List.not_mem_nil m)
  | .lbool b => fun _ m hm => absurd hm (List.not_mem_nil m)
  | .lnum k => fun _ m hm => absurd hm (List.not_mem_nil m)
  | .lstr s => fun _ m hm => absurd hm (List.not_mem_nil m)
  | .pvar x => fun _ m hm => absurd hm (List.not_mem_nil m)
  | .enot e2 => fun _ m hm => absurd hm (List.not_mem_nil m)
  | .ebin op a b => fun _ m hm => absurd hm (List.not_mem_nil m)

/-- The spine base is never itself a member access. -/
theorem spineBase_ne_member : ∀ (e x : FExpr) (y : String),
    spineBase e = .member x y → False
  | .member e2 n => fun x y h => spineBase_ne_member e2 x y h
  | .lnull => fun x y h => FExpr.noConfusion h
  | .lundef => fun x y h => FExpr.noConfusion h
  | .lbool b => fun x y h => FExpr.noConfusion h
  | .lnum k => fun x y h => FExpr.noConfusion h
  | .lstr s => fun x y h => FExpr.noConfusion h
  | .pvar x2 => fun x y h => FExpr.noConfusion h
  | .enot e2 => fun x y h => FExpr.noConfusion h
  | .ebin op a b => fun x y h => FExpr.noConfusion h

/-- A legal follow set is in particular a word stop. -/
theorem wordStop_of_followOk : ∀ (l : List Char), followOk l = true → wordStop l = true := by
  intro l h
  cases l with
  | nil => rfl
  | cons c tl =>
      simp only [followOk, Bool.and_eq_true] at h
      show (!(isIdentChar c)) = true
      exact h.1

/-- A nonempty member chain starts with a dot, which stops a word scan. -/
theorem wordStop_chain : ∀ (ns : List String) (rest : List Char), ns ≠ [] →
    wordStop (chainData ns ++ rest) = true := by
  intro ns rest h
  cases ns with
  | nil => exact absurd rfl h
  | cons m tl => rfl

/-- Unfolding `parseUnary` at a head character other than `!`. -/
theorem parseUnary_not_bang (fuel : Nat) (c : Char) (tl : List Char) (h : ¬(c = '!')) :
    parseUnary (fuel + 1) (c :: tl) =
      (match parseAtom (parseUnary fuel) (c :: tl) with
       | some (e, l2) => parseChain (fuel + 1) e l2
       | none => none) := by
  simp only [parseUnary]
  rw [if_neg h]

/-- `parseOp` recovers a printed operator followed by a space. -/
theorem parseOp_print : ∀ (op : BOp) (tail : List Char),
    parseOp ((opText op).data ++ (' ' :: tail)) = some (op, ' ' :: tail) := by
  intro op tail
  cases op <;> rfl

/-- A word stop in the decomposed form `takeWhile_all_append` consumes. -/
theorem wordStop_head : ∀ (rest : List Char), wordStop rest = true →
    (match rest with | [] => True | c :: _ => isIdentChar c = false) := by
  intro rest h
  cases rest with
  | nil => trivial
  | cons d tl =>
      show isIdentChar d = false
      simp only [wordStop] at h
      simpa using h

/-- The parser's word atom on an identifier followed by a word stop. -/
theorem parseAtom_word (pu : List Char → Option (FExpr × List Char)) (c : Char)
    (w2 rest : List Char) (hstart : isIdentStart c = true)
    (hall : ∀ d ∈ w2, isIdentChar d = true)
    (hstop : wordStop rest = true) :
    parseAtom pu (c :: (w2 ++ rest)) = some (wordExpr (String.mk (c :: w2)), rest) := by
  have hic : isIdentChar c = true := by simp [isIdentChar, hstart]
  have htw := takeWhile_all_append isIdentChar w2 rest hall (wordStop_head rest hstop)
  have ht : (c :: (w2 ++ rest)).takeWhile isIdentChar = c :: w2 := by
    rw [List.takeWhile_cons_of_pos hic, htw.1]
  have hd : (c :: (w2 ++ rest)).drop (c :: w2).length = rest := by
    show (c :: (w2 ++ rest)).drop (w2.length + 1) = rest
    rw [List.drop_succ_cons]
    exact List.drop_left w2 rest
  have h1 : ¬(c = '(') := fun he => absurd (he ▸ hic) (by decide)
  have h2 : ¬(c = quoteC) := fun he => absurd (he ▸ hic) (by decide)
  have h3 : ¬(c = '-') := fun he => absurd (he ▸ hic) (by decide)
  have h4 : ¬(c.isDigit = true) := by rw [identStart_not_digit c hstart]; exact (by decide)
  simp only [parseAtom]
  rw [if_neg h1, if_neg h2, if_neg h3, if_neg h4, if_pos hstart]
  rw [ht, hd]
  simp only [wordExpr]
  by_cases e1 : String.mk (c :: w2) = "null"
  · rw [if_pos e1, if_pos e1]
  · rw [if_neg e1, if_neg e1]
    by_cases e2 : String.mk (c :: w2) = "undefined"
    · rw [if_pos e2, if_pos e2]
    · rw [if_neg e2, if_neg e2]
      by_cases e3 : String.mk (c :: w2) = "true"
      · rw [if_pos e3, if_pos e3]
      · rw [if_neg e3, if_neg e3]
        by_cases e4 : String.mk (c :: w2) = "false"
        · rw [if_pos e4, if_pos e4]
        · rw [if_neg e4, if_neg e4]

/-- A word stop also stops a digit scan (digits are identifier
characters). -/
theorem wordStop_head_digit : ∀ (rest : List Char), wordStop rest = true →
    (match rest with | [] => True | c :: _ => c.isDigit = false) := by
  intro rest h
  cases rest with
  | nil => trivial
  | cons d tl =>
      show d.isDigit = false
      simp only [wordStop] at h
      have h2 : isIdentChar d = false := by simpa using h
      cases hdd : d.isDigit
      · rfl
      · exfalso
        rw [show isIdentChar d = (isIdentStart d || d.isDigit) from rfl, hdd] at h2
        simp at h2

/-- The parser's string-literal atom on a printed quoted literal. -/
theorem parseAtom_str (pu : List Char → Option (FExpr × List Char)) (s : String)
    (rest : List Char) (hq : s.data.contains quoteC = false) :
    parseAtom pu (quoteC :: (s.data ++ (quoteC :: rest))) = some (.lstr s, rest) := by
  have hmem : ∀ d ∈ s.data, (!(d = quoteC)) = true := by
    intro d hd
    by_cases he : d = quoteC
    · subst he
      have hnm : quoteC ∉ s.data := by simpa using hq
      exact absurd hd hnm
    · simp [he]
  have htw := takeWhile_all_append (fun d => !(d = quoteC)) s.data (quoteC :: rest) hmem
    (by simp)
  simp only [parseAtom]
  rw [if_neg (by decide : ¬(quoteC = '(')), if_pos trivial]
  rw [htw.1, htw.2]

/-- The parser's number atom on a printed negative number. -/
theorem parseAtom_num_neg (pu : List Char → Option (FExpr × List Char)) (n : Int)
    (tl : List Char) (hn : n < 0) (hstop : wordStop tl = true) :
    parseAtom pu ('-' :: (natDec n.natAbs ++ tl)) = some (.lnum n, tl) := by
  have htw := takeWhile_all_append Char.isDigit (natDec n.natAbs) tl
    (natDec_digits n.natAbs) (wordStop_head_digit tl hstop)
  simp only [parseAtom]
  rw [if_neg (by decide : ¬('-' = '(')), if_neg (by decide : ¬('-' = quoteC)), if_pos trivial]
  rw [htw.1]
  rw [if_neg (fun hemp => natDec_ne_nil n.natAbs (by simpa using hemp))]
  rw [digitsToNat_natDec, List.drop_left]
  have he : -((n.natAbs : Nat) : Int) = n := by omega
  rw [he]

/-- The parser's number atom on a printed nonnegative number. -/
theorem parseAtom_num_pos (pu : List Char → Option (FExpr × List Char)) (n : Int)
    (d : Char) (dtl tl : List Char) (hn : ¬(n < 0))
    (hnd : natDec n.natAbs = d :: dtl) (hstop : wordStop tl = true) :
    parseAtom pu (d :: (dtl ++ tl)) = some (.lnum n, tl) := by
  have hd : d.isDigit = true := natDec_digits n.natAbs d (by rw [hnd]; exact List.mem_cons_self d dtl)
  have hic : isIdentChar d = true := by simp [isIdentChar, isIdentStart, hd]
  have htw := takeWhile_all_append Char.isDigit (natDec n.natAbs) tl
    (natDec_digits n.natAbs) (wordStop_head_digit tl hstop)
  rw [hnd] at htw
  simp only [List.cons_append] at htw
  have h1 : ¬(d = '(') := fun he => absurd (he ▸ hic) (by decide)
  have h2 : ¬(d = quoteC) := fun he => absurd (he ▸ hic) (by decide)
  have h3 : ¬(d = '-') := fun he => absurd (he ▸ hic) (by decide)
  have hdrop : (d :: (dtl ++ tl)).drop (d :: dtl).length = tl := by
    show (d :: (dtl ++ tl)).drop (dtl.length + 1) = tl
    rw [List.drop_succ_cons]
    exact List.drop_left dtl tl
  simp only [parseAtom]
  rw [if_neg h1, if_neg h2, if_neg h3, if_pos hd]
  rw [htw.1, hdrop, ← hnd, digitsToNat_natDec]
  have he : ((n.natAbs : Nat) : Int) = n := by omega
  rw [he]

/-- The parser's parenthesised-group atom on a printed binary expression. -/
theorem parseAtom_paren_bin (pu : List Char → Option (FExpr × List Char))
    (a b : FExpr) (op : BOp) (la lb rest : List Char)
    (ha : pu (la ++ (' ' :: ((opText op).data ++ (' ' :: (lb ++ (')' :: rest)))))) =
      some (a, ' ' :: ((opText op).data ++ (' ' :: (lb ++ (')' :: rest))))))
    (hb : pu (lb ++ (')' :: rest)) = some (b, ')' :: rest)) :
    parseAtom pu ('(' :: (la ++ (' ' :: ((opText op).data ++ (' ' :: (lb ++ (')' :: rest))))))) =
      some (.ebin op a b, rest) := by
  simp only [parseAtom]
  rw [if_pos trivial]
  simp only [ha]
  rw [parseOp_print op (lb ++ (')' :: rest))]
  simp only [hb]

/-- The parser's parenthesised-group atom on a wrapped single base. -/
theorem parseAtom_paren_base (pu : List Char → Option (FExpr × List Char))
    (e1 : FExpr) (le rest : List Char)
    (ha : pu (le ++ (')' :: rest)) = some (e1, ')' :: rest)) :
    parseAtom pu ('(' :: (le ++ (')' :: rest))) = some (e1, rest) := by
  simp only [parseAtom]
  rw [if_pos trivial]
  simp only [ha]

/-- One unary-level step on a printed flat atom (an unwrapped, non-member
base): the parser consumes exactly its text and hands the tail to the chain
parser. -/
theorem parseUnary_flat_atom (fuel : Nat) (base : FExpr) (tl : List Char)
    (hwb : wrapBase base = false)
    (hnm : ∀ x y, base = FExpr.member x y → False)
    (hwf : wfExpr base = true)
    (hstop : wordStop tl = true) :
    parseUnary (fuel + 1) ((printExpr base).data ++ tl) =
      parseChain (fuel + 1) base tl := by
  cases base with
  | member x y => exact absurd rfl (hnm x y)
  | ebin op a b =>
      rw [show wrapBase (.ebin op a b) = true from rfl] at hwb
      exact Bool.noConfusion hwb
  | enot x =>
      rw [show wrapBase (.enot x) = true from rfl] at hwb
      exact Bool.noConfusion hwb
  | lnum k =>
      rw [show wrapBase (.lnum k) = true from rfl] at hwb
      exact Bool.noConfusion hwb
  | lnull =>
      rw [show (printExpr FExpr.lnull).data ++ tl = 'n' :: (['u','l','l'] ++ tl) from rfl]
      rw [parseUnary_not_bang fuel 'n' _ (by decide)]
      rw [parseAtom_word (parseUnary fuel) 'n' ['u','l','l'] tl (by decide) (by decide) hstop]
      exact rfl
  | lundef =>
      rw [show (printExpr FExpr.lundef).data ++ tl =
        'u' :: (['n','d','e','f','i','n','e','d'] ++ tl) from rfl]
      rw [parseUnary_not_bang fuel 'u' _ (by decide)]
      rw [parseAtom_word (parseUnary fuel) 'u' ['n','d','e','f','i','n','e','d'] tl
        (by decide) (by decide) hstop]
      exact rfl
  | lbool bb =>
      cases bb with
      | true =>
          rw [show (printExpr (FExpr.lbool true)).data ++ tl = 't' :: (['r','u','e'] ++ tl) from rfl]
          rw [parseUnary_not_bang fuel 't' _ (by decide)]
          rw [parseAtom_word (parseUnary fuel) 't' ['r','u','e'] tl (by decide) (by decide) hstop]
          exact rfl
      | false =>
          rw [show (printExpr (FExpr.lbool false)).data ++ tl = 'f' :: (['a','l','s','e'] ++ tl) from rfl]
          rw [parseUnary_not_bang fuel 'f' _ (by decide)]
          rw [parseAtom_word (parseUnary fuel) 'f' ['a','l','s','e'] tl (by decide) (by decide) hstop]
          exact rfl
  | lstr s =>
      have hq : s.data.contains quoteC = false := by
        rw [show wfExpr (.lstr s) = !(s.data.contains quoteC) from rfl] at hwf
        simpa using hwf
      rw [show (printExpr (.lstr s)).data ++ tl = quoteC :: (s.data ++ (quoteC :: tl)) from by
        show (String.mk [quoteC] ++ s ++ String.mk [quoteC]).data ++ tl = _
        rw [string_data_append, string_data_append]
        simp]
      rw [parseUnary_not_bang fuel quoteC _ (by decide)]
      rw [parseAtom_str (parseUnary fuel) s tl hq]
  | pvar x =>
      rw [show wfExpr (.pvar x) = (isValidIdent x && !(x = "undefined")) from rfl] at hwf
      simp only [Bool.and_eq_true] at hwf
      obtain ⟨hvi, hnu⟩ := hwf
      cases hx : x.data with
      | nil =>
          rw [show isValidIdent x = (match x.data with
            | [] => false
            | c :: rest => isIdentStart c && rest.all isIdentChar
                && !(reservedWords.contains x)) from rfl, hx] at hvi
          exact Bool.noConfusion hvi
      | cons c w2 =>
          rw [show isValidIdent x = (match x.data with
            | [] => false
            | c :: rest => isIdentStart c && rest.all isIdentChar
                && !(reservedWords.contains x)) from rfl, hx] at hvi
          simp only [Bool.and_eq_true] at hvi
          obtain ⟨⟨hstart, hallw⟩, hres⟩ := hvi
          have hcon : reservedWords.contains x = false := by
            cases hcc : reservedWords.contains x
            · rfl
            · rw [hcc] at hres; exact Bool.noConfusion hres
          have hnull : ¬(x = "null") := fun he => by
            rw [he] at hcon; exact absurd hcon (by decide)
          have htrue : ¬(x = "true") := fun he => by
            rw [he] at hcon; exact absurd hcon (by decide)
          have hfalse : ¬(x = "false") := fun he => by
            rw [he] at hcon; exact absurd hcon (by decide)
          have hundef : ¬(x = "undefined") := by simpa using hnu
          have hic : isIdentChar c = true := by simp [isIdentChar, hstart]
          rw [show (printExpr (.pvar x)).data ++ tl = c :: (w2 ++ tl) from by
            show x.data ++ tl = _
            rw [hx, List.cons_append]]
          rw [parseUnary_not_bang fuel c _ (fun he => absurd (he ▸ hic) (by decide))]
          rw [parseAtom_word (parseUnary fuel) c w2 tl hstart
            (fun d hd => List.all_eq_true.mp hallw d hd) hstop]
          have hmk : String.mk (c :: w2) = x := by rw [← hx]
          rw [hmk]
          have hwe : wordExpr x = .pvar x := by
            rw [wordExpr, if_neg hnull, if_neg hundef, if_neg htrue, if_neg hfalse]
          rw [hwe]

/-- One unary-level step on a printed number. -/
theorem parseUnary_num (fuel : Nat) (n : Int) (tl : List Char)
    (hstop : wordStop tl = true) :
    parseUnary (fuel + 1) ((numToString n).data ++ tl) =
      parseChain (fuel + 1) (.lnum n) tl := by
  by_cases hn : n < 0
  · rw [show (numToString n).data ++ tl = '-' :: (natDec n.natAbs ++ tl) from by
      show intDec n ++ tl = _
      rw [intDec, if_pos hn, List.cons_append]]
    rw [parseUnary_not_bang fuel '-' _ (by decide)]
    rw [parseAtom_num_neg (parseUnary fuel) n tl hn hstop]
  · cases hnd : natDec n.natAbs with
    | nil => exact absurd hnd (natDec_ne_nil _)
    | cons d dtl =>
        have hd : d.isDigit = true := natDec_digits n.natAbs d
          (by rw [hnd]; exact List.mem_cons_self d dtl)
        rw [show (numToString n).data ++ tl = d :: (dtl ++ tl) from by
          show intDec n ++ tl = _
          rw [intDec, if_neg hn, hnd, List.cons_append]]
        rw [parseUnary_not_bang fuel d _ (fun he => by
          rw [he] at hd; exact absurd hd (by decide))]
        rw [parseAtom_num_pos (parseUnary fuel) n d dtl tl hn hnd hstop]

/-- Round trip of the expression printer through the recursive-descent
parser: with enough fuel, parsing the printed text of a well-formed
expression followed by a legal continuation yields exactly that expression
with the continuation untouched. -/
theorem parseUnary_print : ∀ (fuel : Nat) (e : FExpr) (rest : List Char),
    wfExpr e = true → esize e ≤ fuel → followOk rest = true →
    parseUnary fuel ((printExpr e).data ++ rest) = some (e, rest) := by
  intro fuel
  induction fuel with
  | zero =>
      intro e rest hwf hsz hf
      exact absurd hsz (by have := esize_pos e; omega)
  | succ fuel ih =>
      intro e rest hwf hsz hf
      cases e with
      | lnull =>
          rw [parseUnary_flat_atom fuel .lnull rest rfl
            (fun x y h => FExpr.noConfusion h) rfl (wordStop_of_followOk rest hf)]
          exact parseChain_chain [] (fuel + 1) .lnull rest (by simp) (by simp only [List.length_nil]; omega) hf
      | lundef =>
          rw [parseUnary_flat_atom fuel .lundef rest rfl
            (fun x y h => FExpr.noConfusion h) rfl (wordStop_of_followOk rest hf)]
          exact parseChain_chain [] (fuel + 1) .lundef rest (by simp) (by simp only [List.length_nil]; omega) hf
      | lbool b =>
          rw [parseUnary_flat_atom fuel (.lbool b) rest rfl
            (fun x y h => FExpr.noConfusion h) rfl (wordStop_of_followOk rest hf)]
          exact parseChain_chain [] (fuel + 1) (.lbool b) rest (by simp) (by simp only [List.length_nil]; omega) hf
      | lstr s =>
          rw [parseUnary_flat_atom fuel (.lstr s) rest rfl
            (fun x y h => FExpr.noConfusion h) hwf (wordStop_of_followOk rest hf)]
          exact parseChain_chain [] (fuel + 1) (.lstr s) rest (by simp) (by simp only [List.length_nil]; omega) hf
      | pvar x =>
          rw [parseUnary_flat_atom fuel (.pvar x) rest rfl
            (fun x2 y h => FExpr.noConfusion h) hwf (wordStop_of_followOk rest hf)]
          exact parseChain_chain [] (fuel + 1) (.pvar x) rest (by simp) (by simp only [List.length_nil]; omega) hf
      | lnum n =>
          rw [show (printExpr (.lnum n)).data ++ rest = (numToString n).data ++ rest from rfl]
          rw [parseUnary_num fuel n rest (wordStop_of_followOk rest hf)]
          exact parseChain_chain [] (fuel + 1) (.lnum n) rest (by simp) (by simp only [List.length_nil]; omega) hf
      | enot e2 =>
          rw [show (printExpr (.enot e2)).data ++ rest =
              '!' :: ((printExpr e2).data ++ rest) from by
            show ("!" ++ printExpr e2).data ++ rest = _
            rw [string_data_append]
            simp]
          simp only [parseUnary]
          rw [if_pos trivial]
          rw [ih e2 rest hwf
            (by rw [show esize (.enot e2) = esize e2 + 1 from rfl] at hsz; omega) hf]
      | ebin op a b =>
          rw [show wfExpr (.ebin op a b) = (wfExpr a && wfExpr b) from rfl] at hwf
          simp only [Bool.and_eq_true] at hwf
          rw [show esize (.ebin op a b) = esize a + esize b + 1 from rfl] at hsz
          have hpa := esize_pos a
          have hpb := esize_pos b
          rw [show (printExpr (.ebin op a b)).data ++ rest =
              '(' :: ((printExpr a).data ++ (' ' :: ((opText op).data ++
                (' ' :: ((printExpr b).data ++ (')' :: rest)))))) from by
            show ("(" ++ printExpr a ++ " " ++ opText op ++ " " ++ printExpr b ++ ")").data
              ++ rest = _
            simp only [string_data_append]
            simp [List.append_assoc]]
          rw [parseUnary_not_bang fuel '(' _ (by decide)]
          have hia := ih a
            (' ' :: ((opText op).data ++ (' ' :: ((printExpr b).data ++ (')' :: rest)))))
            hwf.1 (by omega) rfl
          have hib := ih b (')' :: rest) hwf.2 (by omega) rfl
          rw [parseAtom_paren_bin (parseUnary fuel) a b op
            ((printExpr a).data) ((printExpr b).data) rest hia hib]
          show parseChain (fuel + 1) (FExpr.ebin op a b) rest = some (FExpr.ebin op a b, rest)
          exact parseChain_chain [] (fuel + 1) (.ebin op a b) rest (by simp)
            (by simp only [List.length_nil]; omega) hf
      | member e2 n =>
          rw [show wfExpr (.member e2 n) =
            (wfExpr e2 && !(n = "") && n.data.all isIdentChar) from rfl] at hwf
          simp only [Bool.and_eq_true] at hwf
          obtain ⟨⟨hw2, hnn⟩, hna⟩ := hwf
          have hwb2 := spineBase_wf e2 hw2
          rw [show esize (.member e2 n) = esize e2 + 1 from rfl] at hsz
          have hss := spine_size e2
          have hbp := esize_pos (spineBase e2)
          have hns : ∀ m ∈ spineNames e2 ++ [n], m ≠ "" ∧ m.data.all isIdentChar = true := by
            intro m hm
            rcases List.mem_append.mp hm with h2 | h2
            · exact spineNames_wf e2 hw2 m h2
            · rw [List.mem_singleton] at h2
              subst h2
              refine ⟨?_, hna⟩
              intro he
              rw [he] at hnn
              simp at hnn
          have hlen : (spineNames e2 ++ [n]).length + 1 ≤ fuel + 1 := by
            rw [List.length_append]
            simp only [List.length_cons, List.length_nil]
            omega
          have hfold : (spineNames e2 ++ [n]).foldl (fun acc m => FExpr.member acc m)
              (spineBase e2) = FExpr.member e2 n := by
            rw [List.foldl_append, spine_foldl e2]
            rfl
          rw [show (printExpr (.member e2 n)).data ++ rest =
              atomData (spineBase e2) ++ (chainData (spineNames e2 ++ [n]) ++ rest) from by
            rw [pe_spine e2 n, List.append_assoc]]
          cases hwb : wrapBase (spineBase e2) with
          | true =>
              rw [show atomData (spineBase e2) ++ (chainData (spineNames e2 ++ [n]) ++ rest) =
                  '(' :: ((printExpr (spineBase e2)).data ++
                    (')' :: (chainData (spineNames e2 ++ [n]) ++ rest))) from by
                rw [atomData, if_pos hwb]
                simp]
              rw [parseUnary_not_bang fuel '(' _ (by decide)]
              have hib := ih (spineBase e2)
                (')' :: (chainData (spineNames e2 ++ [n]) ++ rest)) hwb2 (by omega) rfl
              rw [parseAtom_paren_base (parseUnary fuel) (spineBase e2)
                ((printExpr (spineBase e2)).data)
                (chainData (spineNames e2 ++ [n]) ++ rest) hib]
              show parseChain (fuel + 1) (spineBase e2) (chainData (spineNames e2 ++ [n]) ++ rest) =
                some (FExpr.member e2 n, rest)
              rw [parseChain_chain (spineNames e2 ++ [n]) (fuel + 1) (spineBase e2) rest
                hns hlen hf, hfold]
          | false =>
              rw [show atomData (spineBase e2) = (printExpr (spineBase e2)).data from by
                rw [atomData, if_neg (fun h => by rw [h] at hwb; exact Bool.noConfusion hwb)]]
              have hstop : wordStop (chainData (spineNames e2 ++ [n]) ++ rest) = true :=
                wordStop_chain (spineNames e2 ++ [n]) rest (by simp)
              rw [parseUnary_flat_atom fuel (spineBase e2)
                (chainData (spineNames e2 ++ [n]) ++ rest) hwb
                (spineBase_ne_member e2) hwb2 hstop]
              rw [parseChain_chain (spineNames e2 ++ [n]) (fuel + 1) (spineBase e2) rest
                hns hlen hf, hfold]

/-- Round trip of the statement printer through the statement parser. -/
theorem parseStmtChars_print (fuel : Nat) (b : FStmt)
    (hwf : wfStmt b = true) (hsz : ssize b ≤ fuel) :
    parseStmtChars fuel (printStmt b).data = some b := by
  cases b with
  | ret e =>
      have hwfe : wfExpr e = true := hwf
      have hsze : esize e + 1 ≤ fuel := hsz
      rw [show (printStmt (.ret e)).data =
          "return ".data ++ ((printExpr e).data ++ (';' :: [])) from by
        show ("return " ++ printExpr e ++ ";").data = _
        simp only [string_data_append]
        simp]
      have hpre : ("return ".data.isPrefixOf
          ("return ".data ++ ((printExpr e).data ++ (';' :: [])))) = true := by
        rw [List.isPrefixOf_iff_prefix]
        exact List.prefix_append _ _
      have hdrop : ("return ".data ++ ((printExpr e).data ++ (';' :: []))).drop 7 =
          (printExpr e).data ++ (';' :: []) := List.drop_left ("return ".data) _
      rw [parseStmtChars, if_pos hpre, hdrop]
      rw [parseUnary_print fuel e (';' :: []) hwfe (by omega) rfl]
      exact rfl
  | throwE m =>
      have hq : m.data.contains quoteC = false := by
        rw [show wfStmt (.throwE m) = !(m.data.contains quoteC) from rfl] at hwf
        simpa using hwf
      have hmem : ∀ d ∈ m.data, (!(d = quoteC)) = true := by
        intro d hd
        by_cases he : d = quoteC
        · subst he
          have hnm : quoteC ∉ m.data := by simpa using hq
          exact absurd hd hnm
        · simp [he]
      have htw := takeWhile_all_append (fun d => !(d = quoteC)) m.data
        (quoteC :: (')' :: (';' :: []))) hmem (by simp)
      rw [show (printStmt (.throwE m)).data =
          "throw new Error(".data ++ (quoteC :: (m.data ++ (quoteC :: (')' :: (';' :: []))))) from by
        show ("throw new Error(" ++ quoteS m ++ ");").data = _
        rw [quoteS]
        simp only [string_data_append]
        simp [List.append_assoc]]
      have hret : ("return ".data.isPrefixOf ("throw new Error(".data ++
          (quoteC :: (m.data ++ (quoteC :: (')' :: (';' :: []))))))) = false := rfl
      have hpre : ("throw new Error(".data.isPrefixOf ("throw new Error(".data ++
          (quoteC :: (m.data ++ (quoteC :: (')' :: (';' :: []))))))) = true := by
        rw [List.isPrefixOf_iff_prefix]
        exact List.prefix_append _ _
      have hdrop : ("throw new Error(".data ++
          (quoteC :: (m.data ++ (quoteC :: (')' :: (';' :: [])))))).drop 16 =
          quoteC :: (m.data ++ (quoteC :: (')' :: (';' :: [])))) :=
        List.drop_left ("throw new Error(".data) _
      rw [parseStmtChars, if_neg (by rw [hret]; decide), if_pos hpre]
      simp only [hdrop]
      rw [if_pos trivial]
      rw [htw.1, htw.2]
      exact rfl

/-- `dropWhile` is the identity when no element satisfies the predicate. -/
theorem dropWhile_all_false (p : Char → Bool) : ∀ (l : List Char),
    (∀ c ∈ l, p c = false) → l.dropWhile p = l := by
  intro l h
  cases l with
  | nil => rfl
  | cons c tl =>
      exact List.dropWhile_cons_of_neg (by rw [h c (by simp)]; decide)

/-- `trim` is the identity on whitespace-free strings. -/
theorem jsTrim_nonws (s : String) (h : ∀ c ∈ s.data, isWsChar c = false) :
    jsTrim s = s := by
  show String.mk (((s.data.dropWhile isWsChar).reverse.dropWhile isWsChar).reverse) = s
  rw [dropWhile_all_false isWsChar s.data h,
    dropWhile_all_false isWsChar s.data.reverse
      (fun c hc => h c (List.mem_reverse.mp hc))]
  simp

/-- `trim` removes a single leading space before a whitespace-free string. -/
theorem jsTrim_sp (x : String) (h : ∀ c ∈ x.data, isWsChar c = false) :
    jsTrim (String.mk (' ' :: x.data)) = x := by
  show String.mk ((((' ' :: x.data).dropWhile isWsChar).reverse.dropWhile isWsChar).reverse) = x
  rw [List.dropWhile_cons_of_pos (by decide),
    dropWhile_all_false isWsChar x.data h,
    dropWhile_all_false isWsChar x.data.reverse
      (fun c hc => h c (List.mem_reverse.mp hc))]
  simp

/-- `trim` is the identity on a string with non-whitespace first and last
characters. -/
theorem jsTrim_noop (c0 : Char) (mid : List Char) (cn : Char)
    (h0 : isWsChar c0 = false) (hn : isWsChar cn = false) :
    jsTrim (String.mk (c0 :: (mid ++ [cn]))) = String.mk (c0 :: (mid ++ [cn])) := by
  have hd1 : (c0 :: (mid ++ [cn])).dropWhile isWsChar = c0 :: (mid ++ [cn]) :=
    List.dropWhile_cons_of_neg (by rw [h0]; decide)
  have hrev : (c0 :: (mid ++ [cn])).reverse = cn :: (mid.reverse ++ [c0]) := by
    simp
  have hd2 : (cn :: (mid.reverse ++ [c0])).dropWhile isWsChar = cn :: (mid.reverse ++ [c0]) :=
    List.dropWhile_cons_of_neg (by rw [hn]; decide)
  show String.mk ((((c0 :: (mid ++ [cn])).dropWhile isWsChar).reverse.dropWhile isWsChar).reverse)
    = String.mk (c0 :: (mid ++ [cn]))
  rw [hd1, hrev, hd2]
  simp

/-- `trim` strips exactly one space on each side of a string with
non-whitespace first and last characters. -/
theorem jsTrim_pad1 (c0 : Char) (mid : List Char) (cn : Char)
    (h0 : isWsChar c0 = false) (hn : isWsChar cn = false) :
    jsTrim (String.mk (' ' :: ((c0 :: (mid ++ [cn])) ++ [' ']))) =
      String.mk (c0 :: (mid ++ [cn])) := by
  have hd1 : ((c0 :: (mid ++ [cn])) ++ [' ']).dropWhile isWsChar =
      (c0 :: (mid ++ [cn])) ++ [' '] := by
    rw [List.cons_append]
    exact List.dropWhile_cons_of_neg (by rw [h0]; decide)
  have hrev : ((c0 :: (mid ++ [cn])) ++ [' ']).reverse =
      ' ' :: (cn :: (mid.reverse ++ [c0])) := by
    simp
  have hd2 : (cn :: (mid.reverse ++ [c0])).dropWhile isWsChar = cn :: (mid.reverse ++ [c0]) :=
    List.dropWhile_cons_of_neg (by rw [hn]; decide)
  show String.mk ((((' ' :: ((c0 :: (mid ++ [cn])) ++ [' '])).dropWhile
    isWsChar).reverse.dropWhile isWsChar).reverse) = String.mk (c0 :: (mid ++ [cn]))
  rw [List.dropWhile_cons_of_pos (by decide), hd1, hrev,
    List.dropWhile_cons_of_pos (by decide), hd2]
  simp

/-- A printed statement starts with a non-whitespace letter and ends with a
semicolon. -/
theorem printStmt_decomp : ∀ b : FStmt,
    ∃ c0 mid, (printStmt b).data = c0 :: (mid ++ [';']) ∧ isWsChar c0 = false := by
  intro b
  cases b with
  | ret e =>
      refine ⟨'r', "eturn ".data ++ (printExpr e).data, ?_, by decide⟩
      show ("return " ++ printExpr e ++ ";").data = _
      simp only [string_data_append]
      simp
  | throwE m =>
      refine ⟨'t', "hrow new Error(".data ++ ((quoteS m).data ++ [')']), ?_, by decide⟩
      show ("throw new Error(" ++ quoteS m ++ ");").data = _
      simp only [string_data_append]
      simp

/-- Printed statements are already trimmed. -/
theorem jsTrim_printStmt (b : FStmt) : jsTrim (printStmt b) = printStmt b := by
  obtain ⟨c0, mid, hdata, h0⟩ := printStmt_decomp b
  have hs : printStmt b = String.mk (c0 :: (mid ++ [';'])) := by rw [← hdata]
  rw [hs]
  exact jsTrim_noop c0 mid ';' h0 (by decide)

/-- `trim` recovers a printed statement from its single-space padding. -/
theorem jsTrim_pad_stmt (b : FStmt) :
    jsTrim (String.mk (' ' :: ((printStmt b).data ++ [' ']))) = printStmt b := by
  obtain ⟨c0, mid, hdata, h0⟩ := printStmt_decomp b
  have hs : printStmt b = String.mk (c0 :: (mid ++ [';'])) := by rw [← hdata]
  rw [hdata, hs]
  exact jsTrim_pad1 c0 mid ';' h0 (by decide)

/-- The printed text of a well-formed expression is at least as long as the
expression's structural size (so the statement parser's fuel suffices). -/
theorem esize_le_printed : ∀ e : FExpr, wfExpr e = true →
    esize e ≤ (printExpr e).data.length
  | .lnull => fun _ => by decide
  | .lundef => fun _ => by decide
  | .lbool bb => fun _ => by cases bb <;> decide
  | .lnum n => fun _ => by
      show 1 ≤ (intDec n).length
      rw [intDec]
      by_cases hn : n < 0
      · rw [if_pos hn]
        simp
      · rw [if_neg hn]
        have h1 := natDec_ne_nil n.natAbs
        have h2 : 0 < (natDec n.natAbs).length := List.length_pos.mpr h1
        omega
  | .lstr s => fun _ => by
      show 1 ≤ (String.mk [quoteC] ++ s ++ String.mk [quoteC]).data.length
      simp only [string_data_append]
      simp
  | .pvar x => fun hwf => by
      show 1 ≤ x.data.length
      rw [show wfExpr (.pvar x) = (isValidIdent x && !(x = "undefined")) from rfl] at hwf
      simp only [Bool.and_eq_true] at hwf
      cases hx : x.data with
      | nil =>
          exfalso
          have hvi := hwf.1
          rw [show isValidIdent x = (match x.data with
            | [] => false
            | c :: rest => isIdentStart c && rest.all isIdentChar
                && !(reservedWords.contains x)) from rfl, hx] at hvi
          exact Bool.noConfusion hvi
      | cons c w2 => simp
  | .member e n => fun hwf => by
      rw [show wfExpr (.member e n) =
        (wfExpr e && !(n = "") && n.data.all isIdentChar) from rfl] at hwf
      simp only [Bool.and_eq_true] at hwf
      have ih : esize e ≤ (printExpr e).length := esize_le_printed e hwf.1.1
      show esize e + 1 ≤
        ((if wrapBase e then "(" ++ printExpr e ++ ")" else printExpr e) ++ "." ++ n).data.length
      by_cases hw : wrapBase e = true
      · rw [if_pos hw]
        simp only [string_data_append]
        simp only [List.length_append]
        simp
        omega
      · rw [if_neg hw]
        simp only [string_data_append]
        simp only [List.length_append]
        simp
        omega
  | .enot e => fun hwf => by
      have ih : esize e ≤ (printExpr e).length := esize_le_printed e hwf
      show esize e + 1 ≤ ("!" ++ printExpr e).data.length
      simp only [string_data_append]
      simp only [List.length_append]
      simp
      omega
  | .ebin op a b => fun hwf => by
      rw [show wfExpr (.ebin op a b) = (wfExpr a && wfExpr b) from rfl] at hwf
      simp only [Bool.and_eq_true] at hwf
      have iha : esize a ≤ (printExpr a).length := esize_le_printed a hwf.1
      have ihb : esize b ≤ (printExpr b).length := esize_le_printed b hwf.2
      show esize a + esize b + 1 ≤
        ("(" ++ printExpr a ++ " " ++ opText op ++ " " ++ printExpr b ++ ")").data.length
      simp only [string_data_append]
      simp only [List.length_append]
      simp
      omega

/-- The statement parser's fuel bound holds at the printed text's length. -/
theorem ssize_le_printed (b : FStmt) (hwf : wfStmt b = true) :
    ssize b ≤ (printStmt b).length + 1 := by
  cases b with
  | ret e =>
      have ih : esize e ≤ (printExpr e).length := esize_le_printed e hwf
      show esize e + 1 ≤ ("return " ++ printExpr e ++ ";").data.length + 1
      simp only [string_data_append]
      simp only [List.length_append]
      simp
      omega
  | throwE m =>
      show 1 ≤ (printStmt (.throwE m)).length + 1
      omega

/-- The body parser recovers a printed well-formed statement. -/
theorem parseBody_print (b : FStmt) (hwf : wfStmt b = true) :
    parseBody (printStmt b) = some b := by
  rw [parseBody, jsTrim_printStmt]
  exact parseStmtChars_print ((printStmt b).length + 1) b hwf (ssize_le_printed b hwf)

/-- `scanParen` takes the first closing parenthesis whose continuation
succeeds; over a parenthesis-free group it is exactly that group. -/
theorem scanParen_clean {a : Type} (tail : List Char → Option a) :
    ∀ (mid acc suffix : List Char) (r : a),
      (∀ c ∈ mid, (c = ')') = False) →
      tail suffix = some r →
      scanParen tail acc (mid ++ (')' :: suffix)) = some (acc.reverse ++ mid, r) := by
  intro mid
  induction mid with
  | nil =>
      intro acc suffix r _ ht
      show scanParen tail acc (')' :: suffix) = _
      rw [scanParen, if_pos rfl, ht]
      simp
  | cons c m2 ih =>
      intro acc suffix r h ht
      rw [List.cons_append, scanParen, if_neg (by
        intro he
        exact absurd (h c (by simp)) (by rw [he]; simp))]
      rw [ih (c :: acc) suffix r (fun d hd => h d (by simp [hd])) ht]
      simp

/-- Comma-free chunks pass through `splitCommaAux` into the accumulator. -/
theorem splitCommaAux_chunk : ∀ (x acc rest : List Char),
    (∀ c ∈ x, (c = ',') = False) →
    splitCommaAux acc (x ++ rest) = splitCommaAux (x.reverse ++ acc) rest := by
  intro x
  induction x with
  | nil => intro acc rest _; simp
  | cons c x2 ih =>
      intro acc rest h
      rw [List.cons_append, splitCommaAux, if_neg (by
        intro he
        exact absurd (h c (by simp)) (by rw [he]; simp))]
      rw [ih (c :: acc) rest (fun d hd => h d (by simp [hd]))]
      simp

/-- `String.intercalate.go` accumulates the comma-space continuation. -/
theorem intercalate_go_data : ∀ (xs : List String) (acc : String),
    (String.intercalate.go acc ", " xs).data = acc.data ++ joinCont xs := by
  intro xs
  induction xs with
  | nil => intro acc; simp [String.intercalate.go, joinCont]
  | cons x xs2 ih =>
      intro acc
      rw [String.intercalate.go, ih]
      simp only [string_data_append]
      rw [joinCont]
      simp [List.append_assoc]

/-- Character rendering of a comma-space `intercalate`. -/
theorem intercalate_data : ∀ (p : List String),
    (String.intercalate ", " p).data = joinComma p := by
  intro p
  cases p with
  | nil => rfl
  | cons x xs =>
      rw [show String.intercalate ", " (x :: xs) = String.intercalate.go x ", " xs from rfl,
        intercalate_go_data, joinComma]

/-- A valid identifier is nonempty and made of identifier characters. -/
theorem validIdent_chars (x : String) (h : isValidIdent x = true) :
    x.data ≠ [] ∧ ∀ c ∈ x.data, isIdentChar c = true := by
  cases hx : x.data with
  | nil =>
      rw [show isValidIdent x = (match x.data with
        | [] => false
        | c :: rest => isIdentStart c && rest.all isIdentChar
            && !(reservedWords.contains x)) from rfl, hx] at h
      exact Bool.noConfusion h
  | cons c w2 =>
      rw [show isValidIdent x = (match x.data with
        | [] => false
        | c :: rest => isIdentStart c && rest.all isIdentChar
            && !(reservedWords.contains x)) from rfl, hx] at h
      simp only [Bool.and_eq_true] at h
      refine ⟨by simp, ?_⟩
      intro d hd
      rcases List.mem_cons.mp hd with h2 | h2
      · subst h2
        simp [isIdentChar, h.1.1]
      · exact List.all_eq_true.mp h.1.2 d h2

/-- Characters of the parameter-separator continuation. -/
theorem joinCont_chars : ∀ (p : List String), (∀ x ∈ p, isValidIdent x = true) →
    ∀ c ∈ joinCont p, isIdentChar c = true ∨ c = ',' ∨ c = ' ' := by
  intro p
  induction p with
  | nil => intro _ c hc; cases hc
  | cons x xs ih =>
      intro h c hc
      rw [joinCont] at hc
      rcases List.mem_cons.mp hc with h2 | h2
      · exact Or.inr (Or.inl h2)
      rcases List.mem_cons.mp h2 with h3 | h3
      · exact Or.inr (Or.inr h3)
      rcases List.mem_append.mp h3 with h4 | h4
      · exact Or.inl ((validIdent_chars x (h x (by simp))).2 c h4)
      · exact ih (fun y hy => h y (by simp [hy])) c h4

/-- Characters of a printed parameter list body. -/
theorem joinComma_chars : ∀ (p : List String), (∀ x ∈ p, isValidIdent x = true) →
    ∀ c ∈ joinComma p, isIdentChar c = true ∨ c = ',' ∨ c = ' ' := by
  intro p h c hc
  cases p with
  | nil => cases hc
  | cons x xs =>
      rw [joinComma] at hc
      rcases List.mem_append.mp hc with h2 | h2
      · exact Or.inl ((validIdent_chars x (h x (by simp))).2 c h2)
      · exact joinCont_chars xs (fun y hy => h y (by simp [hy])) c h2

/-- No closing parenthesis occurs in a printed parameter list body. -/
theorem joinComma_no_paren (p : List String) (h : ∀ x ∈ p, isValidIdent x = true) :
    ∀ c ∈ joinComma p, (c = ')') = False := by
  intro c hc
  rcases joinComma_chars p h c hc with h2 | h2 | h2
  · exact identChar_not_char c ')' h2 (by decide)
  · subst h2; simp
  · subst h2; simp

/-- No comma occurs in a valid identifier. -/
theorem validIdent_no_comma (x : String) (h : isValidIdent x = true) :
    ∀ c ∈ x.data, (c = ',') = False := by
  intro c hc
  exact identChar_not_char c ',' ((validIdent_chars x h).2 c hc) (by decide)

/-- `splitCommaAux` cuts the separator continuation back into its
space-prefixed identifier chunks. -/
theorem splitAux_joinCont : ∀ (xs : List String) (acc : List Char),
    (∀ x ∈ xs, isValidIdent x = true) →
    splitCommaAux acc (joinCont xs) =
      String.mk acc.reverse :: xs.map (fun x => String.mk (' ' :: x.data)) := by
  intro xs
  induction xs with
  | nil => intro acc _; rfl
  | cons x xs2 ih =>
      intro acc h
      rw [joinCont, splitCommaAux, if_pos rfl]
      rw [show (' ' :: (x.data ++ joinCont xs2)) = (' ' :: x.data) ++ joinCont xs2 from by simp]
      rw [splitCommaAux_chunk (' ' :: x.data) [] (joinCont xs2) (by
        intro c hc
        rcases List.mem_cons.mp hc with h2 | h2
        · subst h2; simp
        · exact validIdent_no_comma x (h x (by simp)) c h2)]
      rw [ih ((' ' :: x.data).reverse ++ []) (fun y hy => h y (by simp [hy]))]
      simp

/-- `split(',')` then `trim` recovers the parameter names from their
comma-space join (the empty list joins to the empty string, which splits to
the one empty name JS produces). -/
theorem splitParams_join (p : List String) (h : ∀ x ∈ p, isValidIdent x = true) :
    splitParams (String.intercalate ", " p) = (match p with | [] => [""] | _ => p) := by
  cases p with
  | nil => rfl
  | cons x xs =>
      rw [splitParams, intercalate_data, joinComma]
      rw [splitCommaAux_chunk x.data [] (joinCont xs)
        (validIdent_no_comma x (h x (by simp)))]
      rw [splitAux_joinCont xs (x.data.reverse ++ []) (fun y hy => h y (by simp [hy]))]
      show (String.mk (x.data.reverse ++ []).reverse ::
        xs.map (fun y => String.mk (' ' :: y.data))).map jsTrim = x :: xs
      rw [List.map_cons]
      have hx : jsTrim (String.mk (x.data.reverse ++ []).reverse) = x := by
        have hrev : (x.data.reverse ++ []).reverse = x.data := by simp
        rw [hrev]
        show jsTrim x = x
        exact jsTrim_nonws x (fun c hc =>
          identChar_not_ws c ((validIdent_chars x (h x (by simp))).2 c hc))
      rw [hx]
      have hxs : ∀ (ys : List String), (∀ y ∈ ys, isValidIdent y = true) →
          (ys.map (fun y => String.mk (' ' :: y.data))).map jsTrim = ys := by
        intro ys
        induction ys with
        | nil => intro _; rfl
        | cons y ys2 ih2 =>
            intro h2
            rw [List.map_cons, List.map_cons]
            rw [jsTrim_sp y (fun c hc =>
              identChar_not_ws c ((validIdent_chars y (h2 y (by simp))).2 c hc))]
            rw [ih2 (fun z hz => h2 z (by simp [hz]))]
      rw [hxs xs (fun y hy => h y (by simp [hy]))]

/-- The body capture of the classic regex on the canonical text: everything
between the opening brace and the last brace, spaces included. -/
theorem classicTail_canon (b : FStmt) :
    classicTail (' ' :: (braceL :: (' ' :: ((printStmt b).data ++ (' ' :: (braceR :: [])))))) =
      some (' ' :: ((printStmt b).data ++ [' '])) := by
  have hsk : skipWs (' ' :: (braceL :: (' ' :: ((printStmt b).data ++ (' ' :: (braceR :: [])))))) =
      braceL :: (' ' :: ((printStmt b).data ++ (' ' :: (braceR :: [])))) := by
    simp only [skipWs]
    rw [List.dropWhile_cons_of_pos (by decide)]
    exact List.dropWhile_cons_of_neg (by decide)
  simp only [classicTail, hsk]
  rw [if_pos trivial]
  have hrev : (' ' :: ((printStmt b).data ++ (' ' :: (braceR :: [])))).reverse =
      braceR :: (' ' :: ((printStmt b).data.reverse ++ [' '])) := by
    simp
  have hdw : List.dropWhile isWsChar (braceR :: (' ' :: ((printStmt b).data.reverse ++ [' ']))) =
      braceR :: (' ' :: ((printStmt b).data.reverse ++ [' '])) :=
    List.dropWhile_cons_of_neg (by decide)
  simp only [bodyUpToLastBrace, hrev, hdw]
  rw [if_pos trivial]
  have hrev2 : (' ' :: ((printStmt b).data.reverse ++ [' '])).reverse =
      ' ' :: ((printStmt b).data ++ [' ']) := by
    simp
  rw [hrev2]

/-- The classic-function regex on the canonical text captures exactly the
parameter join and the space-padded body. -/
theorem regularFnMatch_canon (p : List String) (b : FStmt)
    (hp : ∀ x ∈ p, isValidIdent x = true) :
    regularFnMatch (classicCanon p b) =
      some (String.intercalate ", " p, String.mk (' ' :: ((printStmt b).data ++ [' ']))) := by
  have hsp : skipWs ('(' :: ((String.intercalate ", " p).data ++ (')' :: (' ' :: (braceL :: (' ' ::
      ((printStmt b).data ++ (' ' :: (braceR :: []))))))))) =
      '(' :: ((String.intercalate ", " p).data ++ (')' :: (' ' :: (braceL :: (' ' ::
      ((printStmt b).data ++ (' ' :: (braceR :: [])))))))) := by
    simp only [skipWs]
    exact List.dropWhile_cons_of_neg (by decide)
  have hscan := scanParen_clean classicTail ((String.intercalate ", " p).data) []
    (' ' :: (braceL :: (' ' :: ((printStmt b).data ++ (' ' :: (braceR :: []))))))
    (' ' :: ((printStmt b).data ++ [' ']))
    (fun c hc => joinComma_no_paren p hp c (by rw [intercalate_data] at hc; exact hc))
    (classicTail_canon b)
  simp only [regularFnMatch, classicCanon, classicCanonL, hsp, hscan]
  exact rfl

/-- `new Function` on the captured parameter and body texts rebuilds the
original parameters and body (in classic form). -/
theorem jsNewFunction_canon (p : List String) (b : FStmt)
    (hp : wfParams p = true) (hb : wfStmt b = true) :
    jsNewFunction (splitParams (String.intercalate ", " p))
      (jsTrim (String.mk (' ' :: ((printStmt b).data ++ [' '])))) =
      .ok (.fn p b .classic) := by
  rw [splitParams_join p (fun x hx => List.all_eq_true.mp hp x hx), jsTrim_pad_stmt b]
  cases p with
  | nil =>
      show jsNewFunction [""] (printStmt b) = .ok (.fn [] b .classic)
      rw [jsNewFunction]
      rw [if_pos (by decide)]
      rw [parseBody_print b hb]
  | cons x xs =>
      show jsNewFunction (x :: xs) (printStmt b) = .ok (.fn (x :: xs) b .classic)
      rw [jsNewFunction]
      · rw [if_pos (show (x :: xs).all isValidIdent = true from hp), parseBody_print b hb]
      · intro heq
        rw [heq] at hp
        exact absurd hp (by decide)

/-- Reading a serialized function record is reading its stored code text
(`original || code` — both hold the same string). -/
theorem deserializeFunction_record (code : String) :
    deserializeFunction (.obj (.cons "__type" (.str "function")
      (.cons "code" (.str code) (.cons "original" (.str code) .nil)))) =
      deserializeFunction (.str code) := by
  have h1 : DFields.get (.cons "__type" (.str "function")
      (.cons "code" (.str code) (.cons "original" (.str code) .nil))) "original" =
      .str code := rfl
  have h2 : DFields.get (.cons "__type" (.str "function")
      (.cons "code" (.str code) (.cons "original" (.str code) .nil))) "code" =
      .str code := rfl
  rw [deserializeFunction, deserializeFunction, h1, h2]
  cases htr : truthy (.str code) with
  | true => rw [if_pos rfl]
  | false => rw [if_neg (by decide)]

/-- Deserializing a stored source text whose normalization is the canonical
classic shape rebuilds the parameters and body in classic form. -/
theorem deserializeFunction_str_classic (code : String) (p : List String) (b : FStmt)
    (hp : wfParams p = true) (hb : wfStmt b = true)
    (hnorm : jsTrim (collapseWs (removeFirst "function anonymous"
      (stripFnKeyword (jsTrim code)))) = classicCanon p b)
    (hnoarrow : containsSub "=>" (classicCanon p b) = false) :
    deserializeFunction (.str code) = .ok (.fn p b .classic) := by
  rw [deserializeFunction]
  rw [hnorm]
  rw [if_neg (by rw [hnoarrow]; decide)]
  simp only [regularFnMatch_canon p b (fun x hx => List.all_eq_true.mp hp x hx)]
  rw [jsNewFunction_canon p b hp hb]
  rfl

/-- C1: the round-trip law `deserialize(serialize(m))` ≍ `m` does not hold
in general (see the whitespace-collapse counterexample); the amended law
proved here: for every function value — parameters `p`, body `b`, surface
form `f` — with valid identifier parameters and a well-formed single-return
or single-throw body, whose stored source text survives the deserializer's
normalization chain (trim, `function`-keyword strip, `function anonymous`
removal, whitespace collapse, trim) as the canonical classic text
`(params) \x7b body \x7d` free of `=>`, deserializing its serialized record
rebuilds exactly the same parameters and body (in classic surface form);
and the surface form of a function never affects calling it, so the rebuilt
function is behaviorally equivalent to the original. -/
theorem C1_round_trip_amended :
    (∀ (p : List String) (b : FStmt) (f : FForm),
      wfParams p = true → wfStmt b = true →
      jsTrim (collapseWs (removeFirst "function anonymous"
        (stripFnKeyword (jsTrim (jsTrim (replaceNl (printFunc p b f))))))) =
        classicCanon p b →
      containsSub "=>" (classicCanon p b) = false →
      deserializeFunction (serializeFunction p b f) = .ok (.fn p b .classic)) ∧
    (∀ (p : List String) (b : FStmt) (f f2 : FForm) (args : List DVal),
      jsCall (.fn p b f) args = jsCall (.fn p b f2) args) := by
  constructor
  · intro p b f hp hb hnorm hnoarrow
    have hser : serializeFunction p b f = .obj (.cons "__type" (.str "function")
        (.cons "code" (.str (jsTrim (replaceNl (printFunc p b f))))
          (.cons "original" (.str (jsTrim (replaceNl (printFunc p b f)))) .nil))) := rfl
    rw [hser, deserializeFunction_record,
      deserializeFunction_str_classic (jsTrim (replaceNl (printFunc p b f))) p b hp hb
        hnorm hnoarrow]
  · intro p b f f2 args
    rfl

/-- Witness for C1: the concrete classic-form function
`function (v) \x7b return (v === 5); \x7d` satisfies every hypothesis and
round-trips to its own parameters and body. -/
theorem C1_round_trip_amended_witness :
    wfParams ["v"] = true ∧
    wfStmt (.ret (.ebin .eq3 (.pvar "v") (.lnum 5))) = true ∧
    deserializeFunction (serializeFunction ["v"]
        (.ret (.ebin .eq3 (.pvar "v") (.lnum 5))) .classic) =
      .ok (.fn ["v"] (.ret (.ebin .eq3 (.pvar "v") (.lnum 5))) .classic) :=
  ⟨by decide, by decide,
    C1_round_trip_amended.1 ["v"] (.ret (.ebin .eq3 (.pvar "v") (.lnum 5))) .classic
      (by decide) (by decide) rfl rfl⟩
